import Mathlib

/-!
Verification of the core of the fast-approximate-filtering library
(Nardini, Trani, Venturini: "Fast Approximate Filtering of Search Results
Sorted by Attribute", SIGIR 2019 implementation).

The development shallowly embeds the C++ sources over exact arithmetic
(`ℚ` in place of IEEE floats, `ℕ` in place of the fixed-width index types):

* `FilterSpirin::filter_impl` (src/filters/filter_spirin.hpp): the exact
  Filtering@k dynamic program, its flat (triangular + rectangular) storage
  layout, the last-row argmax and the trace-back;
* `PrunerCutoff`, `PrunerTopk`, `PrunerTopkOptimized`, `PrunerEpsPruning`
  together with the `heapq` binary-heap routines they use;
* the pruner/filter composition of `PrunerFilterCompositionTest`.

Gain and discount functions are passed as parameters; the theorems assume
exactly the properties shared by the two metrics of the library (DCG and
DCGlz): gains of the stored relevances are nonnegative (and, where needed,
monotone in the relevance), discounts are nonnegative and nonincreasing.
-/

namespace FAF

/-- Score of a solution: item at 0-based position `p` contributes
`g i * d p`, mirroring `score_solution` in the utils header where the
element `indices[i]` is scored with discount at position `i + 1`
(our `d p` stands for the metric discount at rank `p + 1`). -/
def solScoreAux (g d : ℕ → ℚ) : ℕ → List ℕ → ℚ
  | _, [] => 0
  | p, i :: rest => g i * d p + solScoreAux g d (p + 1) rest

/-- Score of a solution starting at the first rank. -/
def solScore (g d : ℕ → ℚ) (S : List ℕ) : ℚ :=
  solScoreAux g d 0 S

/-- Cell `[row, col]` of the dynamic-programming matrix of
`FilterSpirin::filter_impl` (lines 69-111): the recurrence is read off the
three kinds of writes (column 0, middle columns, diagonal).  `d c` is the
`discounts[c]` buffer entry, that is the metric discount of rank `c + 1`. -/
def spirinM (g d : ℕ → ℚ) : ℕ → ℕ → ℚ
  | 0, 0 => g 0 * d 0
  | 0, _ + 1 => 0
  | r + 1, 0 => max (spirinM g d r 0) (g (r + 1) * d 0)
  | r + 1, c + 1 =>
      if c + 1 = r + 1 then spirinM g d r c + g (r + 1) * d (c + 1)
      else max (spirinM g d r (c + 1)) (spirinM g d r c + g (r + 1) * d (c + 1))

/-- Number of matrix cells stored for row `r`: rows `0 ≤ r < k` are
triangular with `r + 1` cells, later rows hold `k` cells. -/
def rowEntries (k r : ℕ) : ℕ := if r < k then r + 1 else k

/-- Offset of row `r` inside the flat array; mirrors the incremental
`curr_row_shift = prev_row_shift + row` (triangular part) and
`curr_row_shift = prev_row_shift + k` (rectangular part) updates. -/
def rowShift (k : ℕ) : ℕ → ℕ
  | 0 => 0
  | r + 1 => rowShift k r + rowEntries k r

/-- The flat array `M` of `filter_impl` after the filling loops: the rows
are laid out one after the other. -/
def spirinFlat (g d : ℕ → ℚ) (k n : ℕ) : List ℚ :=
  (List.range n).flatMap fun r => (List.range (rowEntries k r)).map (spirinM g d r)

/-- Last-row argmax (lines 115-122): fold over the columns starting from
score `0` and column `0`, updating on strictly larger cells. -/
def bestColumn (Mf : ℕ → ℚ) (cs k : ℕ) : ℚ × ℕ :=
  (List.range k).foldl
    (fun p col => if Mf (cs + col) > p.1 then (Mf (cs + col), col) else p) (0, 0)

/-- Trace-back loop (lines 125-135) on the flat array accessor `Mf`.
`r` is the current row, `cs` its shift, `bc` the current column.  The
result carries the final `curr_row_shift`, the collected indices (in
increasing order: the C++ code pushes them back in decreasing row order
and reverses at the end), and the list of flat positions read. -/
def tbStep (Mf : ℕ → ℚ) (k : ℕ) : ℕ → ℕ → ℕ → List ℕ → ℕ × List ℕ × List ℕ
  | 0, cs, _, acc => (cs, acc, [])
  | r + 1, cs, bc, acc =>
    let ps := cs - (if r + 1 < k then r + 1 else k)
    if Mf (cs + bc) > Mf (ps + bc) then
      if bc = 0 then (cs, (r + 1) :: acc, [cs + bc, ps + bc])
      else
        let res := tbStep Mf k r ps (bc - 1) ((r + 1) :: acc)
        (res.1, res.2.1, (cs + bc) :: (ps + bc) :: res.2.2)
    else
      let res := tbStep Mf k r ps bc acc
      (res.1, res.2.1, (cs + bc) :: (ps + bc) :: res.2.2)

/-- Indices produced by the trace-back: the loop of `tbStep` followed by
the final `if (curr_row_shift == 0) push_back(0)` of lines 136-138. -/
def tbOut (Mf : ℕ → ℚ) (k r cs bc : ℕ) (acc : List ℕ) : List ℕ :=
  let t := tbStep Mf k r cs bc acc
  if t.1 = 0 then 0 :: t.2.1 else t.2.1

/-- `FilterSpirin::filter_impl`: returns the pair (score, indices).
Empty input or `k = 0` return the empty solution; otherwise `k` is clamped
to `n`, the matrix is filled, the best last-row column located and the
trace-back run. -/
def filterSpirin (gainF : ℚ → ℚ) (d : ℕ → ℚ) (k : ℕ) (rel : List ℚ) : ℚ × List ℕ :=
  let n := rel.length
  if n = 0 ∨ k = 0 then (0, [])
  else
    let kk := min k n
    let g : ℕ → ℚ := fun i => gainF (rel.getD i 0)
    let Mf : ℕ → ℚ := fun i => (spirinFlat g d kk n).getD i 0
    let cs := rowShift kk (n - 1)
    let best := bestColumn Mf cs kk
    (best.1, tbOut Mf kk (n - 1) cs best.2 [])

/-! ### Basic facts about scores and the dynamic-programming matrix -/

lemma sorted_append_iff {S T : List ℕ} :
    (S ++ T).Sorted (· < ·) ↔
      S.Sorted (· < ·) ∧ T.Sorted (· < ·) ∧ ∀ a ∈ S, ∀ b ∈ T, a < b :=
  List.pairwise_append

lemma solScoreAux_append (g d : ℕ → ℚ) (p : ℕ) (S T : List ℕ) :
    solScoreAux g d p (S ++ T) = solScoreAux g d p S + solScoreAux g d (p + S.length) T := by
  induction S generalizing p with
  | nil => simp [solScoreAux]
  | cons x xs ih =>
    have harith : p + 1 + xs.length = p + (xs.length + 1) := by omega
    show g x * d p + solScoreAux g d (p + 1) (xs ++ T) = _
    rw [ih (p + 1), harith]
    show _ = g x * d p + solScoreAux g d (p + 1) xs + solScoreAux g d (p + (xs.length + 1)) T
    have : p + 1 + xs.length = p + (xs.length + 1) := harith
    rw [← this]
    ring

lemma solScoreAux_nonneg (g d : ℕ → ℚ) (p : ℕ) (S : List ℕ)
    (hg : ∀ i ∈ S, 0 ≤ g i) (hd : ∀ q, p ≤ q → q < p + S.length → 0 ≤ d q) :
    0 ≤ solScoreAux g d p S := by
  induction S generalizing p with
  | nil => simp [solScoreAux]
  | cons x xs ih =>
    have h1 : 0 ≤ g x * d p := by
      apply mul_nonneg (hg x (by simp))
      exact hd p le_rfl (by simp)
    have h2 : 0 ≤ solScoreAux g d (p + 1) xs := by
      apply ih (p + 1) (fun i hi => hg i (by simp [hi]))
      intro q hq1 hq2
      apply hd q (by omega)
      simp only [List.length_cons]
      omega
    simpa [solScoreAux] using add_nonneg h1 h2

lemma spirinM_row_le (g d : ℕ → ℚ) {r c : ℕ} (hc : c ≤ r) :
    spirinM g d r c ≤ spirinM g d (r + 1) c := by
  cases c with
  | zero => exact le_max_left _ _
  | succ c' =>
    have hne : ¬(c' + 1 = r + 1) := by omega
    simp only [spirinM, hne, if_false]
    exact le_max_left _ _

lemma spirinM_extend (g d : ℕ → ℚ) {r c : ℕ} (hc : c ≤ r) :
    spirinM g d r c + g (r + 1) * d (c + 1) ≤ spirinM g d (r + 1) (c + 1) := by
  rcases eq_or_lt_of_le hc with h | h
  · subst h
    simp [spirinM]
  · have hne : ¬(c + 1 = r + 1) := by omega
    simp only [spirinM, hne, if_false]
    exact le_max_right _ _

lemma spirinM_diag (g d : ℕ → ℚ) (r : ℕ) :
    spirinM g d (r + 1) (r + 1) = spirinM g d r r + g (r + 1) * d (r + 1) := by
  simp [spirinM]

lemma spirinM_col0_max (g d : ℕ → ℚ) (r : ℕ) :
    spirinM g d (r + 1) 0 = max (spirinM g d r 0) (g (r + 1) * d 0) := rfl

lemma spirinM_mid_max (g d : ℕ → ℚ) {r c : ℕ} (hc : c + 1 ≤ r) :
    spirinM g d (r + 1) (c + 1) =
      max (spirinM g d r (c + 1)) (spirinM g d r c + g (r + 1) * d (c + 1)) := by
  have hne : ¬(c + 1 = r + 1) := by omega
  simp [spirinM, hne]

lemma single_le_col0 (g d : ℕ → ℚ) {i r : ℕ} (h : i ≤ r) :
    g i * d 0 ≤ spirinM g d r 0 := by
  induction r with
  | zero =>
    have : i = 0 := by omega
    subst this
    simp [spirinM]
  | succ r ih =>
    rcases Nat.lt_or_ge i (r + 1) with h' | h'
    · exact le_trans (ih (by omega)) (spirinM_row_le g d (Nat.zero_le r))
    · have hi : i = r + 1 := by omega
      subst hi
      rw [spirinM_col0_max]
      exact le_max_right _ _

lemma sorted_lt_length_le {S : List ℕ} {b : ℕ} (hs : S.Sorted (· < ·))
    (hb : ∀ i ∈ S, i < b) : S.length ≤ b := by
  have hsub : S ⊆ List.range b := fun i hi => List.mem_range.mpr (hb i hi)
  have := (hs.nodup.subperm hsub).length_le
  simpa using this

lemma solScore_le_spirinM (g d : ℕ → ℚ) :
    ∀ (r : ℕ) (S : List ℕ) (c : ℕ), S.Sorted (· < ·) → (∀ i ∈ S, i ≤ r) →
      S.length = c + 1 → solScoreAux g d 0 S ≤ spirinM g d r c := by
  intro r
  induction r with
  | zero =>
    intro S c hs hb hl
    have hc : c = 0 := by
      have := sorted_lt_length_le (b := 1) hs (fun i hi => by
        have := hb i hi; omega)
      omega
    subst hc
    match S, hl with
    | [i], _ =>
      have : i = 0 := by have := hb i (by simp); omega
      subst this
      simp [solScoreAux, spirinM]
  | succ r ih =>
    intro S c hs hb hl
    rcases List.eq_nil_or_concat S with rfl | ⟨T, b, rfl⟩
    · simp at hl
    rw [List.concat_eq_append] at hs hb hl ⊢
    rw [sorted_append_iff] at hs
    obtain ⟨hT, -, hTb⟩ := hs
    have hTb' : ∀ a ∈ T, a < b := fun a ha => hTb a ha b (by simp)
    have hbmem : b ≤ r + 1 := hb b (by simp)
    have hsorted : (T ++ [b]).Sorted (· < ·) :=
      sorted_append_iff.mpr ⟨hT, by simp, hTb⟩
    rcases Nat.lt_or_ge b (r + 1) with hbr | hbr
    · -- every element is at most r : use the previous row
      have hb' : ∀ i ∈ T ++ [b], i ≤ r := by
        intro i hi
        rcases List.mem_append.mp hi with hi | hi
        · have := hTb' i hi; omega
        · simp at hi; omega
      have hcr : c ≤ r := by
        have h1 := sorted_lt_length_le (b := r + 1) hsorted
          (fun i hi => by have := hb' i hi; omega)
        rw [hl] at h1
        omega
      exact le_trans (ih (T ++ [b]) c hsorted hb' hl) (spirinM_row_le g d hcr)
    · have hb1 : b = r + 1 := by omega
      subst hb1
      have hTr : ∀ i ∈ T, i ≤ r := fun i hi => by have := hTb' i hi; omega
      have hTl : T.length = c := by
        simp at hl
        omega
      rw [solScoreAux_append]
      simp only [solScoreAux, hTl, Nat.zero_add]
      cases c with
      | zero =>
        have hT0 : T = [] := List.length_eq_zero.mp hTl
        subst hT0
        simp only [solScoreAux]
        have : g (r + 1) * d 0 ≤ spirinM g d (r + 1) 0 := by
          rw [spirinM_col0_max]; exact le_max_right _ _
        linarith
      | succ c' =>
        have hc'r : c' ≤ r := by
          have := sorted_lt_length_le (b := r + 2) hsorted
            (fun i hi => by have := hb i hi; omega)
          simp at this
          omega
        have ihT := ih T c' hT hTr hTl
        have hext := spirinM_extend g d hc'r
        have hfin : solScoreAux g d 0 T + g (r + 1) * d (c' + 1) ≤
            spirinM g d (r + 1) (c' + 1) := by linarith
        linarith

lemma spirinM_exists_sol (g d : ℕ → ℚ) :
    ∀ (r c : ℕ), c ≤ r → ∃ S : List ℕ, S.Sorted (· < ·) ∧ (∀ i ∈ S, i ≤ r) ∧
      S.length = c + 1 ∧ solScoreAux g d 0 S = spirinM g d r c := by
  intro r
  induction r with
  | zero =>
    intro c hc
    have : c = 0 := by omega
    subst this
    exact ⟨[0], by simp, by simp, by simp, by simp [solScoreAux, spirinM]⟩
  | succ r ih =>
    intro c hc
    have happend : ∀ (S : List ℕ), S.Sorted (· < ·) → (∀ i ∈ S, i ≤ r) →
        (S ++ [r + 1]).Sorted (· < ·) ∧ (∀ i ∈ S ++ [r + 1], i ≤ r + 1) ∧
          solScoreAux g d 0 (S ++ [r + 1]) = solScoreAux g d 0 S + g (r + 1) * d S.length := by
      intro S hS hSb
      refine ⟨sorted_append_iff.mpr ⟨hS, by simp, ?_⟩, ?_, ?_⟩
      · intro x hx y hy
        simp at hy
        subst hy
        have := hSb x hx
        omega
      · intro i hi
        rcases List.mem_append.mp hi with hi | hi
        · have := hSb i hi; omega
        · simp at hi; omega
      · rw [solScoreAux_append]
        simp [solScoreAux]
    cases c with
    | zero =>
      rcases le_or_lt (spirinM g d r 0) (g (r + 1) * d 0) with h | h
      · refine ⟨[r + 1], by simp, by simp, by simp, ?_⟩
        simp only [solScoreAux, spirinM_col0_max]
        rw [max_eq_right h]
        ring
      · obtain ⟨S, hS, hSb, hSl, hSs⟩ := ih 0 (Nat.zero_le r)
        refine ⟨S, hS, fun i hi => by have := hSb i hi; omega, hSl, ?_⟩
        rw [hSs, spirinM_col0_max, max_eq_left h.le]
    | succ c' =>
      rcases eq_or_lt_of_le hc with hdiag | hlt
      · -- diagonal cell
        have hcr' : c' = r := by omega
        obtain ⟨S, hS, hSb, hSl, hSs⟩ := ih r le_rfl
        obtain ⟨h1, h2, h3⟩ := happend S hS hSb
        refine ⟨S ++ [r + 1], h1, h2, by simp [hSl, hcr'], ?_⟩
        rw [h3, hSl, hcr', hSs, spirinM_diag]
      · have hcr : c' + 1 ≤ r := by omega
        rw [spirinM_mid_max g d hcr]
        rcases le_or_lt (spirinM g d r c' + g (r + 1) * d (c' + 1))
            (spirinM g d r (c' + 1)) with h | h
        · obtain ⟨S, hS, hSb, hSl, hSs⟩ := ih (c' + 1) hcr
          refine ⟨S, hS, fun i hi => by have := hSb i hi; omega, hSl, ?_⟩
          rw [hSs, max_eq_left h]
        · obtain ⟨S, hS, hSb, hSl, hSs⟩ := ih c' (by omega)
          obtain ⟨h1, h2, h3⟩ := happend S hS hSb
          refine ⟨S ++ [r + 1], h1, h2, by simp [hSl], ?_⟩
          rw [h3, hSl, hSs, max_eq_right h.le]

lemma spirinM_nonneg (g d : ℕ → ℚ) {r c : ℕ} (hc : c ≤ r)
    (hg : ∀ i, i ≤ r → 0 ≤ g i) (hd : ∀ q, q ≤ c → 0 ≤ d q) :
    0 ≤ spirinM g d r c := by
  obtain ⟨S, hS, hSb, hSl, hSs⟩ := spirinM_exists_sol g d r c hc
  rw [← hSs]
  apply solScoreAux_nonneg
  · exact fun i hi => hg i (hSb i hi)
  · intro q hq1 hq2
    apply hd
    omega

/-! ### The flat storage layout -/

lemma rowEntries_pos {k r : ℕ} (hk : 0 < k) : 0 < rowEntries k r := by
  unfold rowEntries
  split <;> omega

lemma rowShift_mono (k : ℕ) {r s : ℕ} (h : r ≤ s) : rowShift k r ≤ rowShift k s := by
  induction s with
  | zero =>
    have : r = 0 := by omega
    subst this
    exact le_rfl
  | succ s ih =>
    rcases Nat.lt_or_ge r (s + 1) with h' | h'
    · calc rowShift k r ≤ rowShift k s := ih (by omega)
        _ ≤ rowShift k s + rowEntries k s := by omega
        _ = rowShift k (s + 1) := rfl
    · have : r = s + 1 := by omega
      subst this
      exact le_rfl

lemma rowShift_add_lt {k r c n : ℕ} (hr : r < n) (hc : c < rowEntries k r) :
    rowShift k r + c < rowShift k n := by
  have h1 : rowShift k r + c < rowShift k (r + 1) := by
    show rowShift k r + c < rowShift k r + rowEntries k r
    omega
  exact lt_of_lt_of_le h1 (rowShift_mono k hr)

lemma rowShift_pos {k r : ℕ} (hk : 0 < k) : 0 < rowShift k (r + 1) := by
  show 0 < rowShift k r + rowEntries k r
  have := rowEntries_pos (r := r) hk
  omega

lemma rowShift_sub (k r : ℕ) :
    rowShift k (r + 1) - (if r + 1 < k then r + 1 else k) = rowShift k r := by
  show rowShift k r + rowEntries k r - _ = rowShift k r
  have : rowEntries k r = if r + 1 < k then r + 1 else k := by
    unfold rowEntries
    split <;> split <;> omega
  omega

lemma spirinFlat_length (g d : ℕ → ℚ) (k n : ℕ) :
    (spirinFlat g d k n).length = rowShift k n := by
  induction n with
  | zero => simp [spirinFlat, rowShift]
  | succ n ih =>
    show ((List.range (n + 1)).flatMap _).length = _
    rw [List.range_succ, List.flatMap_append]
    simp only [List.length_append]
    rw [show ((List.range n).flatMap fun r =>
      (List.range (rowEntries k r)).map (spirinM g d r)) = spirinFlat g d k n from rfl, ih]
    simp [rowShift]

lemma spirinFlat_getD (g d : ℕ → ℚ) (k : ℕ) :
    ∀ (n r c : ℕ), r < n → c < rowEntries k r →
      (spirinFlat g d k n).getD (rowShift k r + c) 0 = spirinM g d r c := by
  intro n
  induction n with
  | zero => omega
  | succ n ih =>
    intro r c hr hc
    show ((List.range (n + 1)).flatMap _).getD _ _ = _
    rw [List.range_succ, List.flatMap_append]
    have hpre : ((List.range n).flatMap fun r =>
        (List.range (rowEntries k r)).map (spirinM g d r)) = spirinFlat g d k n := rfl
    rcases Nat.lt_or_ge r n with h | h
    · rw [List.getD_append]
      · exact ih r c h hc
      · rw [hpre, spirinFlat_length]
        exact rowShift_add_lt h hc
    · have hrn : r = n := by omega
      subst hrn
      rw [List.getD_append_right]
      · rw [hpre, spirinFlat_length]
        simp only [List.flatMap_cons, List.flatMap_nil, List.append_nil]
        have hsub : rowShift k r + c - rowShift k r = c := by omega
        rw [hsub, List.getD_eq_getElem?_getD, List.getElem?_map, List.getElem?_range hc]
        rfl
      · rw [hpre, spirinFlat_length]
        omega

/-! ### The last-row argmax -/

lemma bestColumn_spec (Mf : ℕ → ℚ) (cs : ℕ) :
    ∀ k : ℕ, (bestColumn Mf cs k).2 < max k 1 ∧
      0 ≤ (bestColumn Mf cs k).1 ∧
      ((bestColumn Mf cs k).1 = Mf (cs + (bestColumn Mf cs k).2) ∨
        ((bestColumn Mf cs k).1 = 0 ∧ (bestColumn Mf cs k).2 = 0)) ∧
      (∀ c, c < k → Mf (cs + c) ≤ (bestColumn Mf cs k).1) ∧
      (∀ c, c < (bestColumn Mf cs k).2 → Mf (cs + c) < (bestColumn Mf cs k).1) := by
  intro k
  induction k with
  | zero =>
    refine ⟨by simp [bestColumn], le_rfl, Or.inr ⟨rfl, rfl⟩, by omega, by simp [bestColumn]⟩
  | succ k ih =>
    obtain ⟨ih1, ih2, ih3, ih4, ih5⟩ := ih
    have hstep : bestColumn Mf cs (k + 1) =
        (if Mf (cs + k) > (bestColumn Mf cs k).1
          then (Mf (cs + k), k) else bestColumn Mf cs k) := by
      unfold bestColumn
      rw [List.range_succ, List.foldl_append]
      rfl
    by_cases h : Mf (cs + k) > (bestColumn Mf cs k).1
    · rw [hstep, if_pos h]
      refine ⟨by simp, le_trans ih2 h.le, Or.inl rfl, ?_, ?_⟩
      · intro c hc
        rcases Nat.lt_or_ge c k with h' | h'
        · exact le_trans (ih4 c h') h.le
        · have : c = k := by omega
          subst this
          exact le_rfl
      · intro c hc
        exact lt_of_le_of_lt (ih4 c hc) h
    · rw [hstep, if_neg h]
      refine ⟨by omega, ih2, ih3, ?_, ih5⟩
      intro c hc
      rcases Nat.lt_or_ge c k with h' | h'
      · exact ih4 c h'
      · have : c = k := by omega
        subst this
        exact le_of_not_lt h

/-! ### Unfolding the trace-back -/

lemma tbOut_zero (Mf : ℕ → ℚ) (k cs bc : ℕ) (acc : List ℕ) :
    tbOut Mf k 0 cs bc acc = if cs = 0 then 0 :: acc else acc := rfl

lemma tbStep_succ (Mf : ℕ → ℚ) (k r cs bc : ℕ) (acc : List ℕ) :
    tbStep Mf k (r + 1) cs bc acc =
      (let ps := cs - (if r + 1 < k then r + 1 else k)
       if Mf (cs + bc) > Mf (ps + bc) then
         if bc = 0 then (cs, (r + 1) :: acc, [cs + bc, ps + bc])
         else
           let res := tbStep Mf k r ps (bc - 1) ((r + 1) :: acc)
           (res.1, res.2.1, (cs + bc) :: (ps + bc) :: res.2.2)
       else
         let res := tbStep Mf k r ps bc acc
         (res.1, res.2.1, (cs + bc) :: (ps + bc) :: res.2.2)) := rfl

lemma tbOut_succ_sel (Mf : ℕ → ℚ) (k r cs bc : ℕ) (acc : List ℕ)
    (h : Mf (cs + bc) > Mf (cs - (if r + 1 < k then r + 1 else k) + bc)) (hbc : bc ≠ 0) :
    tbOut Mf k (r + 1) cs bc acc =
      tbOut Mf k r (cs - (if r + 1 < k then r + 1 else k)) (bc - 1) ((r + 1) :: acc) := by
  unfold tbOut
  rw [tbStep_succ]
  simp [h, hbc]

lemma tbOut_succ_break (Mf : ℕ → ℚ) (k r cs : ℕ) (acc : List ℕ)
    (h : Mf cs > Mf (cs - (if r + 1 < k then r + 1 else k))) (hcs : cs ≠ 0) :
    tbOut Mf k (r + 1) cs 0 acc = (r + 1) :: acc := by
  unfold tbOut
  rw [tbStep_succ]
  simp [h, hcs]

lemma tbOut_succ_skip (Mf : ℕ → ℚ) (k r cs bc : ℕ) (acc : List ℕ)
    (h : ¬(Mf (cs + bc) > Mf (cs - (if r + 1 < k then r + 1 else k) + bc))) :
    tbOut Mf k (r + 1) cs bc acc =
      tbOut Mf k r (cs - (if r + 1 < k then r + 1 else k)) bc acc := by
  unfold tbOut
  rw [tbStep_succ]
  simp [h]

/-- Structural properties of the trace-back, valid for any accessor:
the collected indices are strictly increasing, at most `bc + 1` indices are
added to the accumulator, and every index comes from the accumulator or is
a row number at most `r`. -/
lemma tbOut_basic (Mf : ℕ → ℚ) (k : ℕ) (hk : 0 < k) :
    ∀ (r bc : ℕ) (acc : List ℕ), (∀ a ∈ acc, r < a) → acc.Sorted (· < ·) →
      (tbOut Mf k r (rowShift k r) bc acc).Sorted (· < ·) ∧
      (tbOut Mf k r (rowShift k r) bc acc).length ≤ bc + 1 + acc.length ∧
      ∀ a ∈ tbOut Mf k r (rowShift k r) bc acc, a ∈ acc ∨ a ≤ r := by
  intro r
  induction r with
  | zero =>
    intro bc acc hacc hs
    have h0 : rowShift k 0 = 0 := rfl
    rw [tbOut_zero, h0, if_pos rfl]
    refine ⟨List.sorted_cons.mpr ⟨fun b hb => hacc b hb, hs⟩, by simp; omega, ?_⟩
    intro a ha
    rcases List.mem_cons.mp ha with rfl | ha
    · exact Or.inr le_rfl
    · exact Or.inl ha
  | succ r ih =>
    intro bc acc hacc hs
    have hacc' : ∀ a ∈ (r + 1) :: acc, r < a := by
      intro a ha
      rcases List.mem_cons.mp ha with rfl | ha
      · omega
      · have := hacc a ha; omega
    have hs' : ((r + 1) :: acc).Sorted (· < ·) :=
      List.sorted_cons.mpr ⟨fun b hb => hacc b hb, hs⟩
    by_cases hsel : Mf (rowShift k (r + 1) + bc) >
        Mf (rowShift k (r + 1) - (if r + 1 < k then r + 1 else k) + bc)
    · by_cases hbc : bc = 0
      · subst hbc
        rw [tbOut_succ_break Mf k r _ acc (by simpa using hsel) (rowShift_pos hk).ne']
        refine ⟨hs', by simp only [List.length_cons]; omega, ?_⟩
        intro a ha
        rcases List.mem_cons.mp ha with rfl | ha
        · exact Or.inr le_rfl
        · exact Or.inl ha
      · rw [tbOut_succ_sel Mf k r _ bc acc hsel hbc, rowShift_sub]
        obtain ⟨h1, h2, h3⟩ := ih (bc - 1) ((r + 1) :: acc) (fun a ha => hacc' a ha) hs'
        refine ⟨h1, by simp only [List.length_cons] at h2 ⊢; omega, ?_⟩
        intro a ha
        rcases h3 a ha with h | h
        · rcases List.mem_cons.mp h with rfl | h
          · exact Or.inr le_rfl
          · exact Or.inl h
        · exact Or.inr (by omega)
    · rw [tbOut_succ_skip Mf k r _ bc acc hsel, rowShift_sub]
      obtain ⟨h1, h2, h3⟩ := ih bc acc (fun a ha => by have := hacc a ha; omega) hs
      refine ⟨h1, h2, ?_⟩
      intro a ha
      rcases h3 a ha with h | h
      · exact Or.inl h
      · exact Or.inr (by omega)

/-- Main trace-back lemma.  Under the metric hypotheses (nonnegative
gains, nonincreasing discounts) and the invariant that the current column
`bc` is the first strict argmax of row `r`, the trace-back collects
exactly `bc + 1` further indices whose score accounts for the whole cell
value `M[r][bc]`.  `Mf` is an arbitrary accessor that agrees with the
matrix on the laid-out cells. -/
lemma tbOut_main (g d Mf : ℕ → ℚ) (k n : ℕ) (hk : 0 < k)
    (hg : ∀ i, i < n → 0 ≤ g i)
    (hd : ∀ i j, i ≤ j → j < k → d j ≤ d i)
    (hMf : ∀ r c, r < n → c < rowEntries k r → Mf (rowShift k r + c) = spirinM g d r c) :
    ∀ (r bc : ℕ) (acc : List ℕ), r < n → bc ≤ r → bc < k →
      (∀ c, c < bc → spirinM g d r c < spirinM g d r bc) →
      (tbOut Mf k r (rowShift k r) bc acc).length = bc + 1 + acc.length ∧
      solScoreAux g d 0 (tbOut Mf k r (rowShift k r) bc acc) =
        spirinM g d r bc + solScoreAux g d (bc + 1) acc := by
  intro r
  induction r with
  | zero =>
    intro bc acc hrn hbcr hbck hinv
    have hbc0 : bc = 0 := by omega
    subst hbc0
    have h0 : rowShift k 0 = 0 := rfl
    rw [tbOut_zero, h0, if_pos rfl]
    constructor
    · simp only [List.length_cons]; omega
    · show g 0 * d 0 + solScoreAux g d (0 + 1) acc = spirinM g d 0 0 + solScoreAux g d (0 + 1) acc
      rw [show spirinM g d 0 0 = g 0 * d 0 from rfl]
  | succ r ih =>
    intro bc acc hrn hbcr hbck hinv
    have hps : rowShift k (r + 1) - (if r + 1 < k then r + 1 else k) = rowShift k r :=
      rowShift_sub k r
    have hbc_ent : bc < rowEntries k (r + 1) := by
      unfold rowEntries; split <;> omega
    have hread_cur : Mf (rowShift k (r + 1) + bc) = spirinM g d (r + 1) bc :=
      hMf (r + 1) bc hrn hbc_ent
    rcases Nat.lt_or_ge bc (r + 1) with hbcr' | hbcr'
    · -- the column is a valid column of the previous row
      have hbc_ent' : bc < rowEntries k r := by
        unfold rowEntries; split <;> omega
      have hread_prev : Mf (rowShift k r + bc) = spirinM g d r bc :=
        hMf r bc (by omega) hbc_ent'
      by_cases hsel : Mf (rowShift k (r + 1) + bc) >
          Mf (rowShift k (r + 1) - (if r + 1 < k then r + 1 else k) + bc)
      · -- the row is selected
        have hMgt : spirinM g d r bc < spirinM g d (r + 1) bc := by
          rw [hps, hread_prev, hread_cur] at hsel
          exact hsel
        cases bc with
        | zero =>
          have heq : spirinM g d (r + 1) 0 = g (r + 1) * d 0 := by
            rcases max_choice (spirinM g d r 0) (g (r + 1) * d 0) with h | h
            · rw [spirinM_col0_max, h] at hMgt
              exact absurd hMgt (lt_irrefl _)
            · rw [spirinM_col0_max, h]
          rw [tbOut_succ_break Mf k r _ acc (by simpa using hsel) (rowShift_pos hk).ne']
          refine ⟨by simp only [List.length_cons]; omega, ?_⟩
          show g (r + 1) * d 0 + solScoreAux g d (0 + 1) acc = _
          rw [heq]
        | succ c₀ =>
          have hc₀r : c₀ + 1 ≤ r := by omega
          have heq : spirinM g d (r + 1) (c₀ + 1) =
              spirinM g d r c₀ + g (r + 1) * d (c₀ + 1) := by
            rcases max_choice (spirinM g d r (c₀ + 1))
                (spirinM g d r c₀ + g (r + 1) * d (c₀ + 1)) with h | h
            · rw [spirinM_mid_max g d hc₀r, h] at hMgt
              exact absurd hMgt (lt_irrefl _)
            · rw [spirinM_mid_max g d hc₀r, h]
          have hinv' : ∀ c, c < c₀ → spirinM g d r c < spirinM g d r c₀ := by
            intro c hc
            have h1 := hinv (c + 1) (by omega)
            have h2 := spirinM_extend g d (show c ≤ r by omega)
            have h3 : d (c₀ + 1) ≤ d (c + 1) := hd (c + 1) (c₀ + 1) (by omega) (by omega)
            have h4 : 0 ≤ g (r + 1) := hg (r + 1) hrn
            have h5 : g (r + 1) * d (c₀ + 1) ≤ g (r + 1) * d (c + 1) :=
              mul_le_mul_of_nonneg_left h3 h4
            rw [heq] at h1
            linarith
          rw [tbOut_succ_sel Mf k r _ (c₀ + 1) acc hsel (by omega), hps]
          simp only [Nat.add_sub_cancel]
          obtain ⟨ihl, ihs⟩ := ih c₀ ((r + 1) :: acc) (by omega) (by omega) (by omega) hinv'
          refine ⟨by rw [ihl]; simp only [List.length_cons]; omega, ?_⟩
          rw [ihs]
          show _ = spirinM g d (r + 1) (c₀ + 1) + solScoreAux g d (c₀ + 1 + 1) acc
          rw [heq]
          show spirinM g d r c₀ +
              (g (r + 1) * d (c₀ + 1) + solScoreAux g d (c₀ + 1 + 1) acc) = _
          ring
      · -- the row is skipped
        have hMle : spirinM g d (r + 1) bc ≤ spirinM g d r bc := by
          rw [hps, hread_prev, hread_cur] at hsel
          exact le_of_not_lt hsel
        have heq : spirinM g d (r + 1) bc = spirinM g d r bc :=
          le_antisymm hMle (spirinM_row_le g d (by omega))
        have hinv' : ∀ c, c < bc → spirinM g d r c < spirinM g d r bc := by
          intro c hc
          have h1 := spirinM_row_le g d (show c ≤ r by omega)
          have h2 := hinv c hc
          rw [heq] at h2
          linarith
        rw [tbOut_succ_skip Mf k r _ bc acc hsel, hps]
        obtain ⟨ihl, ihs⟩ := ih bc acc (by omega) (by omega) hbck hinv'
        exact ⟨ihl, by rw [ihs, heq]⟩
    · -- diagonal column: the previous-row read aliases to column 0 of this row
      have hbceq : bc = r + 1 := by omega
      subst hbceq
      have hr1k : r + 1 < k := hbck
      have hentr : rowEntries k r = r + 1 := by
        unfold rowEntries; rw [if_pos (by omega)]
      have halias : rowShift k (r + 1) - (if r + 1 < k then r + 1 else k) + (r + 1) =
          rowShift k (r + 1) + 0 := by
        rw [hps]
        show rowShift k r + (r + 1) = rowShift k r + rowEntries k r + 0
        omega
      have hread_prev : Mf (rowShift k (r + 1) - (if r + 1 < k then r + 1 else k) + (r + 1)) =
          spirinM g d (r + 1) 0 := by
        rw [halias]
        exact hMf (r + 1) 0 hrn (rowEntries_pos hk)
      have hsel : Mf (rowShift k (r + 1) + (r + 1)) >
          Mf (rowShift k (r + 1) - (if r + 1 < k then r + 1 else k) + (r + 1)) := by
        rw [hread_cur, hread_prev]
        exact hinv 0 (by omega)
      have hinv' : ∀ c, c < r → spirinM g d r c < spirinM g d r r := by
        intro c hc
        have h1 := hinv (c + 1) (by omega)
        rw [spirinM_diag] at h1
        have h2 := spirinM_extend g d (show c ≤ r by omega)
        have h3 : d (r + 1) ≤ d (c + 1) := hd (c + 1) (r + 1) (by omega) (by omega)
        have h4 : 0 ≤ g (r + 1) := hg (r + 1) hrn
        have h5 : g (r + 1) * d (r + 1) ≤ g (r + 1) * d (c + 1) :=
          mul_le_mul_of_nonneg_left h3 h4
        linarith
      rw [tbOut_succ_sel Mf k r _ (r + 1) acc hsel (by omega), hps]
      simp only [Nat.add_sub_cancel]
      obtain ⟨ihl, ihs⟩ := ih r ((r + 1) :: acc) (by omega) le_rfl (by omega) hinv'
      refine ⟨by rw [ihl]; simp only [List.length_cons]; omega, ?_⟩
      rw [ihs]
      show spirinM g d r r + (g (r + 1) * d (r + 1) + solScoreAux g d (r + 1 + 1) acc) =
        spirinM g d (r + 1) (r + 1) + solScoreAux g d (r + 1 + 1) acc
      rw [spirinM_diag]
      ring

lemma tbOut_ne_nil (Mf : ℕ → ℚ) (k : ℕ) (hk : 0 < k) :
    ∀ (r bc : ℕ) (acc : List ℕ), tbOut Mf k r (rowShift k r) bc acc ≠ [] := by
  intro r
  induction r with
  | zero =>
    intro bc acc
    rw [tbOut_zero, show rowShift k 0 = 0 from rfl, if_pos rfl]
    simp
  | succ r ih =>
    intro bc acc
    by_cases hsel : Mf (rowShift k (r + 1) + bc) >
        Mf (rowShift k (r + 1) - (if r + 1 < k then r + 1 else k) + bc)
    · by_cases hbc : bc = 0
      · subst hbc
        rw [tbOut_succ_break Mf k r _ acc (by simpa using hsel) (rowShift_pos hk).ne']
        simp
      · rw [tbOut_succ_sel Mf k r _ bc acc hsel hbc, rowShift_sub]
        exact ih _ _
    · rw [tbOut_succ_skip Mf k r _ bc acc hsel, rowShift_sub]
      exact ih _ _

lemma filterSpirin_eq (gainF : ℚ → ℚ) (d : ℕ → ℚ) (k : ℕ) (rel : List ℚ)
    (hn : rel.length ≠ 0) (hk : k ≠ 0) :
    filterSpirin gainF d k rel =
      ((bestColumn (fun i => (spirinFlat (fun i => gainF (rel.getD i 0)) d
          (min k rel.length) rel.length).getD i 0)
          (rowShift (min k rel.length) (rel.length - 1)) (min k rel.length)).1,
        tbOut (fun i => (spirinFlat (fun i => gainF (rel.getD i 0)) d
          (min k rel.length) rel.length).getD i 0)
          (min k rel.length) (rel.length - 1)
          (rowShift (min k rel.length) (rel.length - 1))
          (bestColumn (fun i => (spirinFlat (fun i => gainF (rel.getD i 0)) d
            (min k rel.length) rel.length).getD i 0)
            (rowShift (min k rel.length) (rel.length - 1)) (min k rel.length)).2 []) := by
  unfold filterSpirin
  rw [if_neg (by push_neg; exact ⟨hn, hk⟩)]

/-! ### Correctness of the filter -/

/-- Everything claim C1 needs, bundled: sortedness, length bound, index
bounds, score faithfulness and optimality of the returned solution. -/
lemma filterSpirin_correct (gainF : ℚ → ℚ) (d : ℕ → ℚ) (k : ℕ) (rel : List ℚ)
    (hn : rel ≠ []) (hk : 1 ≤ k)
    (hg : ∀ x ∈ rel, 0 ≤ gainF x)
    (hd0 : ∀ i, i < min k rel.length → 0 ≤ d i)
    (hdm : ∀ j, j < min k rel.length → ∀ i, i ≤ j → d j ≤ d i) :
    (filterSpirin gainF d k rel).2.Sorted (· < ·) ∧
    (filterSpirin gainF d k rel).2.length ≤ min k rel.length ∧
    (∀ i ∈ (filterSpirin gainF d k rel).2, i < rel.length) ∧
    (filterSpirin gainF d k rel).1 =
      solScore (fun i => gainF (rel.getD i 0)) d (filterSpirin gainF d k rel).2 ∧
    ∀ T : List ℕ, T.Sorted (· < ·) → (∀ i ∈ T, i < rel.length) →
      T.length ≤ min k rel.length →
      solScore (fun i => gainF (rel.getD i 0)) d T ≤ (filterSpirin gainF d k rel).1 := by
  have hn0 : 0 < rel.length := List.length_pos.mpr hn
  set n := rel.length with hnn
  set kk := min k n with hkkdef
  have hkk0 : 0 < kk := by omega
  have hkkn : kk ≤ n := by omega
  set g : ℕ → ℚ := fun i => gainF (rel.getD i 0) with hgdef
  set Mf : ℕ → ℚ := fun i => (spirinFlat g d kk n).getD i 0 with hMfdef
  have hg' : ∀ i, i < n → 0 ≤ g i := by
    intro i hi
    show 0 ≤ gainF (rel.getD i 0)
    rw [List.getD_eq_getElem rel 0 hi]
    exact hg _ (List.getElem_mem hi)
  have hd' : ∀ i j, i ≤ j → j < kk → d j ≤ d i := fun i j hij hj => hdm j hj i hij
  have hMf : ∀ r c, r < n → c < rowEntries kk r → Mf (rowShift kk r + c) = spirinM g d r c :=
    fun r c hr hc => spirinFlat_getD g d kk n r c hr hc
  have hlast_ent : ∀ c, c < kk → c < rowEntries kk (n - 1) := by
    intro c hc
    unfold rowEntries
    split <;> omega
  obtain ⟨hb1, hb2, hb3, hb4, hb5⟩ := bestColumn_spec Mf (rowShift kk (n - 1)) kk
  set best := bestColumn Mf (rowShift kk (n - 1)) kk with hbest
  have hbk : best.2 < kk := by
    rw [max_eq_left (by omega : 1 ≤ kk)] at hb1
    exact hb1
  have hMval : ∀ c, c < kk → Mf (rowShift kk (n - 1) + c) = spirinM g d (n - 1) c :=
    fun c hc => hMf (n - 1) c (by omega) (hlast_ent c hc)
  have hMnonneg : ∀ c, c < kk → 0 ≤ spirinM g d (n - 1) c := by
    intro c hc
    apply spirinM_nonneg g d (by omega) (fun i hi => hg' i (by omega))
    intro q hq
    exact hd0 q (by omega)
  have hscore_bc : best.1 = spirinM g d (n - 1) best.2 := by
    rcases hb3 with h | ⟨h0, hb0⟩
    · rw [h, hMval best.2 hbk]
    · rw [h0, hb0]
      have h1 := hb4 0 hkk0
      rw [hMval 0 hkk0] at h1
      have h2 := hMnonneg 0 hkk0
      rw [h0] at h1
      linarith
  have hinv : ∀ c, c < best.2 → spirinM g d (n - 1) c < spirinM g d (n - 1) best.2 := by
    intro c hc
    have h1 := hb5 c hc
    rw [hMval c (by omega)] at h1
    rw [← hscore_bc]
    exact h1
  obtain ⟨hlen, hsc⟩ := tbOut_main g d Mf kk n hkk0 hg' hd' hMf (n - 1) best.2 []
    (by omega) (by omega) hbk hinv
  obtain ⟨hsort, hlen', hmem⟩ := tbOut_basic Mf kk hkk0 (n - 1) best.2 []
    (by simp) (by simp)
  rw [filterSpirin_eq gainF d k rel (by omega) (by omega)]
  refine ⟨hsort, ?_, ?_, ?_, ?_⟩
  · simp only at hlen ⊢
    rw [hlen]
    simp
    omega
  · intro i hi
    rcases hmem i hi with h | h
    · simp at h
    · omega
  · show best.1 = solScore g d (tbOut Mf kk (n - 1) (rowShift kk (n - 1)) best.2 [])
    rw [solScore, hsc, hscore_bc]
    simp [solScoreAux]
  · intro T hTs hTb hTl
    show solScore g d T ≤ best.1
    rcases List.eq_nil_or_concat T with rfl | ⟨T', b, rfl⟩
    · rw [solScore]
      show (0 : ℚ) ≤ best.1
      exact hb2
    · set c := (T' ++ [b]).length - 1 with hcdef
      have hTl' : (T' ++ [b]).length = c + 1 := by simp [hcdef]
      have hck : c < kk := by
        rw [List.concat_eq_append] at hTl
        omega
      have h1 : solScoreAux g d 0 (T' ++ [b]) ≤ spirinM g d (n - 1) c := by
        apply solScore_le_spirinM g d (n - 1) (T' ++ [b]) c
        · rw [List.concat_eq_append] at hTs
          exact hTs
        · intro i hi
          rw [List.concat_eq_append] at hTb
          have := hTb i hi
          omega
        · exact hTl'
      have h2 := hb4 c hck
      rw [hMval c hck] at h2
      rw [List.concat_eq_append, solScore]
      exact le_trans h1 h2

lemma spirinM_zero_of_gain_zero (g d : ℕ → ℚ) :
    ∀ r, (∀ i, i ≤ r → g i = 0) → ∀ c, spirinM g d r c = 0 := by
  intro r
  induction r with
  | zero =>
    intro hg c
    cases c with
    | zero =>
      show g 0 * d 0 = 0
      rw [hg 0 le_rfl]
      ring
    | succ c => rfl
  | succ r ih =>
    intro hg c
    have ih' := ih fun i hi => hg i (by omega)
    cases c with
    | zero =>
      rw [spirinM_col0_max, ih' 0, hg (r + 1) le_rfl]
      simp
    | succ c =>
      simp only [spirinM]
      rw [ih' (c + 1), ih' c, hg (r + 1) le_rfl]
      simp

lemma bestColumn_const_zero (Mf : ℕ → ℚ) (cs : ℕ) (h : ∀ i, Mf i = 0) :
    ∀ k, bestColumn Mf cs k = (0, 0) := by
  intro k
  induction k with
  | zero => rfl
  | succ k ih =>
    unfold bestColumn at ih ⊢
    rw [List.range_succ, List.foldl_append, ih]
    simp [h]

lemma tbOut_allskip (Mf : ℕ → ℚ) (k : ℕ) (h : ∀ i j, ¬Mf i > Mf j) :
    ∀ (r bc : ℕ) (acc : List ℕ), tbOut Mf k r (rowShift k r) bc acc = 0 :: acc := by
  intro r
  induction r with
  | zero =>
    intro bc acc
    rw [tbOut_zero, show rowShift k 0 = 0 from rfl, if_pos rfl]
  | succ r ih =>
    intro bc acc
    rw [tbOut_succ_skip Mf k r _ bc acc (h _ _), rowShift_sub]
    exact ih bc acc

lemma spirinM_congr_d (g d d' : ℕ → ℚ) :
    ∀ r c, (∀ x, x ≤ c → d x = d' x) → spirinM g d r c = spirinM g d' r c := by
  intro r
  induction r with
  | zero =>
    intro c h
    cases c with
    | zero =>
      show g 0 * d 0 = g 0 * d' 0
      rw [h 0 le_rfl]
    | succ c => rfl
  | succ r ih =>
    intro c h
    cases c with
    | zero =>
      rw [spirinM_col0_max, spirinM_col0_max, ih 0 h, h 0 le_rfl]
    | succ c =>
      simp only [spirinM]
      rw [ih (c + 1) h, ih c fun x hx => h x (by omega), h (c + 1) le_rfl]

lemma spirinFlat_congr_d (g d d' : ℕ → ℚ) (k n : ℕ) (h : ∀ x, x < k → d x = d' x) :
    spirinFlat g d k n = spirinFlat g d' k n := by
  unfold spirinFlat
  induction n with
  | zero => rfl
  | succ n ih =>
    rw [List.range_succ, List.flatMap_append, List.flatMap_append, ih]
    simp only [List.flatMap_cons, List.flatMap_nil]
    have hrow : (List.range (rowEntries k n)).map (spirinM g d n) =
        (List.range (rowEntries k n)).map (spirinM g d' n) := by
      apply List.map_congr_left
      intro a ha
      have ha' : a < rowEntries k n := List.mem_range.mp ha
      have hak : a < k := by
        unfold rowEntries at ha'
        rcases Nat.lt_or_ge n k with h' | h'
        · rw [if_pos h'] at ha'; omega
        · rw [if_neg (by omega)] at ha'; omega
      exact spirinM_congr_d g d d' n a fun x hx => h x (by omega)
    rw [hrow]

lemma filterSpirin_congr_d (gainF : ℚ → ℚ) (d d' : ℕ → ℚ) (k : ℕ) (rel : List ℚ)
    (h : ∀ x, x < k → d x = d' x) :
    filterSpirin gainF d k rel = filterSpirin gainF d' k rel := by
  by_cases hc : rel.length = 0 ∨ k = 0
  · unfold filterSpirin
    rw [if_pos hc, if_pos hc]
  · push_neg at hc
    rw [filterSpirin_eq gainF d k rel hc.1 hc.2, filterSpirin_eq gainF d' k rel hc.1 hc.2,
      spirinFlat_congr_d _ d d' _ _ fun x hx => h x (by omega)]

/-! ### The flat array as the code writes it: allocation and fill model -/

/-- Number of cells allocated at line 53 of filter_spirin.hpp:
`((k - 1) * (k - 1 + 1) / 2) + k * (n - (k - 1))`. -/
def allocSize (k n : ℕ) : ℕ := (k - 1) * (k - 1 + 1) / 2 + k * (n - (k - 1))

/-- Cell count stated by the spec: `k(k+1)/2 + k(n−k)`. -/
def cellCount (k n : ℕ) : ℕ := k * (k + 1) / 2 + k * (n - k)

/-- Read of the uninitialised flat array: out-of-bounds reads and reads
of never-written cells yield `none`, which poisons every value computed
from them. -/
def mread (alloc : ℕ) (st : ℕ → Option ℚ) (i : ℕ) : Option ℚ :=
  if i < alloc then st i else none

/-- Write to the flat array; out-of-bounds writes are dropped (so a cell
whose write was out of bounds stays `none` and is caught by the final
all-cells-written theorem). -/
def mwrite (alloc : ℕ) (st : ℕ → Option ℚ) (i : ℕ) (v : Option ℚ) : ℕ → Option ℚ :=
  if i < alloc then (fun j => if j = i then v else st j) else st

/-- `max` on possibly-poisoned values. -/
def omax (a b : Option ℚ) : Option ℚ := Option.map₂ max a b

/-- Addition on possibly-poisoned values. -/
def oadd (a b : Option ℚ) : Option ℚ := Option.map₂ (· + ·) a b

/-- Filling of one triangular row `1 ≤ row < k` (lines 74-81): column 0,
middle columns `1 ≤ col < row`, then the diagonal `col = row`. -/
def fillTriRow (alloc : ℕ) (g d : ℕ → ℚ) (row ps cs : ℕ)
    (st : ℕ → Option ℚ) : ℕ → Option ℚ :=
  let st1 := mwrite alloc st (cs + 0)
    (omax (mread alloc st (ps + 0)) (some (g row * d 0)))
  let st2 := (List.range' 1 (row - 1)).foldl
    (fun st col => mwrite alloc st (cs + col)
      (omax (mread alloc st (ps + col))
        (oadd (mread alloc st (ps + col - 1)) (some (g row * d col))))) st1
  mwrite alloc st2 (cs + row)
    (oadd (mread alloc st2 (ps + row - 1)) (some (g row * d row)))

/-- Filling of one rectangular row `k ≤ row < n` (lines 94-100): column 0
then middle columns `1 ≤ col < k`. -/
def fillRectRow (alloc : ℕ) (g d : ℕ → ℚ) (k row ps cs : ℕ)
    (st : ℕ → Option ℚ) : ℕ → Option ℚ :=
  let st1 := mwrite alloc st (cs + 0)
    (omax (mread alloc st (ps + 0)) (some (g row * d 0)))
  (List.range' 1 (k - 1)).foldl
    (fun st col => mwrite alloc st (cs + col)
      (omax (mread alloc st (ps + col))
        (oadd (mread alloc st (ps + col - 1)) (some (g row * d col))))) st1

/-- The complete filling phase (lines 64-111): cell `[0,0]` first, then
the triangular rows `1..k-1`, then the rectangular rows `k..n-1`,
threading `prev_row_shift`/`curr_row_shift` exactly as the code does.
Returns the final state together with the final `curr_row_shift`. -/
def spirinFill (g d : ℕ → ℚ) (k n : ℕ) : (ℕ → Option ℚ) × ℕ :=
  let alloc := allocSize k n
  let st1 := mwrite alloc (fun _ => none) 0 (some (g 0 * d 0))
  let tri := (List.range' 1 (k - 1)).foldl
    (fun p row => (fillTriRow alloc g d row p.2 (p.2 + row) p.1, p.2 + row))
    (st1, 0)
  (List.range' k (n - k)).foldl
    (fun p row => (fillRectRow alloc g d k row p.2 (p.2 + k) p.1, p.2 + k))
    tri

lemma allocSize_eq_cellCount {k n : ℕ} (hk : 1 ≤ k) (hkn : k ≤ n) :
    allocSize k n = cellCount k n := by
  obtain ⟨m, rfl⟩ : ∃ m, k = m + 1 := ⟨k - 1, by omega⟩
  unfold allocSize cellCount
  have hA : (m + 1) * (m + 1 + 1) = m * (m + 1) + 2 * (m + 1) := by ring
  have hB : (m + 1) * (n - m) = (m + 1) * (n - (m + 1)) + (m + 1) := by
    have h : n - m = (n - (m + 1)) + 1 := by omega
    rw [h]
    ring
  simp only [Nat.add_sub_cancel]
  omega

lemma rowShift_rect (k : ℕ) : ∀ m, rowShift k (k + m) = rowShift k k + m * k := by
  intro m
  induction m with
  | zero => simp
  | succ m ih =>
    have h1 : k + (m + 1) = (k + m) + 1 := by omega
    rw [h1]
    show rowShift k (k + m) + rowEntries k (k + m) = _
    rw [ih]
    have h2 : rowEntries k (k + m) = k := by
      unfold rowEntries
      rw [if_neg (by omega)]
    rw [h2]
    ring

lemma rowShift_tri_double (k : ℕ) : ∀ r, r ≤ k → 2 * rowShift k r = r * (r + 1) := by
  intro r
  induction r with
  | zero => simp [rowShift]
  | succ r ih =>
    intro hr
    show 2 * (rowShift k r + rowEntries k r) = _
    have h1 : rowEntries k r = r + 1 := by
      unfold rowEntries
      rw [if_pos (by omega)]
    rw [Nat.mul_add, ih (by omega), h1]
    ring

lemma rowShift_eq_allocSize {k n : ℕ} (hk : 1 ≤ k) (hkn : k ≤ n) :
    rowShift k n = allocSize k n := by
  obtain ⟨m, rfl⟩ : ∃ m, n = k + m := ⟨n - k, by omega⟩
  rw [rowShift_rect k m]
  unfold allocSize
  have h1 := rowShift_tri_double k k le_rfl
  have hA : k * (k + 1) = (k - 1) * (k - 1 + 1) + 2 * k := by
    obtain ⟨p, rfl⟩ : ∃ p, k = p + 1 := ⟨k - 1, by omega⟩
    simp only [Nat.add_sub_cancel]
    ring
  have hB : k * (k + m - (k - 1)) = k * (m + 1) := by
    congr 1
    omega
  have hC : k * (m + 1) = m * k + k := by ring
  omega

lemma mwrite_apply (alloc : ℕ) (st : ℕ → Option ℚ) (i : ℕ) (v : Option ℚ) (j : ℕ) :
    mwrite alloc st i v j = if i < alloc ∧ j = i then v else st j := by
  unfold mwrite
  by_cases h1 : i < alloc
  · by_cases h2 : j = i <;> simp [h1, h2]
  · simp [h1]

lemma mread_eq (alloc : ℕ) (st : ℕ → Option ℚ) {i : ℕ} (h : i < alloc) :
    mread alloc st i = st i := if_pos h

lemma omax_some (a b : ℚ) : omax (some a) (some b) = some (max a b) := rfl

lemma oadd_some (a b : ℚ) : oadd (some a) (some b) = some (a + b) := rfl

lemma rowShift_succ (k r : ℕ) : rowShift k (r + 1) = rowShift k r + rowEntries k r := rfl

lemma colFold_spec (alloc : ℕ) (g d : ℕ → ℚ) (k n r : ℕ)
    (halloc : rowShift k n ≤ alloc) (hrn : r + 1 < n) (ps cs : ℕ)
    (hps : ps = rowShift k r) (hcs : cs = rowShift k (r + 1)) :
    ∀ (m : ℕ), m ≤ r → m < rowEntries k r → m < rowEntries k (r + 1) →
    ∀ (st : ℕ → Option ℚ),
    (∀ c, c < rowEntries k r → st (rowShift k r + c) = some (spirinM g d r c)) →
    st (rowShift k (r + 1)) = some (spirinM g d (r + 1) 0) →
    (∀ c, c ≤ m →
      ((List.range' 1 m).foldl
        (fun st col => mwrite alloc st (cs + col)
          (omax (mread alloc st (ps + col))
            (oadd (mread alloc st (ps + col - 1))
              (some (g (r + 1) * d col))))) st) (rowShift k (r + 1) + c)
        = some (spirinM g d (r + 1) c)) ∧
    (∀ j, j < rowShift k (r + 1) →
      ((List.range' 1 m).foldl
        (fun st col => mwrite alloc st (cs + col)
          (omax (mread alloc st (ps + col))
            (oadd (mread alloc st (ps + col - 1))
              (some (g (r + 1) * d col))))) st) j = st j) := by
  subst hps hcs
  intro m
  induction m with
  | zero =>
    intro _ _ _ st hprev hcur0
    refine ⟨?_, fun j _ => rfl⟩
    intro c hc
    have hc0 : c = 0 := Nat.le_zero.mp hc
    subst hc0
    simpa using hcur0
  | succ m ih =>
    intro hmr hment hment1 st hprev hcur0
    have hcon : List.range' 1 (m + 1) = List.range' 1 m ++ [1 + m] := by
      have h := @List.range'_concat 1 1 m
      simpa using h
    rw [hcon, List.foldl_append]
    obtain ⟨ihP, ihU⟩ := ih (by omega) (by omega) (by omega) st hprev hcur0
    set stm := (List.range' 1 m).foldl
        (fun st col => mwrite alloc st (rowShift k (r + 1) + col)
          (omax (mread alloc st (rowShift k r + col))
            (oadd (mread alloc st (rowShift k r + col - 1))
              (some (g (r + 1) * d col))))) st with hstm
    simp only [List.foldl_cons, List.foldl_nil]
    have hps1 : rowShift k r + (1 + m) < rowShift k (r + 1) := by
      rw [rowShift_succ]
      omega
    have hpsm : rowShift k r + m < rowShift k (r + 1) := by
      rw [rowShift_succ]
      omega
    have hps1a : rowShift k r + (1 + m) < alloc :=
      lt_of_lt_of_le (lt_of_lt_of_le hps1 (rowShift_mono k (by omega))) halloc
    have hpsma : rowShift k r + m < alloc :=
      lt_of_lt_of_le (lt_of_lt_of_le hpsm (rowShift_mono k (by omega))) halloc
    have hr1 : mread alloc stm (rowShift k r + (1 + m)) = some (spirinM g d r (1 + m)) := by
      rw [mread_eq alloc stm hps1a, ihU _ hps1, hprev _ (by omega)]
    have hr2 : mread alloc stm (rowShift k r + (1 + m) - 1) = some (spirinM g d r m) := by
      have he : rowShift k r + (1 + m) - 1 = rowShift k r + m := by omega
      rw [he, mread_eq alloc stm hpsma, ihU _ hpsm, hprev _ (by omega)]
    have hval : omax (mread alloc stm (rowShift k r + (1 + m)))
        (oadd (mread alloc stm (rowShift k r + (1 + m) - 1))
          (some (g (r + 1) * d (1 + m)))) = some (spirinM g d (r + 1) (1 + m)) := by
      rw [hr1, hr2, oadd_some, omax_some]
      have hmid := spirinM_mid_max g d (r := r) (c := m) (by omega)
      rw [show 1 + m = m + 1 by omega, hmid]
    constructor
    · intro c hc
      rw [mwrite_apply]
      rcases Nat.lt_or_ge c (m + 1) with h | h
      · rw [if_neg (by omega)]
        exact ihP c (by omega)
      · have hcm : c = 1 + m := by omega
        subst hcm
        rw [if_pos ⟨lt_of_lt_of_le (rowShift_add_lt hrn (by omega)) halloc, rfl⟩]
        exact hval
    · intro j hj
      rw [mwrite_apply, if_neg (by omega)]
      exact ihU j hj

lemma fillTriRow_eq (alloc : ℕ) (g d : ℕ → ℚ) (row ps cs : ℕ) (st : ℕ → Option ℚ) :
    fillTriRow alloc g d row ps cs st =
      mwrite alloc
        ((List.range' 1 (row - 1)).foldl
          (fun st col => mwrite alloc st (cs + col)
            (omax (mread alloc st (ps + col))
              (oadd (mread alloc st (ps + col - 1)) (some (g row * d col)))))
          (mwrite alloc st (cs + 0)
            (omax (mread alloc st (ps + 0)) (some (g row * d 0)))))
        (cs + row)
        (oadd (mread alloc
          ((List.range' 1 (row - 1)).foldl
            (fun st col => mwrite alloc st (cs + col)
              (omax (mread alloc st (ps + col))
                (oadd (mread alloc st (ps + col - 1)) (some (g row * d col)))))
            (mwrite alloc st (cs + 0)
              (omax (mread alloc st (ps + 0)) (some (g row * d 0)))))
          (ps + row - 1)) (some (g row * d row))) := rfl

lemma fillTriRow_spec (alloc : ℕ) (g d : ℕ → ℚ) (k n : ℕ)
    (halloc : rowShift k n ≤ alloc) (r : ℕ) (hrk : r + 1 < k) (hrn : r + 1 < n)
    (st : ℕ → Option ℚ)
    (hprev : ∀ c, c < rowEntries k r → st (rowShift k r + c) = some (spirinM g d r c)) :
    (∀ c, c ≤ r + 1 →
      fillTriRow alloc g d (r + 1) (rowShift k r) (rowShift k (r + 1)) st
        (rowShift k (r + 1) + c) = some (spirinM g d (r + 1) c)) ∧
    (∀ j, j < rowShift k (r + 1) →
      fillTriRow alloc g d (r + 1) (rowShift k r) (rowShift k (r + 1)) st j = st j) := by
  have hent : rowEntries k r = r + 1 := by
    unfold rowEntries
    rw [if_pos (by omega)]
  have hent1 : rowEntries k (r + 1) = r + 2 := by
    unfold rowEntries
    rw [if_pos hrk]
  have hcs_lt : ∀ c, c < r + 2 → rowShift k (r + 1) + c < alloc := by
    intro c hc
    exact lt_of_lt_of_le (rowShift_add_lt hrn (by omega)) halloc
  have hps_lt : ∀ c, c < r + 1 → rowShift k r + c < alloc := by
    intro c hc
    exact lt_of_lt_of_le (rowShift_add_lt (show r < n by omega) (by omega)) halloc
  have hcs_gt : ∀ c, c < r + 1 → rowShift k r + c < rowShift k (r + 1) := by
    intro c hc
    rw [rowShift_succ]
    omega
  set st1 := mwrite alloc st (rowShift k (r + 1) + 0)
    (omax (mread alloc st (rowShift k r + 0)) (some (g (r + 1) * d 0))) with hst1
  have h10 : st1 (rowShift k (r + 1)) = some (spirinM g d (r + 1) 0) := by
    rw [hst1, mwrite_apply, if_pos ⟨hcs_lt 0 (by omega), by omega⟩,
        mread_eq alloc st (hps_lt 0 (by omega)), hprev 0 (by omega), omax_some,
        spirinM_col0_max]
  have h1u : ∀ j, j < rowShift k (r + 1) → st1 j = st j := by
    intro j hj
    rw [hst1, mwrite_apply, if_neg (by omega)]
  have h1prev : ∀ c, c < rowEntries k r → st1 (rowShift k r + c) = some (spirinM g d r c) := by
    intro c hc
    rw [h1u _ (hcs_gt c (by omega)), hprev c hc]
  obtain ⟨hF, hU⟩ := colFold_spec alloc g d k n r halloc hrn (rowShift k r) (rowShift k (r + 1))
    rfl rfl r le_rfl (by omega) (by omega) st1 h1prev h10
  set stf := (List.range' 1 r).foldl
    (fun st col => mwrite alloc st (rowShift k (r + 1) + col)
      (omax (mread alloc st (rowShift k r + col))
        (oadd (mread alloc st (rowShift k r + col - 1)) (some (g (r + 1) * d col))))) st1
    with hstf
  have hdiagread : mread alloc stf (rowShift k r + (r + 1) - 1) = some (spirinM g d r r) := by
    have he : rowShift k r + (r + 1) - 1 = rowShift k r + r := by omega
    rw [he, mread_eq alloc stf (hps_lt r (by omega)), hU _ (hcs_gt r (by omega)),
        h1u _ (hcs_gt r (by omega)), hprev r (by omega)]
  constructor
  · intro c hc
    rw [fillTriRow_eq]
    simp only [Nat.add_sub_cancel]
    rw [← hst1, ← hstf, mwrite_apply]
    rcases Nat.lt_or_ge c (r + 1) with h | h
    · rw [if_neg (by omega)]
      exact hF c (by omega)
    · have hcr : c = r + 1 := by omega
      subst hcr
      rw [if_pos ⟨hcs_lt (r + 1) (by omega), rfl⟩, hdiagread, oadd_some, spirinM_diag]
  · intro j hj
    rw [fillTriRow_eq]
    simp only [Nat.add_sub_cancel]
    rw [← hst1, ← hstf, mwrite_apply, if_neg (by omega), hU j hj, h1u j hj]

lemma fillRectRow_eq (alloc : ℕ) (g d : ℕ → ℚ) (k row ps cs : ℕ) (st : ℕ → Option ℚ) :
    fillRectRow alloc g d k row ps cs st =
      (List.range' 1 (k - 1)).foldl
        (fun st col => mwrite alloc st (cs + col)
          (omax (mread alloc st (ps + col))
            (oadd (mread alloc st (ps + col - 1)) (some (g row * d col)))))
        (mwrite alloc st (cs + 0)
          (omax (mread alloc st (ps + 0)) (some (g row * d 0)))) := rfl

lemma fillRectRow_spec (alloc : ℕ) (g d : ℕ → ℚ) (k n : ℕ)
    (halloc : rowShift k n ≤ alloc) (r : ℕ) (hk : 1 ≤ k) (hrk : k ≤ r + 1) (hrn : r + 1 < n)
    (st : ℕ → Option ℚ)
    (hprev : ∀ c, c < rowEntries k r → st (rowShift k r + c) = some (spirinM g d r c)) :
    (∀ c, c < k →
      fillRectRow alloc g d k (r + 1) (rowShift k r) (rowShift k (r + 1)) st
        (rowShift k (r + 1) + c) = some (spirinM g d (r + 1) c)) ∧
    (∀ j, j < rowShift k (r + 1) →
      fillRectRow alloc g d k (r + 1) (rowShift k r) (rowShift k (r + 1)) st j = st j) := by
  have hent : rowEntries k r = k := by
    unfold rowEntries
    split <;> omega
  have hent1 : rowEntries k (r + 1) = k := by
    unfold rowEntries
    rw [if_neg (by omega)]
  have hcs_lt : ∀ c, c < k → rowShift k (r + 1) + c < alloc := by
    intro c hc
    exact lt_of_lt_of_le (rowShift_add_lt hrn (by omega)) halloc
  have hps_lt : ∀ c, c < k → rowShift k r + c < alloc := by
    intro c hc
    exact lt_of_lt_of_le (rowShift_add_lt (show r < n by omega) (by omega)) halloc
  have hcs_gt : ∀ c, c < k → rowShift k r + c < rowShift k (r + 1) := by
    intro c hc
    rw [rowShift_succ]
    omega
  set st1 := mwrite alloc st (rowShift k (r + 1) + 0)
    (omax (mread alloc st (rowShift k r + 0)) (some (g (r + 1) * d 0))) with hst1
  have h10 : st1 (rowShift k (r + 1)) = some (spirinM g d (r + 1) 0) := by
    rw [hst1, mwrite_apply, if_pos ⟨hcs_lt 0 (by omega), by omega⟩,
        mread_eq alloc st (hps_lt 0 (by omega)), hprev 0 (by omega), omax_some,
        spirinM_col0_max]
  have h1u : ∀ j, j < rowShift k (r + 1) → st1 j = st j := by
    intro j hj
    rw [hst1, mwrite_apply, if_neg (by omega)]
  have h1prev : ∀ c, c < rowEntries k r → st1 (rowShift k r + c) = some (spirinM g d r c) := by
    intro c hc
    rw [h1u _ (hcs_gt c (by omega)), hprev c hc]
  obtain ⟨hF, hU⟩ := colFold_spec alloc g d k n r halloc hrn (rowShift k r) (rowShift k (r + 1))
    rfl rfl (k - 1) (by omega) (by omega) (by omega) st1 h1prev h10
  constructor
  · intro c hc
    rw [fillRectRow_eq, ← hst1]
    exact hF c (by omega)
  · intro j hj
    rw [fillRectRow_eq, ← hst1]
    rw [hU j hj, h1u j hj]

lemma spirinFill_tri (alloc : ℕ) (g d : ℕ → ℚ) (k n : ℕ)
    (halloc : rowShift k n ≤ alloc) (hk : 1 ≤ k) (hkn : k ≤ n) :
    ∀ j, j ≤ k - 1 →
    ((List.range' 1 j).foldl
      (fun p row => (fillTriRow alloc g d row p.2 (p.2 + row) p.1, p.2 + row))
      (mwrite alloc (fun _ => none) 0 (some (g 0 * d 0)), 0)).2 = rowShift k j ∧
    ∀ r, r ≤ j → ∀ c, c < rowEntries k r →
      ((List.range' 1 j).foldl
        (fun p row => (fillTriRow alloc g d row p.2 (p.2 + row) p.1, p.2 + row))
        (mwrite alloc (fun _ => none) 0 (some (g 0 * d 0)), 0)).1 (rowShift k r + c)
        = some (spirinM g d r c) := by
  have halloc0 : 0 < alloc := by
    obtain ⟨n', rfl⟩ : ∃ n', n = n' + 1 := ⟨n - 1, by omega⟩
    exact lt_of_lt_of_le (rowShift_pos hk) halloc
  intro j
  induction j with
  | zero =>
    intro _
    refine ⟨rfl, ?_⟩
    intro r hr c hc
    have hr0 : r = 0 := by omega
    subst hr0
    have he0 : rowEntries k 0 = 1 := by
      unfold rowEntries
      rw [if_pos (show 0 < k by omega)]
    have hc0 : c = 0 := by omega
    subst hc0
    show mwrite alloc (fun _ => none) 0 (some (g 0 * d 0)) (rowShift k 0 + 0) = _
    have hp : rowShift k 0 + 0 = 0 := rfl
    rw [hp, mwrite_apply, if_pos ⟨halloc0, rfl⟩]
    rfl
  | succ j ih =>
    intro hjk
    have hcon : List.range' 1 (j + 1) = List.range' 1 j ++ [1 + j] := by
      have h := @List.range'_concat 1 1 j
      simpa using h
    rw [hcon, List.foldl_append]
    obtain ⟨ihS, ihP⟩ := ih (by omega)
    set p := (List.range' 1 j).foldl
      (fun p row => (fillTriRow alloc g d row p.2 (p.2 + row) p.1, p.2 + row))
      (mwrite alloc (fun _ => none) 0 (some (g 0 * d 0)), 0) with hpdef
    simp only [List.foldl_cons, List.foldl_nil]
    have hentj : rowEntries k j = j + 1 := by
      unfold rowEntries
      rw [if_pos (by omega)]
    have harg : rowShift k j + (1 + j) = rowShift k (j + 1) := by
      rw [rowShift_succ, hentj]
      omega
    have hrow : 1 + j = j + 1 := by omega
    rw [ihS, harg, hrow]
    obtain ⟨hF, hU⟩ := fillTriRow_spec alloc g d k n halloc j (by omega) (by omega)
      p.1 (ihP j le_rfl)
    refine ⟨rfl, ?_⟩
    intro r hr c hc
    rcases Nat.lt_or_ge r (j + 1) with h | h
    · have hlow : rowShift k r + c < rowShift k (j + 1) := by
        refine lt_of_lt_of_le ?_ (rowShift_mono k (show r + 1 ≤ j + 1 by omega))
        rw [rowShift_succ]
        omega
      rw [hU _ hlow]
      exact ihP r (by omega) c hc
    · have hrj : r = j + 1 := by omega
      subst hrj
      have hentr : rowEntries k (j + 1) = j + 2 := by
        unfold rowEntries
        rw [if_pos (by omega)]
      exact hF c (by omega)

lemma spirinFill_rect (alloc : ℕ) (g d : ℕ → ℚ) (k n : ℕ)
    (halloc : rowShift k n ≤ alloc) (hk : 1 ≤ k) (hkn : k ≤ n)
    (p0 : (ℕ → Option ℚ) × ℕ)
    (hS0 : p0.2 = rowShift k (k - 1))
    (hP0 : ∀ r, r ≤ k - 1 → ∀ c, c < rowEntries k r →
      p0.1 (rowShift k r + c) = some (spirinM g d r c)) :
    ∀ j, j ≤ n - k →
    ((List.range' k j).foldl
      (fun p row => (fillRectRow alloc g d k row p.2 (p.2 + k) p.1, p.2 + k)) p0).2
        = rowShift k (k - 1 + j) ∧
    ∀ r, r ≤ k - 1 + j → ∀ c, c < rowEntries k r →
      ((List.range' k j).foldl
        (fun p row => (fillRectRow alloc g d k row p.2 (p.2 + k) p.1, p.2 + k)) p0).1
        (rowShift k r + c) = some (spirinM g d r c) := by
  intro j
  induction j with
  | zero =>
    intro _
    exact ⟨by simpa using hS0, fun r hr c hc => hP0 r (by omega) c hc⟩
  | succ j ih =>
    intro hjn
    have hcon : List.range' k (j + 1) = List.range' k j ++ [k + j] := by
      have h := @List.range'_concat 1 k j
      simpa using h
    rw [hcon, List.foldl_append]
    obtain ⟨ihS, ihP⟩ := ih (by omega)
    set p := (List.range' k j).foldl
      (fun p row => (fillRectRow alloc g d k row p.2 (p.2 + k) p.1, p.2 + k)) p0 with hpdef
    simp only [List.foldl_cons, List.foldl_nil]
    have hentj : rowEntries k (k - 1 + j) = k := by
      unfold rowEntries
      split <;> omega
    have harg : rowShift k (k - 1 + j) + k = rowShift k (k - 1 + j + 1) := by
      rw [rowShift_succ, hentj]
    have hrow : k + j = (k - 1 + j) + 1 := by omega
    rw [ihS, harg, hrow]
    obtain ⟨hF, hU⟩ := fillRectRow_spec alloc g d k n halloc (k - 1 + j) hk (by omega)
      (by omega) p.1 (ihP (k - 1 + j) le_rfl)
    refine ⟨by rw [show k - 1 + (j + 1) = k - 1 + j + 1 by omega], ?_⟩
    intro r hr c hc
    rcases Nat.lt_or_ge r (k - 1 + j + 1) with h | h
    · have hlow : rowShift k r + c < rowShift k (k - 1 + j + 1) := by
        refine lt_of_lt_of_le ?_ (rowShift_mono k (show r + 1 ≤ k - 1 + j + 1 by omega))
        rw [rowShift_succ]
        omega
      rw [hU _ hlow]
      exact ihP r (by omega) c hc
    · have hrj : r = k - 1 + j + 1 := by omega
      subst hrj
      have hentr : rowEntries k (k - 1 + j + 1) = k := by
        unfold rowEntries
        rw [if_neg (by omega)]
      exact hF c (by omega)

lemma spirinFill_eq (g d : ℕ → ℚ) (k n : ℕ) :
    spirinFill g d k n =
      (List.range' k (n - k)).foldl
        (fun p row => (fillRectRow (allocSize k n) g d k row p.2 (p.2 + k) p.1, p.2 + k))
        ((List.range' 1 (k - 1)).foldl
          (fun p row => (fillTriRow (allocSize k n) g d row p.2 (p.2 + row) p.1, p.2 + row))
          (mwrite (allocSize k n) (fun _ => none) 0 (some (g 0 * d 0)), 0)) := rfl

lemma spirinFill_correct (g d : ℕ → ℚ) (k n : ℕ) (hk : 1 ≤ k) (hkn : k ≤ n) :
    (spirinFill g d k n).2 = rowShift k (n - 1) ∧
    ∀ r, r < n → ∀ c, c < rowEntries k r →
      (spirinFill g d k n).1 (rowShift k r + c) = some (spirinM g d r c) := by
  have halloc : rowShift k n ≤ allocSize k n := le_of_eq (rowShift_eq_allocSize hk hkn)
  have htri := spirinFill_tri (allocSize k n) g d k n halloc hk hkn (k - 1) le_rfl
  have hrect := spirinFill_rect (allocSize k n) g d k n halloc hk hkn _ htri.1 htri.2
    (n - k) le_rfl
  have hfin : k - 1 + (n - k) = n - 1 := by omega
  rw [hfin] at hrect
  rw [spirinFill_eq]
  exact ⟨hrect.1, fun r hr c hc => hrect.2 r (by omega) c hc⟩

lemma rowShift_add_lt_of_lt_k {k r c n : ℕ} (hc : c < k) (hr : r < n) (hkn : k ≤ n) :
    rowShift k r + c < rowShift k n := by
  rcases Nat.lt_or_ge c (rowEntries k r) with h | h
  · exact rowShift_add_lt hr h
  · have hrk : r < k := by
      by_contra hge
      have hek : rowEntries k r = k := by
        unfold rowEntries
        rw [if_neg (by omega)]
      omega
    have hent : rowEntries k r = r + 1 := by
      unfold rowEntries
      rw [if_pos hrk]
    have hentc : rowEntries k c = c + 1 := by
      unfold rowEntries
      rw [if_pos hc]
    have h1 : rowShift k r ≤ rowShift k c := rowShift_mono k (by omega)
    have h2 : rowShift k r + c < rowShift k (c + 1) := by
      rw [rowShift_succ, hentc]
      omega
    exact lt_of_lt_of_le h2 (rowShift_mono k (by omega))

lemma tbStep_reads_lt (Mf : ℕ → ℚ) (k n : ℕ) (hkn : k ≤ n) :
    ∀ (r bc : ℕ) (acc : List ℕ), r < n → bc < k →
      ∀ pos ∈ (tbStep Mf k r (rowShift k r) bc acc).2.2, pos < rowShift k n := by
  intro r
  induction r with
  | zero =>
    intro bc acc _ _ pos hpos
    simp [tbStep] at hpos
  | succ r ih =>
    intro bc acc hrn hbc pos hpos
    have hb1 : rowShift k (r + 1) + bc < rowShift k n := rowShift_add_lt_of_lt_k hbc hrn hkn
    have hb2 : rowShift k r + bc < rowShift k n :=
      rowShift_add_lt_of_lt_k hbc (by omega) hkn
    rw [tbStep_succ, rowShift_sub] at hpos
    by_cases hs : Mf (rowShift k (r + 1) + bc) > Mf (rowShift k r + bc)
    · by_cases hbc0 : bc = 0
      · subst hbc0
        simp only [Nat.add_zero] at hs hb1 hb2
        simp [hs] at hpos
        rcases hpos with h | h
        · omega
        · omega
      · simp [hs, hbc0] at hpos
        rcases hpos with h | h | h
        · omega
        · omega
        · exact ih (bc - 1) ((r + 1) :: acc) (by omega) (by omega) pos h
    · simp [hs] at hpos
      rcases hpos with h | h | h
      · omega
      · omega
      · exact ih bc acc (by omega) (by omega) pos h

/-! ### The `heapq` binary min-heap (search_quality_metric.hpp, struct heapq)

The loop of `percolate_down` strictly increases `pos`, so a fuel of
`heap.length` (always passed by the callers below) makes the fuelled
recursion exhaust the loop. -/

/-- The `smallest` selection of one `percolate_down` iteration: compare
the left child with `pos` (`s1 = l` iff the left child is strictly
smaller), then the right child with `s1` when it exists. -/
def pdSmallest {α : Type} (c : α → α → Bool) (d₀ : α) (h : List α) (pos : ℕ) : ℕ :=
  if 2 * pos + 1 + 1 < h.length then
    (if c (h.getD (2 * pos + 1 + 1) d₀)
        (h.getD (if c (h.getD (2 * pos + 1) d₀) (h.getD pos d₀) then 2 * pos + 1 else pos) d₀)
     then 2 * pos + 1 + 1
     else if c (h.getD (2 * pos + 1) d₀) (h.getD pos d₀) then 2 * pos + 1 else pos)
  else if c (h.getD (2 * pos + 1) d₀) (h.getD pos d₀) then 2 * pos + 1 else pos

/-- `heapq::percolate_down`: sift the element at `pos` down, swapping it
with its smaller child (left child preferred on ties, as in the source)
until the heap property is locally restored. -/
def percolateDown {α : Type} (c : α → α → Bool) (d₀ : α) : ℕ → List α → ℕ → List α
  | 0, h, _ => h
  | fuel + 1, h, pos =>
    if 2 * pos + 1 ≥ h.length then h
    else
      if pdSmallest c d₀ h pos = pos then h
      else percolateDown c d₀ fuel
        ((h.set pos (h.getD (pdSmallest c d₀ h pos) d₀)).set (pdSmallest c d₀ h pos)
          (h.getD pos d₀)) (pdSmallest c d₀ h pos)

/-- `heapq::heapify`'s loop: percolate positions `i, i-1, …, 1` down and
then position `0` (the source runs the `for` from `parent(n-1)` to `1`
and ends with a separate `percolate_down(vec, 0, comp)`). -/
def heapifyAux {α : Type} (c : α → α → Bool) (d₀ : α) : ℕ → List α → List α
  | 0, v => percolateDown c d₀ v.length v 0
  | i + 1, v => heapifyAux c d₀ i (percolateDown c d₀ v.length v (i + 1))

/-- `heapq::heapify`. -/
def heapify {α : Type} (c : α → α → Bool) (d₀ : α) (v : List α) : List α :=
  if v.length ≤ 1 then v else heapifyAux c d₀ ((v.length - 1 - 1) / 2) v

/-- `heapq::replace`: overwrite the root and percolate it down. -/
def heapReplace {α : Type} (c : α → α → Bool) (d₀ : α) (v : List α) (x : α) : List α :=
  percolateDown c d₀ (v.set 0 x).length (v.set 0 x) 0

/-- `heapq::pop`: move the last element to the root, truncate, percolate
down. -/
def heapPop {α : Type} (c : α → α → Bool) (d₀ : α) (v : List α) : List α :=
  percolateDown c d₀ ((v.set 0 (v.getD (v.length - 1) d₀)).dropLast).length
    ((v.set 0 (v.getD (v.length - 1) d₀)).dropLast) 0

lemma cons_set_perm {α : Type} (d₀ : α) :
    ∀ (t : List α) (b : ℕ) (x : α), b < t.length →
      (t.getD b d₀ :: t.set b x).Perm (x :: t) := by
  intro t
  induction t with
  | nil =>
    intro b x hb
    simp at hb
  | cons y s ih =>
    intro b x hb
    cases b with
    | zero =>
      show (y :: x :: s).Perm (x :: y :: s)
      exact List.Perm.swap x y s
    | succ b =>
      show (s.getD b d₀ :: y :: s.set b x).Perm (x :: y :: s)
      have h1 : (s.getD b d₀ :: y :: s.set b x).Perm (y :: s.getD b d₀ :: s.set b x) :=
        List.Perm.swap y (s.getD b d₀) (s.set b x)
      have h2 : (y :: s.getD b d₀ :: s.set b x).Perm (y :: x :: s) :=
        (ih b x (by simpa using hb)).cons y
      have h3 : (y :: x :: s).Perm (x :: y :: s) := List.Perm.swap x y s
      exact (h1.trans h2).trans h3

lemma set_set_swap_perm_lt {α : Type} (d₀ : α) :
    ∀ (h : List α) (a b : ℕ), a < b → b < h.length →
      ((h.set a (h.getD b d₀)).set b (h.getD a d₀)).Perm h := by
  intro h
  induction h with
  | nil =>
    intro a b _ hb
    simp at hb
  | cons x t ih =>
    intro a b hab hb
    cases a with
    | zero =>
      obtain ⟨b', rfl⟩ : ∃ b', b = b' + 1 := ⟨b - 1, by omega⟩
      show (t.getD b' d₀ :: t.set b' x).Perm (x :: t)
      exact cons_set_perm d₀ t b' x (by simpa using hb)
    | succ a =>
      obtain ⟨b', rfl⟩ : ∃ b', b = b' + 1 := ⟨b - 1, by omega⟩
      show (x :: (t.set a (t.getD b' d₀)).set b' (t.getD a d₀)).Perm (x :: t)
      exact (ih a b' (by omega) (by simpa using hb)).cons x

lemma set_getD_self {α : Type} (d₀ : α) :
    ∀ (h : List α) (a : ℕ), a < h.length → h.set a (h.getD a d₀) = h := by
  intro h
  induction h with
  | nil =>
    intro a ha
    simp at ha
  | cons x t ih =>
    intro a ha
    cases a with
    | zero => rfl
    | succ a =>
      show x :: t.set a (t.getD a d₀) = x :: t
      rw [ih a (by simpa using ha)]

lemma set_set_swap_perm {α : Type} (d₀ : α) (h : List α) (a b : ℕ)
    (ha : a < h.length) (hb : b < h.length) :
    ((h.set a (h.getD b d₀)).set b (h.getD a d₀)).Perm h := by
  rcases Nat.lt_trichotomy a b with hlt | heq | hgt
  · exact set_set_swap_perm_lt d₀ h a b hlt hb
  · subst heq
    rw [List.set_set, set_getD_self d₀ h a ha]
  · rw [List.set_comm _ _ _ (by omega)]
    exact set_set_swap_perm_lt d₀ h b a hgt ha

lemma pdSmallest_mem {α : Type} (c : α → α → Bool) (d₀ : α) (h : List α) (pos : ℕ)
    (hl : 2 * pos + 1 < h.length) :
    pdSmallest c d₀ h pos = pos ∨
    (pdSmallest c d₀ h pos = 2 * pos + 1 ∨
      (pdSmallest c d₀ h pos = 2 * pos + 2 ∧ 2 * pos + 2 < h.length)) := by
  unfold pdSmallest
  by_cases hR : 2 * pos + 1 + 1 < h.length
  · rw [if_pos hR]
    by_cases hL : c (h.getD (2 * pos + 1) d₀) (h.getD pos d₀) = true
    · rw [if_pos hL]
      by_cases hRC : c (h.getD (2 * pos + 1 + 1) d₀) (h.getD (2 * pos + 1) d₀) = true
      · rw [if_pos hRC]
        exact Or.inr (Or.inr ⟨by omega, by omega⟩)
      · rw [if_neg hRC]
        exact Or.inr (Or.inl rfl)
    · rw [if_neg hL]
      by_cases hRC : c (h.getD (2 * pos + 1 + 1) d₀) (h.getD pos d₀) = true
      · rw [if_pos hRC]
        exact Or.inr (Or.inr ⟨by omega, by omega⟩)
      · rw [if_neg hRC]
        exact Or.inl rfl
  · rw [if_neg hR]
    by_cases hL : c (h.getD (2 * pos + 1) d₀) (h.getD pos d₀) = true
    · rw [if_pos hL]
      exact Or.inr (Or.inl rfl)
    · rw [if_neg hL]
      exact Or.inl rfl

lemma pdSmallest_lt {α : Type} (c : α → α → Bool) (d₀ : α) (h : List α) (pos : ℕ)
    (hl : 2 * pos + 1 < h.length) : pdSmallest c d₀ h pos < h.length := by
  rcases pdSmallest_mem c d₀ h pos hl with h1 | h1 | ⟨h1, h2⟩ <;> omega

lemma percolateDown_perm {α : Type} (c : α → α → Bool) (d₀ : α) :
    ∀ (fuel : ℕ) (h : List α) (pos : ℕ), (percolateDown c d₀ fuel h pos).Perm h := by
  intro fuel
  induction fuel with
  | zero =>
    intro h pos
    exact List.Perm.refl h
  | succ fuel ih =>
    intro h pos
    show (percolateDown c d₀ (fuel + 1) h pos).Perm h
    rw [percolateDown]
    by_cases hl : 2 * pos + 1 ≥ h.length
    · rw [if_pos hl]
    · rw [if_neg hl]
      push_neg at hl
      by_cases hsp : pdSmallest c d₀ h pos = pos
      · rw [if_pos hsp]
      · rw [if_neg hsp]
        exact (ih _ _).trans (set_set_swap_perm d₀ h pos (pdSmallest c d₀ h pos)
          (by omega) (pdSmallest_lt c d₀ h pos hl))

lemma heapifyAux_perm {α : Type} (c : α → α → Bool) (d₀ : α) :
    ∀ (i : ℕ) (v : List α), (heapifyAux c d₀ i v).Perm v := by
  intro i
  induction i with
  | zero =>
    intro v
    exact percolateDown_perm c d₀ v.length v 0
  | succ i ih =>
    intro v
    show (heapifyAux c d₀ i (percolateDown c d₀ v.length v (i + 1))).Perm v
    exact (ih _).trans (percolateDown_perm c d₀ v.length v (i + 1))

lemma heapify_perm {α : Type} (c : α → α → Bool) (d₀ : α) (v : List α) :
    (heapify c d₀ v).Perm v := by
  unfold heapify
  split
  · exact List.Perm.refl v
  · exact heapifyAux_perm c d₀ _ v

lemma heapReplace_perm {α : Type} (c : α → α → Bool) (d₀ : α) (v : List α) (x : α) :
    (heapReplace c d₀ v x).Perm (v.set 0 x) :=
  percolateDown_perm c d₀ _ _ 0

lemma heapPop_perm {α : Type} (c : α → α → Bool) (d₀ : α) (v : List α) :
    (heapPop c d₀ v).Perm ((v.set 0 (v.getD (v.length - 1) d₀)).dropLast) :=
  percolateDown_perm c d₀ _ _ 0

lemma set_getD {α : Type} (d₀ : α) (l : List α) (i : ℕ) (a : α) (j : ℕ) :
    (l.set i a).getD j d₀ = if j = i ∧ i < l.length then a else l.getD j d₀ := by
  by_cases hij : j = i
  · subst hij
    by_cases hil : j < l.length
    · rw [if_pos ⟨rfl, hil⟩, List.getD_eq_getElem?_getD, List.getElem?_set, if_pos rfl,
        if_pos hil]
      rfl
    · rw [if_neg (by tauto), List.getD_eq_getElem?_getD, List.getD_eq_getElem?_getD,
        List.getElem?_set, if_pos rfl, if_neg hil, List.getElem?_eq_none (by omega)]
  · rw [if_neg (by tauto), List.getD_eq_getElem?_getD, List.getD_eq_getElem?_getD,
      List.getElem?_set, if_neg (by omega)]

lemma dropLast_getD {α : Type} (d₀ : α) (l : List α) (j : ℕ) (hj : j < l.length - 1) :
    l.dropLast.getD j d₀ = l.getD j d₀ := by
  rw [List.getD_eq_getElem?_getD, List.getElem?_dropLast, if_pos hj,
    List.getD_eq_getElem?_getD]

/-- The swap `std::swap(heap[pos], heap[smallest])`, as the two `set`s
used by `percolateDown`, read at an arbitrary index. -/
lemma swap_getD {α : Type} (d₀ : α) (h : List α) (pos s : ℕ) (hpos : pos < h.length)
    (hs : s < h.length) (x : ℕ) :
    ((h.set pos (h.getD s d₀)).set s (h.getD pos d₀)).getD x d₀ =
      if x = s then h.getD pos d₀ else if x = pos then h.getD s d₀ else h.getD x d₀ := by
  rw [set_getD, set_getD]
  rw [List.length_set]
  by_cases hxs : x = s
  · rw [if_pos ⟨hxs, hs⟩, if_pos hxs]
  · rw [if_neg (by tauto), if_neg hxs]
    by_cases hxp : x = pos
    · rw [if_pos ⟨hxp, hpos⟩, if_pos hxp]
    · rw [if_neg (by tauto), if_neg hxp]

/-- The min-heap property of `heapq`, restricted to parents at positions
`≥ m`: no child compares strictly below its parent. -/
def HeapFrom {α : Type} (c : α → α → Bool) (d₀ : α) (h : List α) (m : ℕ) : Prop :=
  ∀ p ch, m ≤ p → (ch = 2 * p + 1 ∨ ch = 2 * p + 2) → ch < h.length →
    c (h.getD ch d₀) (h.getD p d₀) = false

lemma percolateDown_length {α : Type} (c : α → α → Bool) (d₀ : α) :
    ∀ (fuel : ℕ) (h : List α) (pos : ℕ),
      (percolateDown c d₀ fuel h pos).length = h.length :=
  fun fuel h pos => (percolateDown_perm c d₀ fuel h pos).length_eq

lemma pdSmallest_spec {α : Type} (c : α → α → Bool) (d₀ : α)
    (hasym : ∀ a b, c a b = true → c b a = false)
    (hnt : ∀ a b e, c a b = false → c b e = false → c a e = false)
    (h : List α) (pos : ℕ) (hl : 2 * pos + 1 < h.length) :
    (pdSmallest c d₀ h pos = pos ∧
      ∀ o, (o = 2 * pos + 1 ∨ o = 2 * pos + 2) → o < h.length →
        c (h.getD o d₀) (h.getD pos d₀) = false) ∨
    ((pdSmallest c d₀ h pos = 2 * pos + 1 ∨ pdSmallest c d₀ h pos = 2 * pos + 2) ∧
      pdSmallest c d₀ h pos < h.length ∧
      c (h.getD (pdSmallest c d₀ h pos) d₀) (h.getD pos d₀) = true ∧
      ∀ o, (o = 2 * pos + 1 ∨ o = 2 * pos + 2) → o ≠ pdSmallest c d₀ h pos →
        o < h.length → c (h.getD o d₀) (h.getD (pdSmallest c d₀ h pos) d₀) = false) := by
  unfold pdSmallest
  by_cases hR : 2 * pos + 1 + 1 < h.length
  · rw [if_pos hR]
    by_cases hL : c (h.getD (2 * pos + 1) d₀) (h.getD pos d₀) = true
    · rw [if_pos hL]
      by_cases hRC : c (h.getD (2 * pos + 1 + 1) d₀) (h.getD (2 * pos + 1) d₀) = true
      · rw [if_pos hRC]
        right
        refine ⟨Or.inr (by omega), by omega, ?_, ?_⟩
        · by_contra hcc
          rw [Bool.not_eq_true] at hcc
          have h1 := hnt _ _ _ hcc (hasym _ _ hL)
          rw [h1] at hRC
          exact Bool.false_ne_true hRC
        · intro o ho hne holen
          have hol : o = 2 * pos + 1 := by omega
          subst hol
          exact hasym _ _ hRC
      · rw [if_neg hRC]
        right
        refine ⟨Or.inl rfl, by omega, hL, ?_⟩
        intro o ho hne holen
        have hor : o = 2 * pos + 1 + 1 := by omega
        subst hor
        exact Bool.eq_false_iff.mpr (by simpa using hRC)
    · rw [if_neg hL]
      by_cases hRC : c (h.getD (2 * pos + 1 + 1) d₀) (h.getD pos d₀) = true
      · rw [if_pos hRC]
        right
        refine ⟨Or.inr (by omega), by omega, hRC, ?_⟩
        intro o ho hne holen
        have hol : o = 2 * pos + 1 := by omega
        subst hol
        exact hnt _ _ _ (Bool.eq_false_iff.mpr (by simpa using hL)) (hasym _ _ hRC)
      · rw [if_neg hRC]
        left
        refine ⟨rfl, ?_⟩
        intro o ho holen
        rcases ho with rfl | rfl
        · exact Bool.eq_false_iff.mpr (by simpa using hL)
        · have he : 2 * pos + 2 = 2 * pos + 1 + 1 := by omega
          rw [he]
          exact Bool.eq_false_iff.mpr (by simpa using hRC)
  · rw [if_neg hR]
    by_cases hL : c (h.getD (2 * pos + 1) d₀) (h.getD pos d₀) = true
    · rw [if_pos hL]
      right
      refine ⟨Or.inl rfl, by omega, hL, ?_⟩
      intro o ho hne holen
      omega
    · rw [if_neg hL]
      left
      refine ⟨rfl, ?_⟩
      intro o ho holen
      rcases ho with rfl | rfl
      · exact Bool.eq_false_iff.mpr (by simpa using hL)
      · omega

lemma percolateDown_heap {α : Type} (c : α → α → Bool) (d₀ : α)
    (hasym : ∀ a b, c a b = true → c b a = false)
    (hnt : ∀ a b e, c a b = false → c b e = false → c a e = false) :
    ∀ (fuel : ℕ) (h : List α) (pos m : ℕ),
      h.length ≤ fuel + pos →
      m ≤ pos →
      (∀ p ch, m ≤ p → p ≠ pos → (ch = 2 * p + 1 ∨ ch = 2 * p + 2) → ch < h.length →
        c (h.getD ch d₀) (h.getD p d₀) = false) →
      (∀ ch, (ch = 2 * pos + 1 ∨ ch = 2 * pos + 2) → ch < h.length →
        pos ≠ m → m ≤ (pos - 1) / 2 →
        c (h.getD ch d₀) (h.getD ((pos - 1) / 2) d₀) = false) →
      HeapFrom c d₀ (percolateDown c d₀ fuel h pos) m := by
  intro fuel
  induction fuel with
  | zero =>
    intro h pos m hfuel hm hI hII
    show HeapFrom c d₀ h m
    intro p ch hp hch hchlen
    by_cases hppos : p = pos
    · exfalso
      rcases hch with h1 | h1 <;> omega
    · exact hI p ch hp hppos hch hchlen
  | succ fuel ih =>
    intro h pos m hfuel hm hI hII
    rw [percolateDown]
    by_cases hl : 2 * pos + 1 ≥ h.length
    · rw [if_pos hl]
      intro p ch hp hch hchlen
      by_cases hppos : p = pos
      · exfalso
        rcases hch with h1 | h1 <;> omega
      · exact hI p ch hp hppos hch hchlen
    · rw [if_neg hl]
      push_neg at hl
      have hposlt : pos < h.length := by omega
      rcases pdSmallest_spec c d₀ hasym hnt h pos hl with ⟨hseq, hok⟩ |
        ⟨hs2child, hs2len, hF2, hF3⟩
      · rw [if_pos hseq]
        intro p ch hp hch hchlen
        by_cases hppos : p = pos
        · rw [hppos] at hch ⊢
          exact hok ch hch hchlen
        · exact hI p ch hp hppos hch hchlen
      · have hsp : pdSmallest c d₀ h pos ≠ pos := by omega
        rw [if_neg hsp]
        set s2 := pdSmallest c d₀ h pos with hs2def
        have hget : ∀ x, ((h.set pos (h.getD s2 d₀)).set s2 (h.getD pos d₀)).getD x d₀ =
            if x = s2 then h.getD pos d₀
            else if x = pos then h.getD s2 d₀ else h.getD x d₀ :=
          swap_getD d₀ h pos s2 hposlt hs2len
        have hlen' : ((h.set pos (h.getD s2 d₀)).set s2 (h.getD pos d₀)).length = h.length := by
          rw [List.length_set, List.length_set]
        apply ih ((h.set pos (h.getD s2 d₀)).set s2 (h.getD pos d₀)) s2 m
        · omega
        · omega
        · intro p ch hp hps2 hch hchlen
          rw [hlen'] at hchlen
          rw [hget, hget]
          by_cases hA1 : ch = s2
          · rw [if_pos hA1]
            by_cases hB1 : p = s2
            · exact absurd hB1 hps2
            · rw [if_neg hB1]
              by_cases hB2 : p = pos
              · rw [if_pos hB2]
                exact hasym _ _ hF2
              · exfalso
                rcases hch with h1 | h1 <;> rcases hs2child with h2 | h2 <;> omega
          · rw [if_neg hA1]
            by_cases hA2 : ch = pos
            · rw [if_pos hA2]
              by_cases hB1 : p = s2
              · exact absurd hB1 hps2
              · rw [if_neg hB1]
                by_cases hB2 : p = pos
                · exfalso
                  rcases hch with h1 | h1 <;> omega
                · rw [if_neg hB2]
                  have hppe : p = (pos - 1) / 2 := by
                    rcases hch with h1 | h1 <;> omega
                  rw [hppe]
                  exact hII s2 hs2child hs2len (by omega) (by omega)
            · rw [if_neg hA2]
              by_cases hB1 : p = s2
              · exact absurd hB1 hps2
              · rw [if_neg hB1]
                by_cases hB2 : p = pos
                · rw [if_pos hB2]
                  rw [hB2] at hch
                  exact hF3 ch hch hA1 hchlen
                · rw [if_neg hB2]
                  exact hI p ch hp hB2 hch hchlen
        · intro ch hch hchlen hs2m hmp
          rw [hlen'] at hchlen
          have hpar : (s2 - 1) / 2 = pos := by
            rcases hs2child with h1 | h1 <;> omega
          rw [hpar, hget, hget]
          rw [if_neg (by omega), if_neg (by omega), if_neg (by omega), if_pos rfl]
          exact hI s2 ch (by omega) hsp hch hchlen

lemma heapifyAux_heap {α : Type} (c : α → α → Bool) (d₀ : α)
    (hasym : ∀ a b, c a b = true → c b a = false)
    (hnt : ∀ a b e, c a b = false → c b e = false → c a e = false) :
    ∀ (i : ℕ) (v : List α), HeapFrom c d₀ v (i + 1) →
      HeapFrom c d₀ (heapifyAux c d₀ i v) 0 := by
  intro i
  induction i with
  | zero =>
    intro v hv
    show HeapFrom c d₀ (percolateDown c d₀ v.length v 0) 0
    apply percolateDown_heap c d₀ hasym hnt v.length v 0 0 (by omega) le_rfl
    · intro p ch hp hppos hch hchlen
      exact hv p ch (by omega) hch hchlen
    · intro ch hch hchlen hpos hmp
      omega
  | succ i ih =>
    intro v hv
    show HeapFrom c d₀ (heapifyAux c d₀ i (percolateDown c d₀ v.length v (i + 1))) 0
    apply ih
    apply percolateDown_heap c d₀ hasym hnt v.length v (i + 1) (i + 1) (by omega) le_rfl
    · intro p ch hp hppos hch hchlen
      exact hv p ch (by omega) hch hchlen
    · intro ch hch hchlen hpos hmp
      omega

lemma heapify_heap {α : Type} (c : α → α → Bool) (d₀ : α)
    (hasym : ∀ a b, c a b = true → c b a = false)
    (hnt : ∀ a b e, c a b = false → c b e = false → c a e = false)
    (v : List α) : HeapFrom c d₀ (heapify c d₀ v) 0 := by
  unfold heapify
  split
  · rename_i hle
    intro p ch hp hch hchlen
    exfalso
    rcases hch with rfl | rfl <;> omega
  · rename_i hgt
    push_neg at hgt
    apply heapifyAux_heap c d₀ hasym hnt
    intro p ch hp hch hchlen
    exfalso
    rcases hch with rfl | rfl <;> omega

lemma heapReplace_heap {α : Type} (c : α → α → Bool) (d₀ : α)
    (hasym : ∀ a b, c a b = true → c b a = false)
    (hnt : ∀ a b e, c a b = false → c b e = false → c a e = false)
    (v : List α) (x : α) (hv : HeapFrom c d₀ v 0) :
    HeapFrom c d₀ (heapReplace c d₀ v x) 0 := by
  unfold heapReplace
  apply percolateDown_heap c d₀ hasym hnt _ _ 0 0 (by omega) le_rfl
  · intro p ch hp hppos hch hchlen
    rw [List.length_set] at hchlen
    rw [set_getD, set_getD, if_neg (by omega), if_neg (by omega)]
    exact hv p ch (by omega) hch hchlen
  · intro ch hch hchlen hpos hmp
    omega

lemma heapPop_heap {α : Type} (c : α → α → Bool) (d₀ : α)
    (hasym : ∀ a b, c a b = true → c b a = false)
    (hnt : ∀ a b e, c a b = false → c b e = false → c a e = false)
    (v : List α) (hv : HeapFrom c d₀ v 0) :
    HeapFrom c d₀ (heapPop c d₀ v) 0 := by
  unfold heapPop
  apply percolateDown_heap c d₀ hasym hnt _ _ 0 0 (by omega) le_rfl
  · intro p ch hp hppos hch hchlen
    have hwlen : ((v.set 0 (v.getD (v.length - 1) d₀)).dropLast).length = v.length - 1 := by
      rw [List.length_dropLast, List.length_set]
    rw [hwlen] at hchlen
    rw [dropLast_getD _ _ _ (by rw [List.length_set]; omega),
        dropLast_getD _ _ _ (by rw [List.length_set]; omega)]
    rw [set_getD, set_getD, if_neg (by omega), if_neg (by omega)]
    exact hv p ch (by omega) hch (by omega)
  · intro ch hch hchlen hpos hmp
    omega

/-- In a min-heap the root is minimal: no element compares strictly below
`heap[0]`. -/
lemma heap_root_min {α : Type} (c : α → α → Bool) (d₀ : α)
    (hirr : ∀ a, c a a = false)
    (hnt : ∀ a b e, c a b = false → c b e = false → c a e = false)
    (h : List α) (hv : HeapFrom c d₀ h 0) :
    ∀ j, j < h.length → c (h.getD j d₀) (h.getD 0 d₀) = false := by
  intro j
  induction j using Nat.strong_induction_on with
  | _ j ih =>
    intro hj
    rcases Nat.eq_zero_or_pos j with rfl | hj0
    · exact hirr _
    · have hpar := hv ((j - 1) / 2) j (by omega) (by omega) hj
      exact hnt _ _ _ hpar (ih ((j - 1) / 2) (by omega) (by omega))

/-! ### Top-k multisets -/

/-- `m` consists of `min k (card R)` largest elements of `R`: it is a
sub-multiset of the right cardinality dominating everything left out. -/
def IsTopKM (k : ℕ) (R m : Multiset ℚ) : Prop :=
  m ≤ R ∧ Multiset.card m = min k (Multiset.card R) ∧
  ∀ x ∈ m, ∀ y ∈ R - m, y ≤ x

lemma IsTopKM_skip (k : ℕ) (R m : Multiset ℚ) (x r : ℚ) (h : IsTopKM k R m)
    (hcard : k ≤ Multiset.card R)
    (hr : r ∈ m) (hrmin : ∀ z ∈ m, r ≤ z) (hx : x < r) :
    IsTopKM k (x ::ₘ R) m := by
  obtain ⟨h1, h2, h3⟩ := h
  refine ⟨h1.trans (Multiset.le_cons_self R x), ?_, ?_⟩
  · rw [Multiset.card_cons]
    omega
  · intro z hz y hy
    have hcount : Multiset.count y ((x ::ₘ R) - m) ≤
        Multiset.count y (x ::ₘ (R - m)) := by
      rw [Multiset.count_sub, Multiset.count_cons, Multiset.count_cons, Multiset.count_sub]
      omega
    have hy' : y ∈ x ::ₘ (R - m) := by
      rw [← Multiset.count_pos] at hy ⊢
      omega
    rcases Multiset.mem_cons.mp hy' with rfl | hy''
    · exact le_trans (le_of_lt hx) (hrmin z hz)
    · exact h3 z hz y hy''

lemma IsTopKM_replace (k : ℕ) (R m : Multiset ℚ) (x r : ℚ) (h : IsTopKM k R m)
    (hcard : k ≤ Multiset.card R)
    (hr : r ∈ m) (hrmin : ∀ z ∈ m, r ≤ z) (hx : r ≤ x) :
    IsTopKM k (x ::ₘ R) (x ::ₘ m.erase r) := by
  obtain ⟨h1, h2, h3⟩ := h
  refine ⟨Multiset.cons_le_cons x ((Multiset.erase_le r m).trans h1), ?_, ?_⟩
  · rw [Multiset.card_cons, Multiset.card_erase_of_mem hr, Multiset.card_cons]
    have hm1 : 0 < Multiset.card m := Multiset.card_pos_iff_exists_mem.mpr ⟨r, hr⟩
    simp only [Nat.pred_eq_sub_one]
    omega
  · intro z hz y hy
    have hzr : r ≤ z := by
      rcases Multiset.mem_cons.mp hz with rfl | hz'
      · exact hx
      · exact hrmin z (Multiset.mem_of_mem_erase hz')
    have hcount : Multiset.count y ((x ::ₘ R) - (x ::ₘ m.erase r)) ≤
        Multiset.count y (r ::ₘ (R - m)) := by
      rw [Multiset.count_sub, Multiset.count_cons, Multiset.count_cons,
        Multiset.count_cons, Multiset.count_sub]
      have hle := Multiset.count_le_of_le y h1
      by_cases hyr : y = r
      · subst hyr
        rw [Multiset.count_erase_self, if_pos rfl]
        have hrm : 0 < Multiset.count y m := Multiset.count_pos.mpr hr
        by_cases hyx : y = x
        · rw [if_pos hyx]
          omega
        · rw [if_neg hyx]
          omega
      · rw [Multiset.count_erase_of_ne hyr, if_neg hyr]
        by_cases hyx : y = x
        · rw [if_pos hyx]
          omega
        · rw [if_neg hyx]
          omega
    have hy' : y ∈ r ::ₘ (R - m) := by
      rw [← Multiset.count_pos] at hy ⊢
      omega
    rcases Multiset.mem_cons.mp hy' with rfl | hy''
    · exact hzr
    · exact le_trans (h3 r hr y hy'') hzr

lemma IsTopKM_filter_card (k : ℕ) (R m : Multiset ℚ) (h : IsTopKM k R m)
    (p : ℚ → Prop) [DecidablePred p] (hp : ∀ a b : ℚ, a ≤ b → p a → p b) :
    Multiset.card (m.filter p) = min (Multiset.card m) (Multiset.card (R.filter p)) := by
  obtain ⟨h1, h2, h3⟩ := h
  have hle1 : Multiset.card (m.filter p) ≤ Multiset.card m :=
    Multiset.card_le_card (Multiset.filter_le p m)
  have hle2 : Multiset.card (m.filter p) ≤ Multiset.card (R.filter p) :=
    Multiset.card_le_card (Multiset.filter_le_filter p h1)
  rcases Nat.lt_or_ge (Multiset.card (m.filter p))
    (min (Multiset.card m) (Multiset.card (R.filter p))) with hlt | hge
  · exfalso
    have hx : ∃ x ∈ m, ¬ p x := by
      by_contra hall
      push_neg at hall
      have heq : m.filter p = m := Multiset.filter_eq_self.mpr hall
      rw [heq] at hlt
      omega
    obtain ⟨x, hxm, hxp⟩ := hx
    have hsub : (R - m).filter p = R.filter p - m.filter p := Multiset.filter_sub p R m
    have hcard : Multiset.card ((R - m).filter p) =
        Multiset.card (R.filter p) - Multiset.card (m.filter p) := by
      rw [hsub, Multiset.card_sub (Multiset.filter_le_filter p h1)]
    have hpos : 0 < Multiset.card ((R - m).filter p) := by omega
    rw [Multiset.card_pos_iff_exists_mem] at hpos
    obtain ⟨y, hy⟩ := hpos
    rw [Multiset.mem_filter] at hy
    exact hxp (hp y x (h3 x hxm y hy.1) hy.2)
  · omega

lemma card_filter_ge_split (v : ℚ) (s : Multiset ℚ) :
    Multiset.card (s.filter (fun z => v ≤ z)) =
      Multiset.card (s.filter (fun z => v < z)) + Multiset.count v s := by
  rw [Multiset.count_eq_card_filter_eq]
  have h1 := Multiset.filter_add_filter (fun z : ℚ => v < z) (fun z : ℚ => v = z) s
  have h2 : Multiset.filter (fun z : ℚ => v < z ∨ v = z) s =
      Multiset.filter (fun z => v ≤ z) s :=
    Multiset.filter_congr (fun z _ => (le_iff_lt_or_eq (a := v) (b := z)).symm)
  have h3 : Multiset.filter (fun z : ℚ => v < z ∧ v = z) s = 0 :=
    Multiset.filter_eq_nil.mpr (fun z _ hz => absurd (hz.2 ▸ hz.1) (lt_irrefl v))
  rw [h2, h3, add_zero] at h1
  have h4 := congrArg Multiset.card h1
  rw [Multiset.card_add] at h4
  omega

/-- A top-`k` multiset of a given multiset is unique (ties may move
indices around, but the selected value multiset is determined). -/
lemma IsTopKM_unique (k : ℕ) (R m₁ m₂ : Multiset ℚ)
    (h₁ : IsTopKM k R m₁) (h₂ : IsTopKM k R m₂) : m₁ = m₂ := by
  have hc : Multiset.card m₁ = Multiset.card m₂ := by
    rw [h₁.2.1, h₂.2.1]
  ext v
  have e1ge := IsTopKM_filter_card k R m₁ h₁ (fun z => v ≤ z)
    (fun a b hab ha => le_trans ha hab)
  have e1gt := IsTopKM_filter_card k R m₁ h₁ (fun z => v < z)
    (fun a b hab ha => lt_of_lt_of_le ha hab)
  have e2ge := IsTopKM_filter_card k R m₂ h₂ (fun z => v ≤ z)
    (fun a b hab ha => le_trans ha hab)
  have e2gt := IsTopKM_filter_card k R m₂ h₂ (fun z => v < z)
    (fun a b hab ha => lt_of_lt_of_le ha hab)
  have d1 := card_filter_ge_split v m₁
  have d2 := card_filter_ge_split v m₂
  omega

/-! ### The pruners -/

/-- `PrunerCutoff::operator()`: keep every index whose relevance is at
least `0.5 * min + 0.5 * max`. -/
def prunerCutoff (mn mx : ℚ) (rel : List ℚ) : List ℕ :=
  (List.range rel.length).filter
    (fun i => decide ((1 : ℚ) / 2 * mn + 1 / 2 * mx ≤ rel.getD i 0))

/-- Comparator `std::less<relevance_type>` used by the straight top-k
pruner's heap. -/
def qlt (a b : ℚ) : Bool := decide (a < b)

/-- Emission loop of `PrunerTopk::operator()` (the second scan): walk the
list left to right; skip elements strictly below the heap root, emit the
others, and on equality with the root pop the heap, stopping when it
empties.  The fuel is the number of positions left to scan. -/
def topkEmit (rel : List ℚ) : List ℚ → ℕ → ℕ → List ℕ
  | _, _, 0 => []
  | heap, i, rem + 1 =>
    if rel.getD i 0 < heap.getD 0 0 then topkEmit rel heap (i + 1) rem
    else
      if rel.getD i 0 = heap.getD 0 0 then
        if (heapPop qlt 0 heap).length = 0 then [i]
        else i :: topkEmit rel (heapPop qlt 0 heap) (i + 1) rem
      else i :: topkEmit rel heap (i + 1) rem

/-- `PrunerTopk::operator()` (straight variant): for `n ≤ k` keep
everything; otherwise heapify the first `k` relevances, replace the root
with every later element not below it, then emit with `topkEmit`. -/
def prunerTopk (k : ℕ) (rel : List ℚ) : List ℕ :=
  let n := rel.length
  if n ≤ k then List.range n
  else
    let heap := (List.range' k (n - k)).foldl
      (fun h i => if rel.getD i 0 < h.getD 0 0 then h else heapReplace qlt 0 h (rel.getD i 0))
      (heapify qlt 0 (rel.take k))
    topkEmit rel heap 0 n

/-- Comparator `relpos_comparator_relevance` of the optimized top-k
pruner: compare `(relevance, position)` pairs by relevance only. -/
def rposLt (a b : ℚ × ℕ) : Bool := decide (a.1 < b.1)

/-- One iteration of the scanning loop of `PrunerTopkOptimized`: the
`u`-th iteration examines position `i = n - k - 1 - u` and replaces the
heap root with `(rel[i], i)` unless `rel[i]` is strictly below the root's
relevance. -/
def topkOptStep (rel : List ℚ) (k : ℕ) (h : List (ℚ × ℕ)) (u : ℕ) : List (ℚ × ℕ) :=
  if rel.getD (rel.length - k - 1 - u) 0 < (h.getD 0 (0, 0)).1 then h
  else heapReplace rposLt (0, 0) h
    (rel.getD (rel.length - k - 1 - u) 0, rel.length - k - 1 - u)

/-- `PrunerTopkOptimized::operator()`: for `n ≤ k` keep everything;
otherwise seed the heap with the last `k` `(relevance, position)` pairs
(scanning right to left), replace the root with every earlier element not
below it, then sort the surviving pairs by position and output the
positions. -/
def prunerTopkOpt (k : ℕ) (rel : List ℚ) : List ℕ :=
  let n := rel.length
  if n ≤ k then List.range n
  else
    let heap := (List.range (n - k)).foldl (topkOptStep rel k)
      (heapify rposLt (0, 0)
        ((List.range k).map (fun t => (rel.getD (n - 1 - t) 0, n - 1 - t))))
    (heap.mergeSort (fun a b => decide (a.2 ≤ b.2))).map Prod.snd

lemma qlt_asym : ∀ a b : ℚ, qlt a b = true → qlt b a = false := by
  intro a b h
  rw [qlt, decide_eq_true_iff] at h
  rw [qlt, decide_eq_false_iff_not]
  exact not_lt.mpr h.le

lemma qlt_nt : ∀ a b e : ℚ, qlt a b = false → qlt b e = false → qlt a e = false := by
  intro a b e h1 h2
  rw [qlt, decide_eq_false_iff_not, not_lt] at h1 h2
  rw [qlt, decide_eq_false_iff_not, not_lt]
  exact h2.trans h1

lemma qlt_irr : ∀ a : ℚ, qlt a a = false := by
  intro a
  rw [qlt, decide_eq_false_iff_not]
  exact lt_irrefl a

lemma rposLt_asym : ∀ a b : ℚ × ℕ, rposLt a b = true → rposLt b a = false := by
  intro a b h
  rw [rposLt, decide_eq_true_iff] at h
  rw [rposLt, decide_eq_false_iff_not]
  exact not_lt.mpr h.le

lemma rposLt_nt : ∀ a b e : ℚ × ℕ,
    rposLt a b = false → rposLt b e = false → rposLt a e = false := by
  intro a b e h1 h2
  rw [rposLt, decide_eq_false_iff_not, not_lt] at h1 h2
  rw [rposLt, decide_eq_false_iff_not, not_lt]
  exact h2.trans h1

lemma rposLt_irr : ∀ a : ℚ × ℕ, rposLt a a = false := by
  intro a
  rw [rposLt, decide_eq_false_iff_not]
  exact lt_irrefl a.1

lemma mem_getD {α : Type} (d₀ : α) (h : List α) (z : α) (hz : z ∈ h) :
    ∃ j, j < h.length ∧ h.getD j d₀ = z := by
  obtain ⟨j, hj, he⟩ := List.mem_iff_getElem.mp hz
  exact ⟨j, hj, by rw [List.getD_eq_getElem _ _ hj]; exact he⟩

lemma getD_zero_mem {α : Type} (d₀ : α) (h : List α) (hne : h ≠ []) :
    h.getD 0 d₀ ∈ h := by
  cases h with
  | nil => exact absurd rfl hne
  | cons a t => exact List.mem_cons_self a t

/-- In a `qlt` min-heap every element is at least the root. -/
lemma heap_root_le (h : List ℚ) (hv : HeapFrom qlt 0 h 0) (z : ℚ) (hz : z ∈ h) :
    h.getD 0 0 ≤ z := by
  obtain ⟨j, hj, rfl⟩ := mem_getD 0 h z hz
  have hm := heap_root_min qlt 0 qlt_irr qlt_nt h hv j hj
  rw [qlt, decide_eq_false_iff_not, not_lt] at hm
  exact hm

/-- In an `rposLt` min-heap every pair's relevance is at least the
root's. -/
lemma heap_root_le_pair (h : List (ℚ × ℕ)) (hv : HeapFrom rposLt (0, 0) h 0)
    (z : ℚ × ℕ) (hz : z ∈ h) : (h.getD 0 (0, 0)).1 ≤ z.1 := by
  obtain ⟨j, hj, rfl⟩ := mem_getD (0, 0) h z hz
  have hm := heap_root_min rposLt (0, 0) rposLt_irr rposLt_nt h hv j hj
  rw [rposLt, decide_eq_false_iff_not, not_lt] at hm
  exact hm

lemma heapify_coe {α : Type} (c : α → α → Bool) (d₀ : α) (v : List α) :
    (↑(heapify c d₀ v) : Multiset α) = ↑v :=
  Multiset.coe_eq_coe.mpr (heapify_perm c d₀ v)

lemma heapReplace_coe {α : Type} (c : α → α → Bool) (d₀ : α) (v : List α) (x : α)
    (hne : v ≠ []) :
    (↑(heapReplace c d₀ v x) : Multiset α) = x ::ₘ ↑(v.tail) := by
  have h1 : (↑(heapReplace c d₀ v x) : Multiset α) = ↑(v.set 0 x) :=
    Multiset.coe_eq_coe.mpr (heapReplace_perm c d₀ v x)
  cases v with
  | nil => exact absurd rfl hne
  | cons a t => rw [h1]; rfl

lemma heapReplace_length {α : Type} (c : α → α → Bool) (d₀ : α) (v : List α) (x : α) :
    (heapReplace c d₀ v x).length = v.length := by
  rw [(heapReplace_perm c d₀ v x).length_eq, List.length_set]

lemma heapPop_coe {α : Type} (c : α → α → Bool) (d₀ : α) (v : List α) (hne : v ≠ []) :
    (↑(heapPop c d₀ v) : Multiset α) = ↑(v.tail) := by
  have h1 : (↑(heapPop c d₀ v) : Multiset α) =
      ↑((v.set 0 (v.getD (v.length - 1) d₀)).dropLast) :=
    Multiset.coe_eq_coe.mpr (heapPop_perm c d₀ v)
  rw [h1]
  cases v with
  | nil => exact absurd rfl hne
  | cons a t =>
    rcases List.eq_nil_or_concat t with rfl | ⟨t', b, rfl⟩
    · rfl
    · rw [List.concat_eq_append]
      have hlast : (a :: (t' ++ [b])).getD ((a :: (t' ++ [b])).length - 1) d₀ = b := by
        rw [show (a :: (t' ++ [b])).length - 1 = t'.length + 1 by simp]
        show (t' ++ [b]).getD t'.length d₀ = b
        rw [List.getD_eq_getElem?_getD, List.getElem?_append_right le_rfl]
        simp
      rw [hlast]
      show (↑((b :: (t' ++ [b])).dropLast) : Multiset α) = ↑(t' ++ [b])
      rw [show b :: (t' ++ [b]) = (b :: t') ++ [b] from rfl, List.dropLast_concat]
      exact Multiset.coe_eq_coe.mpr (List.perm_append_singleton b t').symm

lemma take_succ_getD (rel : List ℚ) (n : ℕ) (hn : n < rel.length) :
    rel.take (n + 1) = rel.take n ++ [rel.getD n 0] := by
  rw [List.take_succ, List.getElem?_eq_getElem hn, List.getD_eq_getElem rel 0 hn]
  rfl

lemma prunerTopk_phase1 (k : ℕ) (rel : List ℚ) (hk : 1 ≤ k) (hkn : k < rel.length) :
    ∀ t, t ≤ rel.length - k →
      HeapFrom qlt 0 ((List.range' k t).foldl
        (fun h i => if rel.getD i 0 < h.getD 0 0 then h else heapReplace qlt 0 h (rel.getD i 0))
        (heapify qlt 0 (rel.take k))) 0 ∧
      ((List.range' k t).foldl
        (fun h i => if rel.getD i 0 < h.getD 0 0 then h else heapReplace qlt 0 h (rel.getD i 0))
        (heapify qlt 0 (rel.take k))).length = k ∧
      IsTopKM k ↑(rel.take (k + t)) ↑((List.range' k t).foldl
        (fun h i => if rel.getD i 0 < h.getD 0 0 then h else heapReplace qlt 0 h (rel.getD i 0))
        (heapify qlt 0 (rel.take k))) := by
  intro t
  induction t with
  | zero =>
    intro _
    simp only [List.range', List.foldl_nil]
    refine ⟨heapify_heap qlt 0 qlt_asym qlt_nt _, ?_, ?_⟩
    · rw [(heapify_perm qlt 0 _).length_eq, List.length_take]
      omega
    · rw [Nat.add_zero, heapify_coe]
      refine ⟨le_rfl, ?_, ?_⟩
      · rw [Multiset.coe_card, List.length_take]
        omega
      · intro x hx y hy
        rw [tsub_self] at hy
        exact absurd hy (Multiset.not_mem_zero y)
  | succ t ih =>
    intro ht
    obtain ⟨ihH, ihL, ihT⟩ := ih (by omega)
    have hcon : List.range' k (t + 1) = List.range' k t ++ [k + t] := by
      have h := @List.range'_concat 1 k t
      simpa using h
    rw [hcon, List.foldl_append]
    set H := (List.range' k t).foldl
      (fun h i => if rel.getD i 0 < h.getD 0 0 then h else heapReplace qlt 0 h (rel.getD i 0))
      (heapify qlt 0 (rel.take k)) with hHdef
    simp only [List.foldl_cons, List.foldl_nil]
    have hHne : H ≠ [] := by
      intro h0
      rw [h0] at ihL
      simp at ihL
      omega
    have hmem : H.getD 0 0 ∈ (↑H : Multiset ℚ) := by
      rw [Multiset.mem_coe]
      exact getD_zero_mem 0 H hHne
    have hrmin : ∀ z ∈ (↑H : Multiset ℚ), H.getD 0 0 ≤ z := by
      intro z hz
      exact heap_root_le H ihH z (Multiset.mem_coe.mp hz)
    have hcard : k ≤ Multiset.card (↑(rel.take (k + t)) : Multiset ℚ) := by
      rw [Multiset.coe_card, List.length_take]
      omega
    have hcoe : (↑(rel.take (k + t + 1)) : Multiset ℚ) =
        rel.getD (k + t) 0 ::ₘ ↑(rel.take (k + t)) := by
      rw [take_succ_getD rel (k + t) (by omega)]
      exact Multiset.coe_eq_coe.mpr (List.perm_append_singleton _ _)
    by_cases hc : rel.getD (k + t) 0 < H.getD 0 0
    · rw [if_pos hc, show k + (t + 1) = k + t + 1 by omega, hcoe]
      exact ⟨ihH, ihL, IsTopKM_skip k _ _ _ (H.getD 0 0) ihT hcard hmem hrmin hc⟩
    · rw [if_neg hc]
      push_neg at hc
      have hrep_coe : (↑(heapReplace qlt 0 H (rel.getD (k + t) 0)) : Multiset ℚ) =
          rel.getD (k + t) 0 ::ₘ ↑H.tail := heapReplace_coe qlt 0 H _ hHne
      have htail : (↑H.tail : Multiset ℚ) = (↑H : Multiset ℚ).erase (H.getD 0 0) := by
        obtain ⟨a, s, has⟩ := List.exists_cons_of_ne_nil hHne
        rw [has]
        show (↑s : Multiset ℚ) = (a ::ₘ ↑s).erase a
        rw [Multiset.erase_cons_head]
      refine ⟨heapReplace_heap qlt 0 qlt_asym qlt_nt H _ ihH, ?_, ?_⟩
      · rw [heapReplace_length]
        exact ihL
      · rw [show k + (t + 1) = k + t + 1 by omega, hcoe, hrep_coe, htail]
        exact IsTopKM_replace k _ _ _ (H.getD 0 0) ihT hcard hmem hrmin hc

/-- The emission scan of the straight top-k pruner: starting from a heap
`H` and an already-emitted relevance multiset `E` satisfying the loop
invariants below, the emitted relevances complete `E` exactly to the
target multiset `H₀` (the top-k multiset produced by the first phase).
`v₀` is a lower bound for `H₀` such that every relevance strictly above
`v₀` occurs no more often in the whole list than in `H₀`. -/
lemma topkEmit_emits (rel : List ℚ) (H₀ : Multiset ℚ) (v₀ : ℚ)
    (hv₀min : ∀ z ∈ H₀, v₀ ≤ z)
    (hstat : ∀ v : ℚ, v₀ < v →
      Multiset.count v (↑rel : Multiset ℚ) ≤ Multiset.count v H₀) :
    ∀ (rem i : ℕ) (H : List ℚ) (E : Multiset ℚ),
      i + rem = rel.length →
      H ≠ [] →
      HeapFrom qlt 0 H 0 →
      (↑H : Multiset ℚ) ≤ H₀ →
      H₀ ≤ E + ↑H →
      E ≤ H₀ →
      E + ↑(rel.drop i) ≤ ↑rel →
      H₀ ≤ E + ↑(rel.drop i) →
      Multiset.count v₀ E + Multiset.count v₀ (↑H : Multiset ℚ) =
        Multiset.count v₀ H₀ →
      E + ↑((topkEmit rel H i rem).map (fun j => rel.getD j 0)) = H₀ := by
  intro rem
  induction rem with
  | zero =>
    intro i H E hlen _ _ _ _ h4 _ h13 _
    have hdrop : rel.drop i = [] := List.drop_eq_nil_iff.mpr (by omega)
    rw [hdrop] at h13
    show E + ↑(List.map (fun j => rel.getD j 0) []) = H₀
    simp only [List.map_nil]
    have hE : E = H₀ := le_antisymm h4 (by simpa using h13)
    simpa using hE
  | succ rem ih =>
    intro i H E hlen hne hheap h2 h3 h4 h7 h13 h8
    have hi : i < rel.length := by omega
    have hrmem : H.getD 0 0 ∈ (↑H : Multiset ℚ) :=
      Multiset.mem_coe.mpr (getD_zero_mem 0 H hne)
    have hrmin : ∀ z ∈ (↑H : Multiset ℚ), H.getD 0 0 ≤ z := fun z hz =>
      heap_root_le H hheap z (Multiset.mem_coe.mp hz)
    have hrv₀ : v₀ ≤ H.getD 0 0 := hv₀min _ (Multiset.mem_of_le h2 hrmem)
    have hdropi : (↑(rel.drop i) : Multiset ℚ) =
        rel.getD i 0 ::ₘ ↑(rel.drop (i + 1)) := by
      rw [List.drop_eq_getElem_cons hi, ← List.getD_eq_getElem rel 0 hi]
      rfl
    rw [topkEmit]
    by_cases hc : rel.getD i 0 < H.getD 0 0
    · rw [if_pos hc]
      refine ih (i + 1) H E (by omega) hne hheap h2 h3 h4 ?_ ?_ h8
      · refine le_trans ?_ h7
        rw [hdropi]
        exact add_le_add_left (Multiset.le_cons_self _ _) E
      · rw [Multiset.le_iff_count]
        intro a
        have h13a := Multiset.count_le_of_le a h13
        rw [hdropi, Multiset.count_add, Multiset.count_cons] at h13a
        rw [Multiset.count_add]
        by_cases hav : a = rel.getD i 0
        · have hHa : Multiset.count a (↑H : Multiset ℚ) = 0 := by
            rw [Multiset.count_eq_zero]
            intro hmem'
            have hle := hrmin a hmem'
            rw [hav] at hle
            exact absurd (lt_of_le_of_lt hle hc) (lt_irrefl _)
          have h3a := Multiset.count_le_of_le a h3
          rw [Multiset.count_add, hHa] at h3a
          rw [if_pos hav] at h13a
          omega
        · rw [if_neg hav] at h13a
          omega
    · rw [if_neg hc]
      push_neg at hc
      have hE4 : rel.getD i 0 ::ₘ E ≤ H₀ := by
        rw [Multiset.le_iff_count]
        intro a
        rw [Multiset.count_cons]
        by_cases hav : a = rel.getD i 0
        · rw [if_pos hav, hav]
          rcases lt_or_eq_of_le (le_trans hrv₀ hc) with hgt | heqv
          · have h7a := Multiset.count_le_of_le (rel.getD i 0) h7
            rw [Multiset.count_add] at h7a
            have hdc : 0 < Multiset.count (rel.getD i 0) (↑(rel.drop i) : Multiset ℚ) := by
              rw [hdropi, Multiset.count_cons, if_pos rfl]
              omega
            have hsv := hstat (rel.getD i 0) hgt
            omega
          · rw [← heqv]
            have hrle : H.getD 0 0 ≤ v₀ := by
              rw [heqv]
              exact hc
            have hHv : 0 < Multiset.count v₀ (↑H : Multiset ℚ) := by
              refine Multiset.count_pos.mpr ?_
              rw [le_antisymm hrle hrv₀] at hrmem
              exact hrmem
            omega
        · rw [if_neg hav]
          exact Multiset.count_le_of_le a h4
      have hEdrop : (rel.getD i 0 ::ₘ E) + ↑(rel.drop (i + 1)) =
          E + ↑(rel.drop i) := by
        rw [hdropi, Multiset.cons_add, Multiset.add_cons]
      have h7' : (rel.getD i 0 ::ₘ E) + ↑(rel.drop (i + 1)) ≤ ↑rel := by
        rw [hEdrop]
        exact h7
      have h13' : H₀ ≤ (rel.getD i 0 ::ₘ E) + ↑(rel.drop (i + 1)) := by
        rw [hEdrop]
        exact h13
      by_cases heq : rel.getD i 0 = H.getD 0 0
      · rw [if_pos heq]
        obtain ⟨a0, s0, has⟩ := List.exists_cons_of_ne_nil hne
        have ha0 : a0 = rel.getD i 0 := by
          rw [heq, has]
          rfl
        have hHcoe : (↑H : Multiset ℚ) = rel.getD i 0 ::ₘ ↑s0 := by
          rw [has, ← ha0]
          rfl
        have hpop : (↑(heapPop qlt 0 H) : Multiset ℚ) = ↑s0 := by
          rw [heapPop_coe qlt 0 H hne, has]
          rfl
        by_cases hemp : (heapPop qlt 0 H).length = 0
        · rw [if_pos hemp]
          have hs0 : (↑s0 : Multiset ℚ) = 0 := by
            rw [← hpop, List.length_eq_zero.mp hemp]
            rfl
          have hH1 : (↑H : Multiset ℚ) = {rel.getD i 0} := by
            rw [hHcoe, hs0, Multiset.cons_zero]
          show E + ↑(List.map (fun j => rel.getD j 0) [i]) = H₀
          simp only [List.map_cons, List.map_nil]
          rw [Multiset.coe_singleton]
          refine le_antisymm ?_ ?_
          · rw [add_comm, Multiset.singleton_add]
            exact hE4
          · rw [← hH1]
            exact h3
        · rw [if_neg hemp]
          have hne' : heapPop qlt 0 H ≠ [] := by
            intro h0
            rw [h0] at hemp
            exact hemp rfl
          have h2' : (↑(heapPop qlt 0 H) : Multiset ℚ) ≤ H₀ := by
            rw [hpop]
            refine le_trans ?_ h2
            rw [hHcoe]
            exact Multiset.le_cons_self _ _
          have h3' : H₀ ≤ (rel.getD i 0 ::ₘ E) + ↑(heapPop qlt 0 H) := by
            rw [hpop, Multiset.cons_add]
            rw [hHcoe, Multiset.add_cons] at h3
            exact h3
          have h8' : Multiset.count v₀ (rel.getD i 0 ::ₘ E) +
              Multiset.count v₀ (↑(heapPop qlt 0 H) : Multiset ℚ) =
              Multiset.count v₀ H₀ := by
            rw [hpop, Multiset.count_cons]
            rw [hHcoe, Multiset.count_cons] at h8
            omega
          have hrec := ih (i + 1) (heapPop qlt 0 H) (rel.getD i 0 ::ₘ E)
            (by omega) hne' (heapPop_heap qlt 0 qlt_asym qlt_nt H hheap)
            h2' h3' hE4 h7' h13' h8'
          show E + ↑(List.map (fun j => rel.getD j 0)
            (i :: topkEmit rel (heapPop qlt 0 H) (i + 1) rem)) = H₀
          rw [List.map_cons, ← Multiset.cons_coe, Multiset.add_cons, ← Multiset.cons_add]
          exact hrec
      · rw [if_neg heq]
        have hvgt : H.getD 0 0 < rel.getD i 0 :=
          lt_of_le_of_ne hc (fun h => heq h.symm)
        have hvne : v₀ ≠ rel.getD i 0 := ne_of_lt (lt_of_le_of_lt hrv₀ hvgt)
        have h8'' : Multiset.count v₀ (rel.getD i 0 ::ₘ E) +
            Multiset.count v₀ (↑H : Multiset ℚ) = Multiset.count v₀ H₀ := by
          rw [Multiset.count_cons, if_neg hvne]
          exact h8
        have hrec := ih (i + 1) H (rel.getD i 0 ::ₘ E) (by omega) hne hheap h2
          (le_trans h3 (add_le_add_right (Multiset.le_cons_self E _) ↑H))
          hE4 h7' h13' h8''
        show E + ↑(List.map (fun j => rel.getD j 0)
          (i :: topkEmit rel H (i + 1) rem)) = H₀
        rw [List.map_cons, ← Multiset.cons_coe, Multiset.add_cons, ← Multiset.cons_add]
        exact hrec

/-- Phase 1 plus emission: the straight top-k pruner selects a top-k
multiset of relevances. -/
lemma prunerTopk_topkm (k : ℕ) (rel : List ℚ) (hk : 1 ≤ k) (hkn : k < rel.length) :
    IsTopKM k ↑rel ↑((prunerTopk k rel).map (fun j => rel.getD j 0)) := by
  obtain ⟨hH, hL, hT⟩ := prunerTopk_phase1 k rel hk hkn (rel.length - k) le_rfl
  have hprune : prunerTopk k rel =
      if rel.length ≤ k then List.range rel.length
      else topkEmit rel ((List.range' k (rel.length - k)).foldl
        (fun h i => if rel.getD i 0 < h.getD 0 0 then h else heapReplace qlt 0 h (rel.getD i 0))
        (heapify qlt 0 (rel.take k))) 0 rel.length := rfl
  set H := (List.range' k (rel.length - k)).foldl
    (fun h i => if rel.getD i 0 < h.getD 0 0 then h else heapReplace qlt 0 h (rel.getD i 0))
    (heapify qlt 0 (rel.take k)) with hHdef
  rw [show k + (rel.length - k) = rel.length by omega, List.take_length] at hT
  have hHne : H ≠ [] := by
    intro h0
    rw [h0] at hL
    simp at hL
    omega
  have hstat : ∀ v : ℚ, H.getD 0 0 < v →
      Multiset.count v (↑rel : Multiset ℚ) ≤ Multiset.count v (↑H : Multiset ℚ) := by
    intro v hv
    by_contra hlt
    push_neg at hlt
    have hmem : v ∈ (↑rel : Multiset ℚ) - ↑H := by
      rw [← Multiset.count_pos, Multiset.count_sub]
      omega
    have hdom := hT.2.2 (H.getD 0 0) (Multiset.mem_coe.mpr (getD_zero_mem 0 H hHne)) v hmem
    exact absurd hv (not_lt.mpr hdom)
  have hemit := topkEmit_emits rel ↑H (H.getD 0 0)
    (fun z hz => heap_root_le H hH z (Multiset.mem_coe.mp hz)) hstat
    rel.length 0 H 0 (by omega) hHne hH le_rfl (by simp) (Multiset.zero_le _)
    (by simp) (by simpa using hT.1) (by simp)
  rw [hprune, if_neg (by omega)]
  have hcoe : (↑((topkEmit rel H 0 rel.length).map (fun j => rel.getD j 0)) : Multiset ℚ) =
      ↑H := by
    simpa using hemit
  rw [hcoe]
  exact hT

/-- The straight top-k pruner keeps exactly `k` indices when `k < n`. -/
lemma prunerTopk_len (k : ℕ) (rel : List ℚ) (hk : 1 ≤ k) (hkn : k < rel.length) :
    (prunerTopk k rel).length = k := by
  have h := (prunerTopk_topkm k rel hk hkn).2.1
  rw [Multiset.coe_card, List.length_map, Multiset.coe_card] at h
  omega

/-- The relevances of the optimized pruner's seed heap (the last `k`
positions, scanned right to left) form the suffix `rel.drop (n - k)` as a
multiset. -/
lemma seed_coe (rel : List ℚ) : ∀ k, k ≤ rel.length →
    (↑(((List.range k).map
        (fun u => (rel.getD (rel.length - 1 - u) 0, rel.length - 1 - u))).map Prod.fst) :
      Multiset ℚ) = ↑(rel.drop (rel.length - k)) := by
  intro k
  induction k with
  | zero =>
    intro _
    rw [Nat.sub_zero, List.drop_length]
    rfl
  | succ k ih =>
    intro hk
    have hidx : rel.length - (k + 1) < rel.length := by omega
    have hieq : rel.length - 1 - k = rel.length - (k + 1) := by omega
    have hieq2 : rel.length - (k + 1) + 1 = rel.length - k := by omega
    have hdrop : rel.drop (rel.length - (k + 1)) =
        rel.getD (rel.length - (k + 1)) 0 :: rel.drop (rel.length - k) := by
      conv_lhs => rw [List.drop_eq_getElem_cons hidx]
      rw [← List.getD_eq_getElem rel 0 hidx, hieq2]
    rw [List.range_succ, List.map_append, List.map_append]
    show (↑(((List.range k).map
        (fun u => (rel.getD (rel.length - 1 - u) 0, rel.length - 1 - u))).map Prod.fst ++
        [rel.getD (rel.length - 1 - k) 0]) : Multiset ℚ) = ↑(rel.drop (rel.length - (k + 1)))
    rw [← Multiset.coe_add, ih (by omega), hieq, hdrop, Multiset.coe_singleton,
      add_comm, Multiset.singleton_add, Multiset.cons_coe]

/-- Scanning-phase invariant of `PrunerTopkOptimized`: after `t`
iterations the heap is a well-formed min-heap of `k` honest
`(relevance, position)` pairs whose relevances form a top-k multiset of
the already-scanned suffix. -/
lemma prunerTopkOpt_phase1 (k : ℕ) (rel : List ℚ) (hk : 1 ≤ k) (hkn : k < rel.length) :
    ∀ t, t ≤ rel.length - k →
      HeapFrom rposLt (0, 0) ((List.range t).foldl (topkOptStep rel k)
        (heapify rposLt (0, 0) ((List.range k).map
          (fun u => (rel.getD (rel.length - 1 - u) 0, rel.length - 1 - u))))) 0 ∧
      ((List.range t).foldl (topkOptStep rel k)
        (heapify rposLt (0, 0) ((List.range k).map
          (fun u => (rel.getD (rel.length - 1 - u) 0, rel.length - 1 - u))))).length = k ∧
      (∀ p ∈ (List.range t).foldl (topkOptStep rel k)
        (heapify rposLt (0, 0) ((List.range k).map
          (fun u => (rel.getD (rel.length - 1 - u) 0, rel.length - 1 - u)))),
        p.1 = rel.getD p.2 0) ∧
      IsTopKM k ↑(rel.drop (rel.length - k - t))
        ↑(((List.range t).foldl (topkOptStep rel k)
          (heapify rposLt (0, 0) ((List.range k).map
            (fun u => (rel.getD (rel.length - 1 - u) 0, rel.length - 1 - u))))).map
          Prod.fst) := by
  intro t
  induction t with
  | zero =>
    intro _
    simp only [List.range_zero, List.foldl_nil]
    have hperm := heapify_perm rposLt (0, 0) ((List.range k).map
      (fun u => (rel.getD (rel.length - 1 - u) 0, rel.length - 1 - u)))
    refine ⟨heapify_heap rposLt (0, 0) rposLt_asym rposLt_nt _, ?_, ?_, ?_⟩
    · rw [hperm.length_eq, List.length_map, List.length_range]
    · intro p hp
      have hp' := hperm.mem_iff.mp hp
      rw [List.mem_map] at hp'
      obtain ⟨u, _, rfl⟩ := hp'
      rfl
    · have hco : (↑((heapify rposLt (0, 0) ((List.range k).map
          (fun u => (rel.getD (rel.length - 1 - u) 0, rel.length - 1 - u)))).map Prod.fst) :
          Multiset ℚ) = ↑(rel.drop (rel.length - k)) := by
        rw [Multiset.coe_eq_coe.mpr (hperm.map Prod.fst)]
        exact seed_coe rel k (by omega)
      rw [Nat.sub_zero, hco]
      refine ⟨le_rfl, ?_, ?_⟩
      · show (rel.drop (rel.length - k)).length =
          min k (rel.drop (rel.length - k)).length
        rw [List.length_drop]
        omega
      · intro x hx y hy
        rw [tsub_self] at hy
        exact absurd hy (Multiset.not_mem_zero y)
  | succ t ih =>
    intro ht
    obtain ⟨ihH, ihL, ihMem, ihT⟩ := ih (by omega)
    rw [List.range_succ, List.foldl_append, List.foldl_cons, List.foldl_nil]
    set H := (List.range t).foldl (topkOptStep rel k)
      (heapify rposLt (0, 0) ((List.range k).map
        (fun u => (rel.getD (rel.length - 1 - u) 0, rel.length - 1 - u)))) with hHdef
    have hHne : H ≠ [] := by
      intro h0
      rw [h0] at ihL
      simp at ihL
      omega
    have hroot : H.getD 0 (0, 0) ∈ H := getD_zero_mem (0, 0) H hHne
    have hrmem : (H.getD 0 (0, 0)).1 ∈ (↑(H.map Prod.fst) : Multiset ℚ) := by
      rw [Multiset.mem_coe]
      exact List.mem_map_of_mem Prod.fst hroot
    have hrmin : ∀ z ∈ (↑(H.map Prod.fst) : Multiset ℚ), (H.getD 0 (0, 0)).1 ≤ z := by
      intro z hz
      rw [Multiset.mem_coe, List.mem_map] at hz
      obtain ⟨p, hp, rfl⟩ := hz
      exact heap_root_le_pair H ihH p hp
    have hcard : k ≤ Multiset.card (↑(rel.drop (rel.length - k - t)) : Multiset ℚ) := by
      rw [Multiset.coe_card, List.length_drop]
      omega
    have hidx : rel.length - k - 1 - t < rel.length := by omega
    have hieq : rel.length - k - (t + 1) = rel.length - k - 1 - t := by omega
    have hieq2 : rel.length - k - 1 - t + 1 = rel.length - k - t := by omega
    have hdrop : rel.drop (rel.length - k - (t + 1)) =
        rel.getD (rel.length - k - 1 - t) 0 :: rel.drop (rel.length - k - t) := by
      rw [hieq]
      conv_lhs => rw [List.drop_eq_getElem_cons hidx]
      rw [← List.getD_eq_getElem rel 0 hidx, hieq2]
    unfold topkOptStep
    by_cases hc : rel.getD (rel.length - k - 1 - t) 0 < (H.getD 0 (0, 0)).1
    · rw [if_pos hc]
      refine ⟨ihH, ihL, ihMem, ?_⟩
      rw [hdrop, ← Multiset.cons_coe]
      exact IsTopKM_skip k _ _ _ _ ihT hcard hrmem hrmin hc
    · rw [if_neg hc]
      push_neg at hc
      obtain ⟨h0, tl, hcons⟩ := List.exists_cons_of_ne_nil hHne
      have hrepl_coe : (↑(heapReplace rposLt (0, 0) H
          (rel.getD (rel.length - k - 1 - t) 0, rel.length - k - 1 - t)) :
          Multiset (ℚ × ℕ)) =
          (rel.getD (rel.length - k - 1 - t) 0, rel.length - k - 1 - t) ::ₘ ↑tl := by
        rw [heapReplace_coe rposLt (0, 0) H _ hHne, hcons]
        rfl
      refine ⟨heapReplace_heap rposLt (0, 0) rposLt_asym rposLt_nt H _ ihH, ?_, ?_, ?_⟩
      · rw [heapReplace_length]
        exact ihL
      · intro p hp
        have hp' := (heapReplace_perm rposLt (0, 0) H _).mem_iff.mp hp
        rcases List.mem_or_eq_of_mem_set hp' with h | h
        · exact ihMem p h
        · rw [h]
      · have hmfst : (↑((heapReplace rposLt (0, 0) H
            (rel.getD (rel.length - k - 1 - t) 0, rel.length - k - 1 - t)).map Prod.fst) :
            Multiset ℚ) =
            rel.getD (rel.length - k - 1 - t) 0 ::ₘ ↑(tl.map Prod.fst) := by
          rw [← Multiset.map_coe, hrepl_coe, Multiset.map_cons, Multiset.map_coe]
        have hmH : (↑(H.map Prod.fst) : Multiset ℚ) =
            (H.getD 0 (0, 0)).1 ::ₘ ↑(tl.map Prod.fst) := by
          rw [hcons]
          rfl
        have herase : (↑(tl.map Prod.fst) : Multiset ℚ) =
            (↑(H.map Prod.fst) : Multiset ℚ).erase (H.getD 0 (0, 0)).1 := by
          rw [hmH, Multiset.erase_cons_head]
        rw [hdrop, ← Multiset.cons_coe, hmfst, herase]
        exact IsTopKM_replace k _ _ _ _ ihT hcard hrmem hrmin hc

/-- The optimized top-k pruner also selects a top-k multiset of
relevances, and keeps exactly `k` indices, when `k < n`. -/
lemma prunerTopkOpt_topkm (k : ℕ) (rel : List ℚ) (hk : 1 ≤ k) (hkn : k < rel.length) :
    IsTopKM k ↑rel ↑((prunerTopkOpt k rel).map (fun j => rel.getD j 0)) ∧
    (prunerTopkOpt k rel).length = k := by
  obtain ⟨hH, hL, hMem, hT⟩ := prunerTopkOpt_phase1 k rel hk hkn (rel.length - k) le_rfl
  have hopt : prunerTopkOpt k rel =
      if rel.length ≤ k then List.range rel.length
      else (((List.range (rel.length - k)).foldl (topkOptStep rel k)
        (heapify rposLt (0, 0) ((List.range k).map
          (fun u => (rel.getD (rel.length - 1 - u) 0, rel.length - 1 - u))))).mergeSort
        (fun a b => decide (a.2 ≤ b.2))).map Prod.snd := rfl
  set F := (List.range (rel.length - k)).foldl (topkOptStep rel k)
    (heapify rposLt (0, 0) ((List.range k).map
      (fun u => (rel.getD (rel.length - 1 - u) 0, rel.length - 1 - u)))) with hFdef
  rw [show rel.length - k - (rel.length - k) = 0 by omega, List.drop_zero] at hT
  rw [hopt, if_neg (by omega)]
  have hperm : (F.mergeSort (fun a b => decide (a.2 ≤ b.2))).Perm F :=
    List.mergeSort_perm F _
  have hcoe : (↑(((F.mergeSort (fun a b => decide (a.2 ≤ b.2))).map Prod.snd).map
      (fun j => rel.getD j 0)) : Multiset ℚ) = ↑(F.map Prod.fst) := by
    rw [List.map_map]
    have hfun : (F.mergeSort (fun a b => decide (a.2 ≤ b.2))).map
        ((fun j => rel.getD j 0) ∘ Prod.snd) =
        (F.mergeSort (fun a b => decide (a.2 ≤ b.2))).map Prod.fst := by
      refine List.map_congr_left ?_
      intro p hp
      have hpF := hperm.mem_iff.mp hp
      show rel.getD p.2 0 = p.1
      exact (hMem p hpF).symm
    rw [hfun]
    exact Multiset.coe_eq_coe.mpr (hperm.map Prod.fst)
  constructor
  · rw [hcoe]
    exact hT
  · rw [List.length_map, hperm.length_eq, hL]

/-- Rebuilding a list from `getD` at every index of `range` gives the
list back. -/
lemma map_getD_range (rel : List ℚ) :
    (List.range rel.length).map (fun j => rel.getD j 0) = rel := by
  apply List.ext_getElem
  · rw [List.length_map, List.length_range]
  · intro j h1 h2
    rw [List.getElem_map, List.getElem_range, List.getD_eq_getElem rel 0 h2]

/-- The score-function interface a pruner receives (`gain_factor`,
`gain_factor_inverse`, `discount_factor`, `discount_factor_sum`). -/
structure ScoreFn where
  gainF : ℚ → ℚ
  gainInv : ℚ → ℚ
  disc : ℕ → ℚ
  discSum : ℕ → ℕ → ℚ

/-- The numerical-workaround loop of `PrunerEpsPruning::operator()`: up to
16 times, while the gain of the current threshold still exceeds
`min_gain`, lower the threshold to `gain_factor_inverse(min_gain - 0.1^i)`. -/
def epsThreshAux (sf : ScoreFn) (minGain : ℚ) : ℕ → ℚ → ℚ
  | 0, t => t
  | i + 1, t =>
    if sf.gainF t > minGain then
      epsThreshAux sf minGain i (sf.gainInv (minGain - (1 / 10) ^ (i + 1)))
    else t

/-- First scan of `PrunerEpsPruning::operator()`: walk right to left,
collecting indices (and their relevances into the unheapified heap) that
pass the threshold, stopping once `k` are collected.  Returns the indices,
the heap contents, and the position at which the scan stopped. -/
def epsPhase1 (rel : List ℚ) (thr : ℚ) (k : ℕ) :
    ℕ → List ℕ → List ℚ → List ℕ × List ℚ × ℕ
  | 0, idxs, hp => (idxs, hp, 0)
  | i + 1, idxs, hp =>
    if thr ≤ rel.getD i 0 then
      if (hp ++ [rel.getD i 0]).length = k then (idxs ++ [i], hp ++ [rel.getD i 0], i)
      else epsPhase1 rel thr k i (idxs ++ [i]) (hp ++ [rel.getD i 0])
    else epsPhase1 rel thr k i idxs hp

/-- The `min_interval_id` advancing loop of `PrunerEpsPruning`: increase
`mid` while `interval_boundaries[mid] < root`. -/
def epsFindInterval (bnds : List ℚ) (root : ℚ) : ℕ → ℕ → ℕ
  | 0, mid => mid
  | fuel + 1, mid =>
    if bnds.getD mid 0 < root then epsFindInterval bnds root fuel (mid + 1) else mid

/-- Second scan of `PrunerEpsPruning::operator()`: continue right to left
from where the first scan stopped; skip elements at or below the current
threshold, emit the others into the solution while replacing the heap
root, advancing the interval threshold as the root grows and breaking on
the last interval. -/
def epsPhase2 (rel bnds : List ℚ) : ℕ → ℚ → ℕ → List ℕ → List ℚ → List ℕ × List ℚ
  | 0, _, _, idxs, hp => (idxs, hp)
  | i + 1, thr, mid, idxs, hp =>
    if rel.getD i 0 ≤ thr then epsPhase2 rel bnds i thr mid idxs hp
    else
      let idxs2 := idxs ++ [i]
      let hp2 := heapReplace qlt 0 hp (rel.getD i 0)
      if bnds.getD mid 0 < hp2.getD 0 0 then
        let mid2 := epsFindInterval bnds (hp2.getD 0 0) (bnds.length + 1) (mid + 1)
        if mid2 = bnds.length - 1 then (idxs2, hp2)
        else epsPhase2 rel bnds i (bnds.getD mid2 0) mid2 idxs2 hp2
      else epsPhase2 rel bnds i thr mid idxs2 hp2

/-- `PrunerEpsPruning::operator()`.  The interval boundaries are received
as a parameter `bnds`: the source computes them with `std::log2`/`ceil`
floating-point arithmetic whose exact values the claims below never
depend on (every theorem about this pruner quantifies over `bnds`). -/
def prunerEps (sf : ScoreFn) (bnds : List ℚ) (k : ℕ) (mn mx eps : ℚ)
    (rel : List ℚ) : List ℕ :=
  let maxGain := sf.gainF mx
  let minGain := max (sf.gainF mn)
      (eps * maxGain * sf.disc 1 / ((1 - eps) * sf.discSum 2 k)) *
    (1 - 1 / 10 ^ 16)
  let thr0 := epsThreshAux sf minGain 16 (sf.gainInv minGain)
  let p1 := epsPhase1 rel thr0 k rel.length [] []
  let hp := heapify qlt 0 p1.2.1
  let mid := epsFindInterval bnds (hp.getD 0 0) (bnds.length + 1) 0
  let p2 := epsPhase2 rel bnds p1.2.2 (bnds.getD mid 0) mid p1.1 hp
  p2.1.reverse

lemma prunerCutoff_sorted_bounded (mn mx : ℚ) (rel : List ℚ) :
    (prunerCutoff mn mx rel).Sorted (· < ·) ∧
    ∀ j ∈ prunerCutoff mn mx rel, j < rel.length := by
  constructor
  · exact (List.pairwise_lt_range rel.length).filter _
  · intro j hj
    rw [prunerCutoff, List.mem_filter] at hj
    exact List.mem_range.mp hj.1

lemma topkEmit_sorted_bounded (rel : List ℚ) :
    ∀ (rem i : ℕ) (heap : List ℚ),
      (topkEmit rel heap i rem).Sorted (· < ·) ∧
      ∀ j ∈ topkEmit rel heap i rem, i ≤ j ∧ j < i + rem := by
  intro rem
  induction rem with
  | zero =>
    intro i heap
    simp [topkEmit]
  | succ rem ih =>
    intro i heap
    rw [topkEmit]
    split
    · obtain ⟨h1, h2⟩ := ih (i + 1) heap
      refine ⟨h1, fun j hj => ?_⟩
      have := h2 j hj
      omega
    · split
      · split
        · exact ⟨List.sorted_singleton i, fun j hj => by
            rw [List.mem_singleton] at hj
            omega⟩
        · obtain ⟨h1, h2⟩ := ih (i + 1) (heapPop qlt 0 heap)
          refine ⟨List.sorted_cons.mpr ⟨fun b hb => by have := h2 b hb; omega, h1⟩,
            fun j hj => ?_⟩
          rcases List.mem_cons.mp hj with rfl | hj
          · omega
          · have := h2 j hj
            omega
      · obtain ⟨h1, h2⟩ := ih (i + 1) heap
        refine ⟨List.sorted_cons.mpr ⟨fun b hb => by have := h2 b hb; omega, h1⟩,
          fun j hj => ?_⟩
        rcases List.mem_cons.mp hj with rfl | hj
        · omega
        · have := h2 j hj
          omega

lemma prunerTopk_sorted_bounded (k : ℕ) (rel : List ℚ) :
    (prunerTopk k rel).Sorted (· < ·) ∧ ∀ j ∈ prunerTopk k rel, j < rel.length := by
  have he : prunerTopk k rel =
      if rel.length ≤ k then List.range rel.length
      else topkEmit rel ((List.range' k (rel.length - k)).foldl
        (fun h i => if rel.getD i 0 < h.getD 0 0 then h else heapReplace qlt 0 h (rel.getD i 0))
        (heapify qlt 0 (rel.take k))) 0 rel.length := rfl
  rw [he]
  split
  · exact ⟨List.pairwise_lt_range rel.length, fun j hj => List.mem_range.mp hj⟩
  · obtain ⟨h1, h2⟩ := topkEmit_sorted_bounded rel rel.length 0 ((List.range' k
      (rel.length - k)).foldl
      (fun h i => if rel.getD i 0 < h.getD 0 0 then h else heapReplace qlt 0 h (rel.getD i 0))
      (heapify qlt 0 (rel.take k)))
    exact ⟨h1, fun j hj => by have := h2 j hj; omega⟩

lemma heapReplace_snd_inv (x : ℚ × ℕ) {v : List (ℚ × ℕ)}
    (hN : (v.map Prod.snd).Nodup) (hne : ∀ p ∈ v, x.2 ≠ p.2) :
    ((heapReplace rposLt (0, 0) v x).map Prod.snd).Nodup ∧
    ∀ p ∈ heapReplace rposLt (0, 0) v x, p = x ∨ p ∈ v := by
  have hperm := (heapReplace_perm rposLt (0, 0) v x).map Prod.snd
  constructor
  · rw [List.Perm.nodup_iff hperm, List.map_set]
    cases v with
    | nil => simp
    | cons y t =>
      show (x.2 :: t.map Prod.snd).Nodup
      rw [List.nodup_cons]
      refine ⟨?_, (List.nodup_cons.mp hN).2⟩
      intro hx
      rw [List.mem_map] at hx
      obtain ⟨p, hp, hpx⟩ := hx
      exact hne p (List.mem_cons_of_mem y hp) hpx.symm
  · intro p hp
    have hp' := (heapReplace_perm rposLt (0, 0) v x).mem_iff.mp hp
    rcases List.mem_or_eq_of_mem_set hp' with h | h
    · exact Or.inr h
    · exact Or.inl h

lemma prunerTopkOpt_heap_inv (k : ℕ) (rel : List ℚ) (heap0 : List (ℚ × ℕ))
    (h0 : (heap0.map Prod.snd).Nodup ∧
      ∀ p ∈ heap0, rel.length - k ≤ p.2 ∧ p.2 < rel.length) :
    ∀ t : ℕ, t ≤ rel.length - k →
      ((((List.range t).foldl (topkOptStep rel k) heap0).map Prod.snd).Nodup ∧
      ∀ p ∈ (List.range t).foldl (topkOptStep rel k) heap0,
        rel.length - k - t ≤ p.2 ∧ p.2 < rel.length) := by
  intro t
  induction t with
  | zero =>
    intro _
    simpa using h0
  | succ t ih =>
    intro ht
    rw [List.range_succ, List.foldl_append, List.foldl_cons, List.foldl_nil]
    obtain ⟨ihN, ihB⟩ := ih (by omega)
    unfold topkOptStep
    split
    · exact ⟨ihN, fun p hp => by have := ihB p hp; omega⟩
    · obtain ⟨hN, hM⟩ := heapReplace_snd_inv
        (rel.getD (rel.length - k - 1 - t) 0, rel.length - k - 1 - t) ihN (fun p hp => by
        have := ihB p hp
        show rel.length - k - 1 - t ≠ p.2
        omega)
      refine ⟨hN, fun p hp => ?_⟩
      rcases hM p hp with rfl | hp'
      · show rel.length - k - (t + 1) ≤ rel.length - k - 1 - t ∧
          rel.length - k - 1 - t < rel.length
        omega
      · have := ihB p hp'
        omega

lemma prunerTopkOpt_sorted_bounded (k : ℕ) (rel : List ℚ) :
    (prunerTopkOpt k rel).Sorted (· < ·) ∧ ∀ j ∈ prunerTopkOpt k rel, j < rel.length := by
  have he : prunerTopkOpt k rel =
      if rel.length ≤ k then List.range rel.length
      else (((List.range (rel.length - k)).foldl (topkOptStep rel k)
        (heapify rposLt (0, 0) ((List.range k).map
          (fun t => (rel.getD (rel.length - 1 - t) 0, rel.length - 1 - t))))).mergeSort
        (fun a b => decide (a.2 ≤ b.2))).map Prod.snd := rfl
  rw [he]
  split
  · exact ⟨List.pairwise_lt_range rel.length, fun j hj => List.mem_range.mp hj⟩
  · rename_i hnk
    push_neg at hnk
    have hseedN : ((heapify rposLt (0, 0) ((List.range k).map
        (fun t => (rel.getD (rel.length - 1 - t) 0, rel.length - 1 - t)))).map Prod.snd).Nodup ∧
        ∀ p ∈ heapify rposLt (0, 0) ((List.range k).map
          (fun t => (rel.getD (rel.length - 1 - t) 0, rel.length - 1 - t))),
          rel.length - k ≤ p.2 ∧ p.2 < rel.length := by
      have hperm := (heapify_perm rposLt (0, 0) ((List.range k).map
        (fun t => (rel.getD (rel.length - 1 - t) 0, rel.length - 1 - t)))).map Prod.snd
      constructor
      · rw [List.Perm.nodup_iff hperm, List.map_map]
        refine List.Nodup.map_on ?_ (List.nodup_range k)
        intro x hx y hy hxy
        rw [List.mem_range] at hx hy
        simp only [Function.comp] at hxy
        omega
      · intro p hp
        have hmem := (heapify_perm rposLt (0, 0) _).mem_iff.mp hp
        rw [List.mem_map] at hmem
        obtain ⟨t, ht, rfl⟩ := hmem
        rw [List.mem_range] at ht
        constructor <;> simp <;> omega
    obtain ⟨hN, hB⟩ := prunerTopkOpt_heap_inv k rel _ hseedN (rel.length - k) le_rfl
    have hsperm := List.mergeSort_perm ((List.range (rel.length - k)).foldl (topkOptStep rel k)
      (heapify rposLt (0, 0) ((List.range k).map
        (fun t => (rel.getD (rel.length - 1 - t) 0, rel.length - 1 - t)))))
      (fun a b => decide (a.2 ≤ b.2))
    have hsorted : (((List.range (rel.length - k)).foldl (topkOptStep rel k)
        (heapify rposLt (0, 0) ((List.range k).map
          (fun t => (rel.getD (rel.length - 1 - t) 0, rel.length - 1 - t))))).mergeSort
        (fun a b => decide (a.2 ≤ b.2))).Pairwise
        (fun a b : ℚ × ℕ => (decide (a.2 ≤ b.2) : Bool) = true) :=
      List.sorted_mergeSort
        (by
          intro a b c hab hbc
          rw [decide_eq_true_iff] at hab hbc ⊢
          omega)
        (by
          intro a b
          rcases Nat.le_total a.2 b.2 with h | h
          · rw [Bool.or_eq_true, decide_eq_true_iff]
            exact Or.inl h
          · rw [Bool.or_eq_true, decide_eq_true_iff, decide_eq_true_iff]
            exact Or.inr h) _
    have hsortN : ((((List.range (rel.length - k)).foldl (topkOptStep rel k)
        (heapify rposLt (0, 0) ((List.range k).map
          (fun t => (rel.getD (rel.length - 1 - t) 0, rel.length - 1 - t))))).mergeSort
        (fun a b => decide (a.2 ≤ b.2))).map Prod.snd).Nodup := by
      rw [List.Perm.nodup_iff (hsperm.map Prod.snd)]
      exact hN
    constructor
    · have hle : ((((List.range (rel.length - k)).foldl (topkOptStep rel k)
          (heapify rposLt (0, 0) ((List.range k).map
            (fun t => (rel.getD (rel.length - 1 - t) 0, rel.length - 1 - t))))).mergeSort
          (fun a b => decide (a.2 ≤ b.2))).map Prod.snd).Pairwise (· ≤ ·) :=
        hsorted.map Prod.snd (fun a b hab => by
          rw [decide_eq_true_iff] at hab
          exact hab)
      exact (hle.and hsortN).imp (fun hab => lt_of_le_of_ne hab.1 hab.2)
    · intro j hj
      rw [List.mem_map] at hj
      obtain ⟨p, hp, rfl⟩ := hj
      exact (hB p (hsperm.mem_iff.mp hp)).2

lemma epsPhase1_spec (rel : List ℚ) (thr : ℚ) (k : ℕ) :
    ∀ (i : ℕ) (idxs : List ℕ) (hp : List ℚ),
      ∃ t : List ℕ, (epsPhase1 rel thr k i idxs hp).1 = idxs ++ t ∧
        t.Sorted (· > ·) ∧
        (∀ a ∈ t, a < i ∧ (epsPhase1 rel thr k i idxs hp).2.2 ≤ a) ∧
        (epsPhase1 rel thr k i idxs hp).2.2 ≤ i := by
  intro i
  induction i with
  | zero =>
    intro idxs hp
    exact ⟨[], by simp [epsPhase1], List.sorted_nil, by simp, le_rfl⟩
  | succ i ih =>
    intro idxs hp
    rw [epsPhase1]
    split
    · split
      · refine ⟨[i], rfl, List.sorted_singleton i, ?_, by show i ≤ i + 1; omega⟩
        intro a ha
        rw [List.mem_singleton] at ha
        subst ha
        exact ⟨by omega, le_rfl⟩
      · obtain ⟨t, ht1, ht2, ht3, ht4⟩ := ih (idxs ++ [i]) (hp ++ [rel.getD i 0])
        refine ⟨i :: t, by rw [ht1, List.append_assoc]; rfl, ?_, ?_, by omega⟩
        · rw [List.sorted_cons]
          exact ⟨fun b hb => (ht3 b hb).1, ht2⟩
        · intro a ha
          rcases List.mem_cons.mp ha with rfl | ha
          · exact ⟨by omega, by have := ht4; omega⟩
          · obtain ⟨h1, h2⟩ := ht3 a ha
            exact ⟨by omega, h2⟩
    · obtain ⟨t, ht1, ht2, ht3, ht4⟩ := ih idxs hp
      refine ⟨t, ht1, ht2, ?_, by omega⟩
      intro a ha
      obtain ⟨h1, h2⟩ := ht3 a ha
      exact ⟨by omega, h2⟩

lemma epsPhase2_spec (rel bnds : List ℚ) :
    ∀ (i : ℕ) (thr : ℚ) (mid : ℕ) (idxs : List ℕ) (hp : List ℚ),
      ∃ t : List ℕ, (epsPhase2 rel bnds i thr mid idxs hp).1 = idxs ++ t ∧
        t.Sorted (· > ·) ∧ ∀ a ∈ t, a < i := by
  intro i
  induction i with
  | zero =>
    intro thr mid idxs hp
    exact ⟨[], by simp [epsPhase2], List.sorted_nil, by simp⟩
  | succ i ih =>
    intro thr mid idxs hp
    rw [epsPhase2]
    split
    · obtain ⟨t, ht1, ht2, ht3⟩ := ih thr mid idxs hp
      exact ⟨t, ht1, ht2, fun a ha => by have := ht3 a ha; omega⟩
    · simp only []
      split
      · split
        · refine ⟨[i], rfl, List.sorted_singleton i, ?_⟩
          intro a ha
          rw [List.mem_singleton] at ha
          omega
        · obtain ⟨t, ht1, ht2, ht3⟩ := ih _ _ (idxs ++ [i]) _
          refine ⟨i :: t, by rw [ht1, List.append_assoc]; rfl, ?_, ?_⟩
          · rw [List.sorted_cons]
            exact ⟨fun b hb => ht3 b hb, ht2⟩
          · intro a ha
            rcases List.mem_cons.mp ha with rfl | ha
            · omega
            · have := ht3 a ha
              omega
      · obtain ⟨t, ht1, ht2, ht3⟩ := ih thr mid (idxs ++ [i]) _
        refine ⟨i :: t, by rw [ht1, List.append_assoc]; rfl, ?_, ?_⟩
        · rw [List.sorted_cons]
          exact ⟨fun b hb => ht3 b hb, ht2⟩
        · intro a ha
          rcases List.mem_cons.mp ha with rfl | ha
          · omega
          · have := ht3 a ha
            omega

lemma epsPhases_sorted_bounded (rel bnds : List ℚ) (thr thr2 : ℚ) (k mid : ℕ)
    (hp : List ℚ) :
    ((epsPhase2 rel bnds (epsPhase1 rel thr k rel.length [] []).2.2 thr2 mid
      (epsPhase1 rel thr k rel.length [] []).1 hp).1.reverse).Sorted (· < ·) ∧
    ∀ j ∈ (epsPhase2 rel bnds (epsPhase1 rel thr k rel.length [] []).2.2 thr2 mid
      (epsPhase1 rel thr k rel.length [] []).1 hp).1.reverse, j < rel.length := by
  obtain ⟨t1, h11, h12, h13, h14⟩ := epsPhase1_spec rel thr k rel.length [] []
  obtain ⟨t2, h21, h22, h23⟩ := epsPhase2_spec rel bnds
    (epsPhase1 rel thr k rel.length [] []).2.2 thr2 mid
    (epsPhase1 rel thr k rel.length [] []).1 hp
  constructor
  · rw [List.Sorted, List.pairwise_reverse, h21, h11]
    simp only [List.nil_append]
    rw [List.pairwise_append]
    refine ⟨h12, h22, ?_⟩
    intro a ha b hb
    have hb' := h23 b hb
    have ha' := (h13 a ha).2
    show b < a
    omega
  · intro j hj
    rw [List.mem_reverse, h21, h11] at hj
    simp only [List.nil_append] at hj
    rw [List.mem_append] at hj
    rcases hj with h | h
    · exact (h13 j h).1
    · have := h23 j h
      omega

lemma prunerEps_sorted_bounded (sf : ScoreFn) (bnds : List ℚ) (k : ℕ) (mn mx eps : ℚ)
    (rel : List ℚ) :
    (prunerEps sf bnds k mn mx eps rel).Sorted (· < ·) ∧
    ∀ j ∈ prunerEps sf bnds k mn mx eps rel, j < rel.length :=
  epsPhases_sorted_bounded rel bnds _ _ k _ _

/-- Gain of the DCG metric (`dcg_metric::gain_factor`): `2^r − 1`.  The
relevances of the concrete scenarios proved below are natural numbers, on
which `r.num.toNat` recovers the exponent exactly. -/
def dcgGain (r : ℚ) : ℚ := 2 ^ r.num.toNat - 1

/-- Gain of the DCGlz metric (`dcglz_metric::gain_factor`): the identity. -/
def dcglzGain (r : ℚ) : ℚ := r

/-- Discount buffer of the DCGlz metric: entry `i` holds the metric
discount of rank `i + 1`, namely the exact rational `1 / (i + 1)`, given
here as a literal numerator/denominator pair so that the kernel can
evaluate comparisons on it. -/
def dcglzDiscount (i : ℕ) : ℚ := ⟨1, i + 1, by omega, Nat.coprime_one_left _⟩

lemma dcglzDiscount_eq (i : ℕ) : dcglzDiscount i = 1 / (i + 1 : ℚ) := by
  rw [dcglzDiscount, Rat.mk'_eq_divInt, Rat.divInt_eq_div]
  push_cast
  ring_nf

/-- `dcglz_metric::discount_factor_sum(l, r)`: the sum of the 1-based
discounts `1/i` for `l ≤ i ≤ r` (the difference of prefix sums computed
by the source). -/
def dcglzMetricSum (l r : ℕ) : ℚ :=
  ((List.range' l (r + 1 - l)).map (fun i => (1 : ℚ) / i)).sum

/-- The DCGlz metric as the score-function interface handed to a pruner:
identity gain, identity inverse gain, 1-based discount `1/p` (position
`0` yields `0`, exactly as `discounts[0] = 0` in the source), and the
discount-range sum. -/
def dcglzMetric : ScoreFn :=
  ⟨dcglzGain, fun g => g, fun p => (1 : ℚ) / p, dcglzMetricSum⟩

/-- The effective minimum threshold computed by `PrunerEpsPruning`:
`gain_factor_inverse(min_gain)` run through the 16-step numerical
workaround loop, with
`min_gain = max(gain(min), ε·gain(max)·d(1)/((1-ε)·Σ_{i=2}^{k} d(i))) · (1 - 10⁻¹⁶)`. -/
def epsThr (sf : ScoreFn) (k : ℕ) (mn mx eps : ℚ) : ℚ :=
  epsThreshAux sf
    (max (sf.gainF mn) (eps * sf.gainF mx * sf.disc 1 / ((1 - eps) * sf.discSum 2 k)) *
      (1 - 1 / 10 ^ 16)) 16
    (sf.gainInv
      (max (sf.gainF mn) (eps * sf.gainF mx * sf.disc 1 / ((1 - eps) * sf.discSum 2 k)) *
        (1 - 1 / 10 ^ 16)))

/-- If the first scan of the epsilon pruner collects nothing (and hence
stops at position `0` with an empty heap), the pruner returns the empty
index list: the second scan never runs. -/
lemma prunerEps_empty_of_phase1 (sf : ScoreFn) (bnds : List ℚ) (k : ℕ) (mn mx eps : ℚ)
    (rel : List ℚ)
    (h : epsPhase1 rel (epsThr sf k mn mx eps) k rel.length [] [] = ([], [], 0)) :
    prunerEps sf bnds k mn mx eps rel = [] := by
  have h2 : (epsPhase1 rel (epsThr sf k mn mx eps) k rel.length [] []).2.2 = 0 := by rw [h]
  have h1 : (epsPhase1 rel (epsThr sf k mn mx eps) k rel.length [] []).1 = [] := by rw [h]
  calc prunerEps sf bnds k mn mx eps rel
      = (epsPhase2 rel bnds (epsPhase1 rel (epsThr sf k mn mx eps) k rel.length [] []).2.2
          (bnds.getD (epsFindInterval bnds
            ((heapify qlt 0
              (epsPhase1 rel (epsThr sf k mn mx eps) k rel.length [] []).2.1).getD 0 0)
            (bnds.length + 1) 0) 0)
          (epsFindInterval bnds
            ((heapify qlt 0
              (epsPhase1 rel (epsThr sf k mn mx eps) k rel.length [] []).2.1).getD 0 0)
            (bnds.length + 1) 0)
          (epsPhase1 rel (epsThr sf k mn mx eps) k rel.length [] []).1
          (heapify qlt 0
            (epsPhase1 rel (epsThr sf k mn mx eps) k rel.length [] []).2.1)).1.reverse := rfl
    _ = [] := by
        rw [h2, h1]
        rfl

/-! ### Claim theorems -/

/-- **C1**.  For every relevance list `rel` of length `n ≥ 1` and every
`k ≥ 1`, under the metric properties shared by DCG and DCGlz (nonnegative
gains on the list values, nonnegative and nonincreasing discounts on the
first `min k n` ranks), the filter returns a strictly increasing sequence
of indices `S` with `|S| ≤ min(k, n)` together with a score equal to
`Σ_i gain(rel[S i]) · discount(i+1)`, and this score is the maximum of
that sum over all strictly increasing index sequences of length at most
`min(k, n)`. -/
theorem C1_exact_filter_optimal (gainF : ℚ → ℚ) (d : ℕ → ℚ) (k : ℕ) (rel : List ℚ)
    (hn : rel ≠ []) (hk : 1 ≤ k)
    (hg : ∀ x ∈ rel, 0 ≤ gainF x)
    (hd0 : ∀ i, i < min k rel.length → 0 ≤ d i)
    (hdm : ∀ j, j < min k rel.length → ∀ i, i ≤ j → d j ≤ d i) :
    (filterSpirin gainF d k rel).2.Sorted (· < ·) ∧
    (filterSpirin gainF d k rel).2.length ≤ min k rel.length ∧
    (∀ i ∈ (filterSpirin gainF d k rel).2, i < rel.length) ∧
    (filterSpirin gainF d k rel).1 =
      solScore (fun i => gainF (rel.getD i 0)) d (filterSpirin gainF d k rel).2 ∧
    ∀ T : List ℕ, T.Sorted (· < ·) → (∀ i ∈ T, i < rel.length) →
      T.length ≤ min k rel.length →
      solScore (fun i => gainF (rel.getD i 0)) d T ≤ (filterSpirin gainF d k rel).1 :=
  filterSpirin_correct gainF d k rel hn hk hg hd0 hdm

/-- Witness for C1: the spec scenario S3, `rel = [1,2,3,4,5]`, `k = 3`,
DCGlz metric. -/
theorem C1_exact_filter_optimal_witness :
    (filterSpirin dcglzGain dcglzDiscount 3 [1, 2, 3, 4, 5]).2.Sorted (· < ·) ∧
    (filterSpirin dcglzGain dcglzDiscount 3 [1, 2, 3, 4, 5]).2.length ≤
      min 3 ([1, 2, 3, 4, 5] : List ℚ).length ∧
    (∀ i ∈ (filterSpirin dcglzGain dcglzDiscount 3 [1, 2, 3, 4, 5]).2,
      i < ([1, 2, 3, 4, 5] : List ℚ).length) ∧
    (filterSpirin dcglzGain dcglzDiscount 3 [1, 2, 3, 4, 5]).1 =
      solScore (fun i => dcglzGain (([1, 2, 3, 4, 5] : List ℚ).getD i 0)) dcglzDiscount
        (filterSpirin dcglzGain dcglzDiscount 3 [1, 2, 3, 4, 5]).2 ∧
    ∀ T : List ℕ, T.Sorted (· < ·) →
      (∀ i ∈ T, i < ([1, 2, 3, 4, 5] : List ℚ).length) →
      T.length ≤ min 3 ([1, 2, 3, 4, 5] : List ℚ).length →
      solScore (fun i => dcglzGain (([1, 2, 3, 4, 5] : List ℚ).getD i 0)) dcglzDiscount T ≤
        (filterSpirin dcglzGain dcglzDiscount 3 [1, 2, 3, 4, 5]).1 :=
  C1_exact_filter_optimal dcglzGain dcglzDiscount 3 [1, 2, 3, 4, 5]
    (by decide) (by decide) (by decide) (by decide) (by decide)

/-- **C5**.  Every solution returned by the filter has a strictly
increasing index sequence of length at most `k`, for every input list,
every `k`, and any gain/discount functions whatsoever. -/
theorem C5_indices_increasing_len_le_k (gainF : ℚ → ℚ) (d : ℕ → ℚ) (k : ℕ) (rel : List ℚ) :
    (filterSpirin gainF d k rel).2.Sorted (· < ·) ∧
      (filterSpirin gainF d k rel).2.length ≤ k := by
  by_cases hc : rel.length = 0 ∨ k = 0
  · unfold filterSpirin
    rw [if_pos hc]
    simp
  · push_neg at hc
    have hkk0 : 0 < min k rel.length := by
      have h1 : 0 < rel.length := Nat.pos_of_ne_zero hc.1
      have h2 : 0 < k := Nat.pos_of_ne_zero hc.2
      omega
    rw [filterSpirin_eq gainF d k rel hc.1 hc.2]
    obtain ⟨h1, h2, -⟩ := tbOut_basic
      (fun i => (spirinFlat (fun i => gainF (rel.getD i 0)) d
        (min k rel.length) rel.length).getD i 0)
      (min k rel.length) hkk0 (rel.length - 1)
      (bestColumn (fun i => (spirinFlat (fun i => gainF (rel.getD i 0)) d
        (min k rel.length) rel.length).getD i 0)
        (rowShift (min k rel.length) (rel.length - 1)) (min k rel.length)).2 []
      (by simp) (by simp)
    have hb1 := (bestColumn_spec
      (fun i => (spirinFlat (fun i => gainF (rel.getD i 0)) d
        (min k rel.length) rel.length).getD i 0)
      (rowShift (min k rel.length) (rel.length - 1)) (min k rel.length)).1
    rw [max_eq_left (by omega)] at hb1
    refine ⟨h1, le_trans h2 (by simp only [List.length_nil]; omega)⟩

/-- **C6**.  When several columns of the last dynamic-programming row
achieve the maximal score, the argmax loop keeps the smallest column:
every earlier column is strictly below the selected one.  In particular,
on `rel = [3,0,0,3]` with `k = 1` under the DCG metric (whose rank-1
discount is `1`; with `k = 1` no other discount is read) the filter
returns indices `[0]` with score `7`. -/
theorem C6_tie_break_smallest_column :
    (∀ (Mf : ℕ → ℚ) (cs k : ℕ), ∀ c < (bestColumn Mf cs k).2,
        Mf (cs + c) < Mf (cs + (bestColumn Mf cs k).2)) ∧
    ∀ d : ℕ → ℚ, d 0 = 1 →
      filterSpirin dcgGain d 1 [3, 0, 0, 3] = (7, [0]) := by
  constructor
  · intro Mf cs k c hc
    obtain ⟨-, -, hb3, -, hb5⟩ := bestColumn_spec Mf cs k
    rcases hb3 with h | ⟨-, h2⟩
    · rw [← h]
      exact hb5 c hc
    · rw [h2] at hc
      omega
  · intro d hd
    rw [filterSpirin_congr_d dcgGain d (fun _ => 1) 1 [3, 0, 0, 3] (by
      intro x hx
      interval_cases x
      exact hd)]
    rw [filterSpirin_eq _ _ _ _ (by simp) (by omega)]
    have hmin : min 1 ([3, 0, 0, 3] : List ℚ).length = 1 := rfl
    have hlen4 : ([3, 0, 0, 3] : List ℚ).length = 4 := rfl
    rw [hmin, hlen4]
    set gg : ℕ → ℚ := fun i => dcgGain (([3, 0, 0, 3] : List ℚ).getD i 0) with hgg
    have hg0 : gg 0 = 7 := by
      show dcgGain (([3, 0, 0, 3] : List ℚ).getD 0 0) = 7
      rw [show ([3, 0, 0, 3] : List ℚ).getD 0 0 = 3 from rfl, dcgGain,
        show ((3 : ℚ).num.toNat) = 3 from rfl]
      norm_num
    have hg1 : gg 1 = 0 := by
      show dcgGain (([3, 0, 0, 3] : List ℚ).getD 1 0) = 0
      rw [show ([3, 0, 0, 3] : List ℚ).getD 1 0 = 0 from rfl, dcgGain,
        show ((0 : ℚ).num.toNat) = 0 from rfl]
      norm_num
    have hg2 : gg 2 = 0 := by
      show dcgGain (([3, 0, 0, 3] : List ℚ).getD 2 0) = 0
      rw [show ([3, 0, 0, 3] : List ℚ).getD 2 0 = 0 from rfl, dcgGain,
        show ((0 : ℚ).num.toNat) = 0 from rfl]
      norm_num
    have hg3 : gg 3 = 7 := by
      show dcgGain (([3, 0, 0, 3] : List ℚ).getD 3 0) = 7
      rw [show ([3, 0, 0, 3] : List ℚ).getD 3 0 = 3 from rfl, dcgGain,
        show ((3 : ℚ).num.toNat) = 3 from rfl]
      norm_num
    have hM0 : spirinM gg (fun _ => 1) 0 0 = 7 := by
      show gg 0 * 1 = 7
      rw [hg0]
      norm_num
    have hM1 : spirinM gg (fun _ => 1) 1 0 = 7 := by
      rw [spirinM_col0_max, hM0, hg1]
      norm_num
    have hM2 : spirinM gg (fun _ => 1) 2 0 = 7 := by
      rw [spirinM_col0_max, hM1, hg2]
      norm_num
    have hM3 : spirinM gg (fun _ => 1) 3 0 = 7 := by
      rw [spirinM_col0_max, hM2, hg3]
      norm_num
    have hflat : spirinFlat gg (fun _ => 1) 1 4 = [7, 7, 7, 7] := by
      unfold spirinFlat
      rw [show List.range 4 = [0, 1, 2, 3] from rfl]
      simp only [List.flatMap_cons, List.flatMap_nil,
        show rowEntries 1 0 = 1 from rfl, show rowEntries 1 1 = 1 from rfl,
        show rowEntries 1 2 = 1 from rfl, show rowEntries 1 3 = 1 from rfl,
        show List.range 1 = [0] from rfl, List.map_cons, List.map_nil]
      rw [hM0, hM1, hM2, hM3]
      rfl
    rw [hflat]
    set Mf7 : ℕ → ℚ := fun i => ([7, 7, 7, 7] : List ℚ).getD i 0 with hMf7
    have hshift : rowShift 1 (4 - 1) = 3 := rfl
    rw [hshift]
    have hMfval : ∀ i, i < 4 → Mf7 i = 7 := by
      intro i hi
      interval_cases i <;> rfl
    have hbest : bestColumn Mf7 3 1 = (7, 0) := by
      unfold bestColumn
      rw [show List.range 1 = [0] from rfl]
      simp only [List.foldl_cons, List.foldl_nil]
      rw [if_pos]
      · rw [show (3 + 0 : ℕ) = 3 from rfl, hMfval 3 (by omega)]
      · rw [show (3 + 0 : ℕ) = 3 from rfl, hMfval 3 (by omega)]
        norm_num
    rw [hbest]
    have hcond : ∀ a b : ℕ, a < 4 → b < 4 → ¬(Mf7 a > Mf7 b) := by
      intro a b ha hb
      rw [hMfval a ha, hMfval b hb]
      norm_num
    have step3 : tbOut Mf7 1 3 3 0 [] = tbOut Mf7 1 2 2 0 [] :=
      tbOut_succ_skip Mf7 1 2 3 0 [] (hcond 3 2 (by omega) (by omega))
    have step2 : tbOut Mf7 1 2 2 0 [] = tbOut Mf7 1 1 1 0 [] :=
      tbOut_succ_skip Mf7 1 1 2 0 [] (hcond 2 1 (by omega) (by omega))
    have step1 : tbOut Mf7 1 1 1 0 [] = tbOut Mf7 1 0 0 0 [] :=
      tbOut_succ_skip Mf7 1 0 1 0 [] (hcond 1 0 (by omega) (by omega))
    have step0 : tbOut Mf7 1 0 0 0 [] = [0] := by
      rw [tbOut_zero, if_pos rfl]
    have hfin : tbOut Mf7 1 (4 - 1) 3 ((7 : ℚ), (0 : ℕ)).2 [] = [0] :=
      step3.trans (step2.trans (step1.trans step0))
    rw [hfin]

/-- Witness for C6: the concrete half at `d = fun _ => 1`, whose rank-0
entry is the DCG discount of rank 1. -/
theorem C6_tie_break_smallest_column_witness :
    filterSpirin dcgGain (fun _ => 1) 1 [3, 0, 0, 3] = (7, [0]) :=
  C6_tie_break_smallest_column.2 (fun _ => 1) rfl

/-- **C10**.  For every relevance list with `n ≥ 1` and every `k ≥ 1`,
the filter's returned index sequence is non-empty; in particular on a
list whose gains are all zero it returns exactly the single index `0`
with score `0`. -/
theorem C10_nonempty_allzero (gainF : ℚ → ℚ) (d : ℕ → ℚ) (k : ℕ) (rel : List ℚ)
    (hn : rel ≠ []) (hk : 1 ≤ k) :
    (filterSpirin gainF d k rel).2 ≠ [] ∧
      ((∀ x ∈ rel, gainF x = 0) → filterSpirin gainF d k rel = (0, [0])) := by
  have hn0 : 0 < rel.length := List.length_pos.mpr hn
  have hkk0 : 0 < min k rel.length := by omega
  constructor
  · rw [filterSpirin_eq gainF d k rel (by omega) (by omega)]
    exact tbOut_ne_nil _ _ hkk0 _ _ _
  · intro h0
    have hflat : ∀ x ∈ spirinFlat (fun i => gainF (rel.getD i 0)) d
        (min k rel.length) rel.length, x = 0 := by
      intro x hx
      unfold spirinFlat at hx
      rw [List.mem_flatMap] at hx
      obtain ⟨r, hr, hx⟩ := hx
      rw [List.mem_map] at hx
      obtain ⟨c, hc, rfl⟩ := hx
      apply spirinM_zero_of_gain_zero
      intro i hi
      have hrn : r < rel.length := List.mem_range.mp hr
      show gainF (rel.getD i 0) = 0
      rw [List.getD_eq_getElem rel 0 (by omega)]
      exact h0 _ (List.getElem_mem (by omega))
    have hMf0 : ∀ i, (spirinFlat (fun i => gainF (rel.getD i 0)) d
        (min k rel.length) rel.length).getD i 0 = 0 := by
      intro i
      rcases Nat.lt_or_ge i (spirinFlat (fun i => gainF (rel.getD i 0)) d
          (min k rel.length) rel.length).length with h | h
      · rw [List.getD_eq_getElem _ 0 h]
        exact hflat _ (List.getElem_mem h)
      · exact List.getD_eq_default _ _ h
    rw [filterSpirin_eq gainF d k rel (by omega) (by omega),
      bestColumn_const_zero _ _ hMf0, tbOut_allskip _ _ (by
        intro i j
        rw [hMf0 i, hMf0 j]
        exact lt_irrefl 0)]

/-- Witness for C10: all-zero list `[0,0,0,0]` with `k = 2` under DCGlz:
the filter returns score `0` and indices `[0]`. -/
theorem C10_nonempty_allzero_witness :
    (filterSpirin dcglzGain dcglzDiscount 2 [0, 0, 0, 0]).2 ≠ [] ∧
      ((∀ x ∈ ([0, 0, 0, 0] : List ℚ), dcglzGain x = 0) →
        filterSpirin dcglzGain dcglzDiscount 2 [0, 0, 0, 0] = (0, [0])) :=
  C10_nonempty_allzero dcglzGain dcglzDiscount 2 [0, 0, 0, 0] (by decide) (by decide)

/-! ### Pruner/filter composition (`PrunerFilterCompositionTest::operator()`) -/

/-- Composition of a pruning stage output `pIdx` (the kept indices) with a
filter `F`, as `PrunerFilterCompositionTest::operator()` performs it:
materialise `new_rel_list[i] = rel_list[pruningSolution.indices[i]]`, run
the filter on the materialised list, then remap every output index `i` to
`pruningSolution.indices[i]`. -/
def composePF (F : List ℚ → ℚ × List ℕ) (rel : List ℚ) (pIdx : List ℕ) : ℚ × List ℕ :=
  let fs := F (pIdx.map (fun j => rel.getD j 0))
  (fs.1, fs.2.map (fun i => pIdx.getD i 0))

lemma filterSpirin_sorted_bounded (gainF : ℚ → ℚ) (d : ℕ → ℚ) (k : ℕ) (rel : List ℚ) :
    (filterSpirin gainF d k rel).2.Sorted (· < ·) ∧
    ∀ i ∈ (filterSpirin gainF d k rel).2, i < rel.length := by
  by_cases hc : rel.length = 0 ∨ k = 0
  · unfold filterSpirin
    rw [if_pos hc]
    simp
  · push_neg at hc
    have hkk0 : 0 < min k rel.length := by
      have h1 : 0 < rel.length := Nat.pos_of_ne_zero hc.1
      have h2 : 0 < k := Nat.pos_of_ne_zero hc.2
      omega
    have hn1 : 0 < rel.length := Nat.pos_of_ne_zero hc.1
    rw [filterSpirin_eq gainF d k rel hc.1 hc.2]
    obtain ⟨h1, -, h3⟩ := tbOut_basic (fun i => (spirinFlat (fun i => gainF (rel.getD i 0)) d
        (min k rel.length) rel.length).getD i 0) (min k rel.length) hkk0 (rel.length - 1)
      (bestColumn (fun i => (spirinFlat (fun i => gainF (rel.getD i 0)) d
        (min k rel.length) rel.length).getD i 0)
        (rowShift (min k rel.length) (rel.length - 1)) (min k rel.length)).2 []
      (by simp) (by simp)
    refine ⟨h1, ?_⟩
    intro i hi
    rcases h3 i hi with h | h
    · simp at h
    · omega

lemma sorted_getD_lt {l : List ℕ} (hl : l.Sorted (· < ·)) {a b : ℕ}
    (hab : a < b) (hb : b < l.length) : l.getD a 0 < l.getD b 0 := by
  have ha : a < l.length := by omega
  rw [List.getD_eq_getElem?_getD, List.getD_eq_getElem?_getD,
      List.getElem?_eq_getElem ha, List.getElem?_eq_getElem hb]
  simp only [Option.getD_some]
  exact List.pairwise_iff_get.mp hl ⟨a, ha⟩ ⟨b, hb⟩ hab

lemma map_getD_sorted {pIdx l : List ℕ} (hp : pIdx.Sorted (· < ·))
    (hl : l.Sorted (· < ·)) (hb : ∀ i ∈ l, i < pIdx.length) :
    (l.map (fun i => pIdx.getD i 0)).Sorted (· < ·) := by
  induction l with
  | nil => simp
  | cons a t ih =>
    rw [List.map_cons]
    rw [List.sorted_cons] at hl ⊢
    obtain ⟨ha, ht⟩ := hl
    refine ⟨?_, ih ht (fun i hi => hb i (List.mem_cons_of_mem a hi))⟩
    intro b hb'
    rw [List.mem_map] at hb'
    obtain ⟨i, hi, rfl⟩ := hb'
    exact sorted_getD_lt hp (ha i hi) (hb i (List.mem_cons_of_mem a hi))

lemma filterSpirin_score_nonneg (gainF : ℚ → ℚ) (d : ℕ → ℚ) (k : ℕ) (rel : List ℚ) :
    0 ≤ (filterSpirin gainF d k rel).1 := by
  by_cases hc : rel.length = 0 ∨ k = 0
  · unfold filterSpirin
    rw [if_pos hc]
  · push_neg at hc
    rw [filterSpirin_eq gainF d k rel hc.1 hc.2]
    exact (bestColumn_spec _ _ _).2.1

lemma solScoreAux_map (gainF : ℚ → ℚ) (d : ℕ → ℚ) (rel : List ℚ) (pIdx : List ℕ) :
    ∀ (S : List ℕ) (p : ℕ), (∀ s ∈ S, s < pIdx.length) →
      solScoreAux (fun i => gainF (rel.getD i 0)) d p (S.map (fun s => pIdx.getD s 0)) =
      solScoreAux (fun i => gainF ((pIdx.map (fun j => rel.getD j 0)).getD i 0)) d p S := by
  intro S
  induction S with
  | nil =>
    intro p _
    rfl
  | cons a t ih =>
    intro p hb
    have ha : a < pIdx.length := hb a (List.mem_cons_self a t)
    have h1 : (pIdx.map (fun j => rel.getD j 0)).getD a 0 = rel.getD (pIdx.getD a 0) 0 := by
      rw [List.getD_eq_getElem?_getD, List.getElem?_map, List.getElem?_eq_getElem ha,
          List.getD_eq_getElem?_getD pIdx, List.getElem?_eq_getElem ha]
      simp
    rw [List.map_cons]
    show gainF (rel.getD (pIdx.getD a 0) 0) * d p + _ =
      gainF ((pIdx.map (fun j => rel.getD j 0)).getD a 0) * d p + _
    rw [h1, ih (p + 1) (fun s hs => hb s (List.mem_cons_of_mem a hs))]

/-- Running the exact filter on any materialised sub-list (given by a
strictly increasing, in-bounds index selection) can never score above the
exact filter on the full list: each sub-list solution pulls back to a
feasible solution of the full problem with the same score. -/
lemma filterSpirin_sublist_le (gainF : ℚ → ℚ) (d : ℕ → ℚ) (k : ℕ) (rel : List ℚ)
    (pIdx : List ℕ) (hp : pIdx.Sorted (· < ·)) (hpb : ∀ j ∈ pIdx, j < rel.length)
    (hg : ∀ x ∈ rel, 0 ≤ gainF x)
    (hd0 : ∀ i, i < min k rel.length → 0 ≤ d i)
    (hdm : ∀ j, j < min k rel.length → ∀ i, i ≤ j → d j ≤ d i) :
    (filterSpirin gainF d k (pIdx.map (fun j => rel.getD j 0))).1 ≤
      (filterSpirin gainF d k rel).1 := by
  rcases eq_or_ne k 0 with hk0 | hk0
  · subst hk0
    have hL : (filterSpirin gainF d 0 (pIdx.map fun j => rel.getD j 0)).1 = 0 := by
      unfold filterSpirin
      rw [if_pos (Or.inr rfl)]
    rw [hL]
    exact filterSpirin_score_nonneg gainF d 0 rel
  rcases eq_or_ne pIdx [] with hp0 | hp0
  · subst hp0
    have hL : (filterSpirin gainF d k (([] : List ℕ).map fun j => rel.getD j 0)).1 = 0 := by
      simp [filterSpirin]
    rw [hL]
    exact filterSpirin_score_nonneg gainF d k rel
  have hrel0 : rel ≠ [] := by
    obtain ⟨j, hj⟩ := List.exists_mem_of_ne_nil pIdx hp0
    have hjb := hpb j hj
    intro h
    rw [h] at hjb
    simp at hjb
  set relS := pIdx.map (fun j => rel.getD j 0) with hrelS
  have hmS : relS.length = pIdx.length := by
    rw [hrelS]
    exact List.length_map _ _
  have hrelS0 : relS ≠ [] := by
    intro h
    apply hp0
    have hlen := congrArg List.length h
    rw [hmS] at hlen
    simpa using hlen
  have hmn : pIdx.length ≤ rel.length := sorted_lt_length_le hp hpb
  obtain ⟨hs1, hl1, hb1, hsc1, -⟩ := filterSpirin_correct gainF d k relS hrelS0 (by omega)
    (by
      intro x hx
      rw [hrelS, List.mem_map] at hx
      obtain ⟨j, hj, rfl⟩ := hx
      have hjn := hpb j hj
      rw [List.getD_eq_getElem rel 0 hjn]
      exact hg _ (List.getElem_mem hjn))
    (by
      intro i hi
      rw [hmS] at hi
      exact hd0 i (by omega))
    (by
      intro j hj i hij
      rw [hmS] at hj
      exact hdm j (by omega) i hij)
  obtain ⟨-, -, -, -, hopt⟩ := filterSpirin_correct gainF d k rel hrel0 (by omega) hg hd0 hdm
  rw [hmS] at hl1 hb1
  have hT1 : ((filterSpirin gainF d k relS).2.map (fun s => pIdx.getD s 0)).Sorted (· < ·) :=
    map_getD_sorted hp hs1 hb1
  have hT2 : ∀ i ∈ (filterSpirin gainF d k relS).2.map (fun s => pIdx.getD s 0),
      i < rel.length := by
    intro i hi
    rw [List.mem_map] at hi
    obtain ⟨s, hs, rfl⟩ := hi
    have hsm := hb1 s hs
    rw [List.getD_eq_getElem pIdx 0 hsm]
    exact hpb _ (List.getElem_mem hsm)
  have hT3 : ((filterSpirin gainF d k relS).2.map (fun s => pIdx.getD s 0)).length ≤
      min k rel.length := by
    rw [List.length_map]
    omega
  have hmap := solScoreAux_map gainF d rel pIdx (filterSpirin gainF d k relS).2 0 hb1
  calc (filterSpirin gainF d k relS).1
      = solScore (fun i => gainF (relS.getD i 0)) d (filterSpirin gainF d k relS).2 := hsc1
    _ = solScore (fun i => gainF (rel.getD i 0)) d
        ((filterSpirin gainF d k relS).2.map (fun s => pIdx.getD s 0)) := by
        rw [hrelS] at hmap ⊢
        exact hmap.symm
    _ ≤ (filterSpirin gainF d k rel).1 := hopt _ hT1 hT2 hT3

/-! ### Half-optimality of the top-k pruners -/

/-- `getD` through a map of natural-number indices. -/
lemma getD_map_nat (h : ℕ → ℕ) (A : List ℕ) (p : ℕ) (hp : p < A.length) :
    (A.map h).getD p 0 = h (A.getD p 0) := by
  rw [List.getD_eq_getElem _ _ (by rw [List.length_map]; exact hp),
      List.getElem_map, List.getD_eq_getElem _ _ hp]

/-- `getD` into a materialised sub-list reads the underlying list. -/
lemma getD_map_rel (rel : List ℚ) (pIdx : List ℕ) (a : ℕ) (ha : a < pIdx.length) :
    (pIdx.map (fun j => rel.getD j 0)).getD a 0 = rel.getD (pIdx.getD a 0) 0 := by
  rw [List.getD_eq_getElem _ _ (by rw [List.length_map]; exact ha),
      List.getElem_map, List.getD_eq_getElem pIdx _ ha]

/-- On a strictly sorted list, `indexOf` is strictly monotone over
members. -/
lemma indexOf_mono {P : List ℕ} (hPs : P.Sorted (· < ·)) {a b : ℕ}
    (ha : a ∈ P) (hb : b ∈ P) (hab : a < b) :
    List.indexOf a P < List.indexOf b P := by
  have hia : List.indexOf a P < P.length := List.indexOf_lt_length.mpr ha
  have hib : List.indexOf b P < P.length := List.indexOf_lt_length.mpr hb
  have h1 : P.getD (List.indexOf a P) 0 = a := by
    rw [List.getD_eq_getElem _ _ hia]
    exact List.getElem_indexOf hia
  have h2 : P.getD (List.indexOf b P) 0 = b := by
    rw [List.getD_eq_getElem _ _ hib]
    exact List.getElem_indexOf hib
  by_contra hle
  push_neg at hle
  rcases eq_or_lt_of_le hle with heq | hlt
  · rw [heq, h1] at h2
    omega
  · have h3 := sorted_getD_lt hPs hlt hia
    rw [h1, h2] at h3
    omega

/-- `Subperm` is preserved by mapping. -/
lemma subperm_map (f : ℕ → ℚ) {l1 l2 : List ℕ} (h : l1.Subperm l2) :
    (l1.map f).Subperm (l2.map f) := by
  obtain ⟨u, hperm, hsub⟩ := h
  exact ⟨u.map f, hperm.map f, hsub.map f⟩

/-- Positionwise comparison of solution scores: if at every rank the left
gain is dominated by the right gain and discounts are nonnegative, the
whole score is dominated. -/
lemma solScoreAux_le_pointwise (gA gB d : ℕ → ℚ) (kk : ℕ)
    (hd0 : ∀ i, i < kk → 0 ≤ d i) :
    ∀ (A B : List ℕ) (p : ℕ), A.length = B.length → p + A.length ≤ kk →
      (∀ q, q < A.length → gA (A.getD q 0) ≤ gB (B.getD q 0)) →
      solScoreAux gA d p A ≤ solScoreAux gB d p B := by
  intro A
  induction A with
  | nil =>
    intro B p hlen _ _
    cases B with
    | nil => exact le_rfl
    | cons b Bt => simp at hlen
  | cons a At ih =>
    intro B p hlen hbound hq
    cases B with
    | nil => simp at hlen
    | cons b Bt =>
      rw [List.length_cons, List.length_cons] at hlen
      rw [List.length_cons] at hbound
      show gA a * d p + solScoreAux gA d (p + 1) At ≤
        gB b * d p + solScoreAux gB d (p + 1) Bt
      have h0 := hq 0 (by rw [List.length_cons]; omega)
      have hhead : gA a * d p ≤ gB b * d p :=
        mul_le_mul_of_nonneg_right h0 (hd0 p (by omega))
      have htail := ih Bt (p + 1) (by omega) (by omega)
        (fun q hqlt => hq (q + 1) (by rw [List.length_cons]; omega))
      linarith

/-- Re-ranking a solution to earlier (better-discounted) positions can
only increase its score when gains are nonnegative and discounts are
nonincreasing. -/
lemma solScoreAux_shift (g d : ℕ → ℚ) (kk : ℕ)
    (hdm : ∀ j, j < kk → ∀ i, i ≤ j → d j ≤ d i) :
    ∀ (L : List ℕ) (p₁ p₂ : ℕ), p₁ ≤ p₂ → p₂ + L.length ≤ kk →
      (∀ i ∈ L, 0 ≤ g i) →
      solScoreAux g d p₂ L ≤ solScoreAux g d p₁ L := by
  intro L
  induction L with
  | nil =>
    intro p₁ p₂ _ _ _
    exact le_rfl
  | cons a t ih =>
    intro p₁ p₂ h12 hb hg
    rw [List.length_cons] at hb
    show g a * d p₂ + solScoreAux g d (p₂ + 1) t ≤
      g a * d p₁ + solScoreAux g d (p₁ + 1) t
    have hhead : g a * d p₂ ≤ g a * d p₁ :=
      mul_le_mul_of_nonneg_left (hdm p₂ (by omega) p₁ h12)
        (hg a (List.mem_cons_self a t))
    have htail := ih (p₁ + 1) (p₂ + 1) (by omega) (by omega)
      (fun i hi => hg i (List.mem_cons_of_mem a hi))
    linarith

/-- Splitting a solution by a predicate: the score of the whole is at
most the sum of the scores of the two filtered parts, each re-ranked from
the top. -/
lemma solScoreAux_split (g d : ℕ → ℚ) (kk : ℕ)
    (hdm : ∀ j, j < kk → ∀ i, i ≤ j → d j ≤ d i) :
    ∀ (S : List ℕ) (q : ℕ → Bool) (p : ℕ), p + S.length ≤ kk →
      (∀ i ∈ S, 0 ≤ g i) →
      solScoreAux g d p S ≤
        solScoreAux g d p (S.filter q) +
          solScoreAux g d p (S.filter (fun i => !(q i))) := by
  intro S
  induction S with
  | nil =>
    intro q p _ _
    show (0 : ℚ) ≤ 0 + 0
    norm_num
  | cons a t ih =>
    intro q p hb hg
    rw [List.length_cons] at hb
    have hgt : ∀ i ∈ t, 0 ≤ g i := fun i hi => hg i (List.mem_cons_of_mem a hi)
    by_cases hqa : q a = true
    · rw [List.filter_cons_of_pos hqa, List.filter_cons_of_neg (by simp [hqa])]
      show g a * d p + solScoreAux g d (p + 1) t ≤
        (g a * d p + solScoreAux g d (p + 1) (t.filter q)) +
          solScoreAux g d p (t.filter (fun i => !(q i)))
      have h1 := ih q (p + 1) (by omega) hgt
      have h2 := solScoreAux_shift g d kk hdm (t.filter (fun i => !(q i))) p (p + 1)
        (by omega)
        (by
          have h3 := List.length_filter_le (fun i => !(q i)) t
          omega)
        (fun i hi => hgt i (List.mem_of_mem_filter hi))
      linarith
    · rw [Bool.not_eq_true] at hqa
      rw [List.filter_cons_of_neg (by simp [hqa]),
        List.filter_cons_of_pos (by rw [hqa]; rfl)]
      show g a * d p + solScoreAux g d (p + 1) t ≤
        solScoreAux g d p (t.filter q) +
          (g a * d p + solScoreAux g d (p + 1) (t.filter (fun i => !(q i))))
      have h1 := ih q (p + 1) (by omega) hgt
      have h2 := solScoreAux_shift g d kk hdm (t.filter q) p (p + 1)
        (by omega)
        (by
          have h3 := List.length_filter_le q t
          omega)
        (fun i hi => hgt i (List.mem_of_mem_filter hi))
      linarith

/-- Exchange argument: if the kept index set `P` is sorted, in bounds, of
full length `min k n`, and selects a top-k multiset of relevances, then
the exact filter on the materialised sub-list loses at most half of the
optimal score, for nonnegative monotone gains and nonincreasing
nonnegative discounts. -/
lemma topk_half_opt (gainF : ℚ → ℚ) (d : ℕ → ℚ) (k : ℕ) (rel : List ℚ) (P : List ℕ)
    (hk : 1 ≤ k)
    (hPs : P.Sorted (· < ·)) (hPb : ∀ j ∈ P, j < rel.length)
    (hPlen : P.length = min k rel.length)
    (hPtop : IsTopKM k ↑rel ↑(P.map (fun j => rel.getD j 0)))
    (hg : ∀ x ∈ rel, 0 ≤ gainF x)
    (hgm : ∀ x y : ℚ, x ≤ y → gainF x ≤ gainF y)
    (hd0 : ∀ i, i < min k rel.length → 0 ≤ d i)
    (hdm : ∀ j, j < min k rel.length → ∀ i, i ≤ j → d j ≤ d i) :
    (filterSpirin gainF d k rel).1 ≤
      2 * (filterSpirin gainF d k (P.map (fun j => rel.getD j 0))).1 := by
  rcases eq_or_ne rel [] with hrel0 | hrel0
  · subst hrel0
    have hP0 : P = [] := by
      apply List.length_eq_zero.mp
      rw [hPlen]
      simp
    subst hP0
    have h0 : (filterSpirin gainF d k ([] : List ℚ)).1 = 0 := by
      simp [filterSpirin]
    simp only [List.map_nil]
    rw [h0]
    norm_num
  have hn0 : 0 < rel.length := List.length_pos.mpr hrel0
  set g : ℕ → ℚ := fun i => gainF (rel.getD i 0) with hgdef
  set rel' := P.map (fun j => rel.getD j 0) with hrel'
  have hm : rel'.length = min k rel.length := by
    rw [hrel', List.length_map]
    exact hPlen
  have hm0 : 0 < rel'.length := by omega
  have hrel'0 : rel' ≠ [] := by
    intro h
    rw [h] at hm0
    simp at hm0
  have hminm : min k rel'.length = min k rel.length := by omega
  have hg' : ∀ x ∈ rel', 0 ≤ gainF x := by
    intro x hx
    rw [hrel', List.mem_map] at hx
    obtain ⟨j, hj, rfl⟩ := hx
    have hjb := hPb j hj
    rw [List.getD_eq_getElem rel 0 hjb]
    exact hg _ (List.getElem_mem hjb)
  obtain ⟨hSs, hSl, hSb, hSsc, -⟩ := filterSpirin_correct gainF d k rel hrel0 hk hg hd0 hdm
  set S := (filterSpirin gainF d k rel).2 with hSdef
  obtain ⟨-, -, -, -, hopt⟩ := filterSpirin_correct gainF d k rel' hrel'0 hk hg'
    (by rw [hminm]; exact hd0) (by rw [hminm]; exact hdm)
  have hgnn : ∀ i ∈ S, 0 ≤ g i := by
    intro i hi
    have hib := hSb i hi
    show 0 ≤ gainF (rel.getD i 0)
    rw [List.getD_eq_getElem rel 0 hib]
    exact hg _ (List.getElem_mem hib)
  set q : ℕ → Bool := fun i => decide (i ∈ P) with hqdef
  set A := S.filter q with hA
  set B := S.filter (fun i => !(q i)) with hB
  have hsplit : solScore g d S ≤ solScore g d A + solScore g d B :=
    solScoreAux_split g d (min k rel.length) hdm S q 0 (by omega) hgnn
  have hAle : A.length ≤ S.length := List.length_filter_le q S
  have hBle : B.length ≤ S.length := List.length_filter_le _ S
  have hAP : ∀ a ∈ A, a ∈ P := by
    intro a ha
    rw [hA, hqdef] at ha
    simp only [List.mem_filter, decide_eq_true_eq] at ha
    exact ha.2
  have hAs : A.Sorted (· < ·) := hSs.filter q
  set T := A.map (fun a => List.indexOf a P) with hT
  have hTlen : T.length = A.length := by
    rw [hT, List.length_map]
  have hTs : T.Sorted (· < ·) := by
    rw [hT]
    show List.Pairwise _ _
    rw [List.pairwise_map]
    exact hAs.imp_of_mem (fun ha hb hab => indexOf_mono hPs (hAP _ ha) (hAP _ hb) hab)
  have hTb : ∀ i ∈ T, i < rel'.length := by
    intro i hi
    rw [hT, List.mem_map] at hi
    obtain ⟨a, ha, rfl⟩ := hi
    rw [hrel', List.length_map]
    exact List.indexOf_lt_length.mpr (hAP a ha)
  have hAcase : solScore g d A ≤ (filterSpirin gainF d k rel').1 := by
    have hpoint : solScore g d A ≤
        solScore (fun i => gainF (rel'.getD i 0)) d T := by
      apply solScoreAux_le_pointwise g (fun i => gainF (rel'.getD i 0)) d
        (min k rel.length) hd0 A T 0 (by omega) (by omega)
      intro p hp
      show g (A.getD p 0) ≤ gainF (rel'.getD (T.getD p 0) 0)
      have hamem : A.getD p 0 ∈ A := by
        rw [List.getD_eq_getElem _ _ hp]
        exact List.getElem_mem hp
      have haP := hAP _ hamem
      have hidx : List.indexOf (A.getD p 0) P < P.length := List.indexOf_lt_length.mpr haP
      have hTg : T.getD p 0 = List.indexOf (A.getD p 0) P := by
        rw [hT]
        exact getD_map_nat _ A p hp
      have hPg : P.getD (List.indexOf (A.getD p 0) P) 0 = A.getD p 0 := by
        rw [List.getD_eq_getElem P _ hidx]
        exact List.getElem_indexOf hidx
      rw [hTg, hrel', getD_map_rel rel P _ hidx, hPg]
    refine le_trans hpoint (hopt T hTs hTb ?_)
    rw [hminm]
    omega
  have hBmem : ∀ b ∈ B, b ∈ S ∧ b ∉ P := by
    intro b hb
    rw [hB, hqdef] at hb
    simp only [List.mem_filter, Bool.not_eq_true', decide_eq_false_iff_not] at hb
    exact hb
  have hsel : ∀ b, b < rel.length → b ∉ P →
      (↑((b :: P).map (fun j => rel.getD j 0)) : Multiset ℚ) ≤ ↑rel := by
    intro b hbn hbP
    conv_rhs => rw [← map_getD_range rel]
    refine Multiset.coe_le.mpr (subperm_map _ ?_)
    refine List.subperm_of_subset (List.nodup_cons.mpr ⟨hbP, hPs.imp ne_of_lt⟩) ?_
    intro x hx
    rcases List.mem_cons.mp hx with rfl | hxP
    · exact List.mem_range.mpr hbn
    · exact List.mem_range.mpr (hPb x hxP)
  have hdomval : ∀ b, b ∈ S → b ∉ P → ∀ x ∈ (↑rel' : Multiset ℚ), rel.getD b 0 ≤ x := by
    intro b hbS hbP x hx
    have hbn := hSb b hbS
    have hle := hsel b hbn hbP
    have hcnt := Multiset.count_le_of_le (rel.getD b 0) hle
    rw [show ((b :: P).map (fun j => rel.getD j 0) : List ℚ) =
      rel.getD b 0 :: rel' from rfl, ← Multiset.cons_coe, Multiset.count_cons,
      if_pos rfl] at hcnt
    have hmem : rel.getD b 0 ∈ (↑rel : Multiset ℚ) - ↑rel' := by
      rw [← Multiset.count_pos, Multiset.count_sub]
      omega
    exact hPtop.2.2 x hx _ hmem
  have hBcase : solScore g d B ≤ (filterSpirin gainF d k rel').1 := by
    have hpoint : solScore g d B ≤
        solScore (fun i => gainF (rel'.getD i 0)) d (List.range B.length) := by
      apply solScoreAux_le_pointwise g (fun i => gainF (rel'.getD i 0)) d
        (min k rel.length) hd0 B (List.range B.length) 0
        (by rw [List.length_range]) (by omega)
      intro p hp
      show g (B.getD p 0) ≤ gainF (rel'.getD ((List.range B.length).getD p 0) 0)
      have hrg : (List.range B.length).getD p 0 = p := by
        rw [List.getD_eq_getElem _ _ (by rw [List.length_range]; exact hp),
          List.getElem_range]
      rw [hrg]
      have hbmem : B.getD p 0 ∈ B := by
        rw [List.getD_eq_getElem _ _ hp]
        exact List.getElem_mem hp
      obtain ⟨hbS, hbP⟩ := hBmem _ hbmem
      have hpm : p < rel'.length := by omega
      have hx : rel'.getD p 0 ∈ (↑rel' : Multiset ℚ) := by
        rw [Multiset.mem_coe, List.getD_eq_getElem _ _ hpm]
        exact List.getElem_mem hpm
      exact hgm _ _ (hdomval _ hbS hbP _ hx)
    refine le_trans hpoint (hopt (List.range B.length) (List.pairwise_lt_range _) ?_ ?_)
    · intro i hi
      rw [List.mem_range] at hi
      omega
    · rw [List.length_range, hminm]
      omega
  calc (filterSpirin gainF d k rel).1 = solScore g d S := hSsc
    _ ≤ solScore g d A + solScore g d B := hsplit
    _ ≤ (filterSpirin gainF d k rel').1 + (filterSpirin gainF d k rel').1 :=
        add_le_add hAcase hBcase
    _ = 2 * (filterSpirin gainF d k rel').1 := by ring

/-- Everything the half-optimality argument needs from the straight
top-k pruner, for every `k ≥ 1`. -/
lemma prunerTopk_full_spec (k : ℕ) (rel : List ℚ) (hk : 1 ≤ k) :
    (prunerTopk k rel).length = min k rel.length ∧
    (prunerTopk k rel).Sorted (· < ·) ∧
    (∀ j ∈ prunerTopk k rel, j < rel.length) ∧
    IsTopKM k ↑rel ↑((prunerTopk k rel).map (fun j => rel.getD j 0)) := by
  by_cases hn : rel.length ≤ k
  · have e1 : prunerTopk k rel = List.range rel.length := by
      show (if rel.length ≤ k then List.range rel.length else _) = _
      rw [if_pos hn]
    rw [e1]
    refine ⟨by rw [List.length_range]; omega, List.pairwise_lt_range _,
      fun j hj => List.mem_range.mp hj, ?_⟩
    rw [map_getD_range]
    refine ⟨le_rfl, ?_, ?_⟩
    · show rel.length = min k rel.length
      omega
    · intro x hx y hy
      rw [tsub_self] at hy
      exact absurd hy (Multiset.not_mem_zero y)
  · push_neg at hn
    have h1 := prunerTopk_topkm k rel hk hn
    have hl1 := prunerTopk_len k rel hk hn
    exact ⟨by omega, (prunerTopk_sorted_bounded k rel).1,
      fun j hj => (prunerTopk_sorted_bounded k rel).2 j hj, h1⟩

/-- Everything the half-optimality argument needs from the optimized
top-k pruner, for every `k ≥ 1`. -/
lemma prunerTopkOpt_full_spec (k : ℕ) (rel : List ℚ) (hk : 1 ≤ k) :
    (prunerTopkOpt k rel).length = min k rel.length ∧
    (prunerTopkOpt k rel).Sorted (· < ·) ∧
    (∀ j ∈ prunerTopkOpt k rel, j < rel.length) ∧
    IsTopKM k ↑rel ↑((prunerTopkOpt k rel).map (fun j => rel.getD j 0)) := by
  by_cases hn : rel.length ≤ k
  · have e1 : prunerTopkOpt k rel = List.range rel.length := by
      show (if rel.length ≤ k then List.range rel.length else _) = _
      rw [if_pos hn]
    rw [e1]
    refine ⟨by rw [List.length_range]; omega, List.pairwise_lt_range _,
      fun j hj => List.mem_range.mp hj, ?_⟩
    rw [map_getD_range]
    refine ⟨le_rfl, ?_, ?_⟩
    · show rel.length = min k rel.length
      omega
    · intro x hx y hy
      rw [tsub_self] at hy
      exact absurd hy (Multiset.not_mem_zero y)
  · push_neg at hn
    obtain ⟨h2, hl2⟩ := prunerTopkOpt_topkm k rel hk hn
    exact ⟨by omega, (prunerTopkOpt_sorted_bounded k rel).1,
      fun j hj => (prunerTopkOpt_sorted_bounded k rel).2 j hj, h2⟩

/-- **C9.**  For every `n ≥ 1` and `1 ≤ k ≤ n`, the flat DP array of
`filter_impl` is safe: the allocation `(k−1)k/2 + k(n−k+1)` of line 53
equals the cell count `k(k+1)/2 + k(n−k)` stated by the spec, which in
turn is exactly the total size `rowShift k n` of the row layout; the fill
loops, modelled with an uninitialised-memory state in which out-of-bounds
writes are dropped and reads of out-of-bounds or unwritten cells poison
every value computed from them, leave every laid-out cell `[r, c]` holding
`some (spirinM g d r c)` — so every fill write and read was in bounds and
every cell was written before being read — and end with `curr_row_shift`
at the last row's offset; and the argmax loop and the trace-back (whose
read addresses `tbStep` records in its third component) only read
addresses below the allocation size. -/
theorem C9_dp_array_safety (g d : ℕ → ℚ) (k n : ℕ) (hk : 1 ≤ k) (hkn : k ≤ n) :
    allocSize k n = cellCount k n ∧
    allocSize k n = rowShift k n ∧
    (spirinFill g d k n).2 = rowShift k (n - 1) ∧
    (∀ r, r < n → ∀ c, c < rowEntries k r →
      (spirinFill g d k n).1 (rowShift k r + c) = some (spirinM g d r c)) ∧
    (∀ c, c < k → rowShift k (n - 1) + c < allocSize k n) ∧
    (∀ (Mf : ℕ → ℚ) (bc : ℕ) (acc : List ℕ), bc < k →
      ∀ pos ∈ (tbStep Mf k (n - 1) (rowShift k (n - 1)) bc acc).2.2,
        pos < allocSize k n) := by
  have halloc : allocSize k n = rowShift k n := (rowShift_eq_allocSize hk hkn).symm
  obtain ⟨hS, hP⟩ := spirinFill_correct g d k n hk hkn
  refine ⟨allocSize_eq_cellCount hk hkn, halloc, hS, hP, ?_, ?_⟩
  · intro c hc
    rw [halloc]
    exact rowShift_add_lt_of_lt_k hc (by omega) hkn
  · intro Mf bc acc hbc pos hpos
    rw [halloc]
    exact tbStep_reads_lt Mf k n hkn (n - 1) bc acc (by omega) hbc pos hpos

theorem C9_dp_array_safety_witness :
    ((1 : ℕ) ≤ 2 ∧ (2 : ℕ) ≤ 3) ∧
    (allocSize 2 3 = cellCount 2 3 ∧
     allocSize 2 3 = rowShift 2 3 ∧
     (spirinFill (fun _ => 1) (fun _ => 1) 2 3).2 = rowShift 2 (3 - 1) ∧
     (∀ r, r < 3 → ∀ c, c < rowEntries 2 r →
       (spirinFill (fun _ => 1) (fun _ => 1) 2 3).1 (rowShift 2 r + c)
         = some (spirinM (fun _ => 1) (fun _ => 1) r c)) ∧
     (∀ c, c < 2 → rowShift 2 (3 - 1) + c < allocSize 2 3) ∧
     (∀ (Mf : ℕ → ℚ) (bc : ℕ) (acc : List ℕ), bc < 2 →
       ∀ pos ∈ (tbStep Mf 2 (3 - 1) (rowShift 2 (3 - 1)) bc acc).2.2,
         pos < allocSize 2 3)) :=
  ⟨⟨by decide, by decide⟩,
   C9_dp_array_safety (fun _ => 1) (fun _ => 1) 2 3 (by decide) (by decide)⟩

/-- **C8.**  When the composition runs a pruning stage producing the kept
indices `pIdx` and then the exact filter, the output score is the filter's
score on the materialised sub-list `rel'[j] = rel[pIdx[j]]`, every output
index satisfies `out.indices[i] = pIdx[F.indices[i]]`, and — because the
filter's index list is strictly increasing and bounded by the sub-list's
length — the remapped sequence is strictly increasing whenever `pIdx`
is. -/
theorem C8_composition_remap (gainF : ℚ → ℚ) (d : ℕ → ℚ) (k : ℕ) (rel : List ℚ)
    (pIdx : List ℕ) (hp : pIdx.Sorted (· < ·)) :
    (composePF (filterSpirin gainF d k) rel pIdx).1 =
      (filterSpirin gainF d k (pIdx.map (fun j => rel.getD j 0))).1 ∧
    (∀ i, i < (composePF (filterSpirin gainF d k) rel pIdx).2.length →
      (composePF (filterSpirin gainF d k) rel pIdx).2.getD i 0 =
        pIdx.getD ((filterSpirin gainF d k (pIdx.map (fun j => rel.getD j 0))).2.getD i 0) 0) ∧
    (composePF (filterSpirin gainF d k) rel pIdx).2.Sorted (· < ·) := by
  obtain ⟨hfs, hfb⟩ := filterSpirin_sorted_bounded gainF d k (pIdx.map (fun j => rel.getD j 0))
  refine ⟨rfl, ?_, ?_⟩
  · intro i hi
    show ((filterSpirin gainF d k (pIdx.map (fun j => rel.getD j 0))).2.map
        (fun i => pIdx.getD i 0)).getD i 0 = _
    have hi' : i < (filterSpirin gainF d k (pIdx.map (fun j => rel.getD j 0))).2.length := by
      have hlen : (composePF (filterSpirin gainF d k) rel pIdx).2.length =
          (filterSpirin gainF d k (pIdx.map (fun j => rel.getD j 0))).2.length :=
        List.length_map _ _
      omega
    rw [List.getD_eq_getElem?_getD, List.getElem?_map, List.getElem?_eq_getElem hi']
    rw [List.getD_eq_getElem?_getD
      ((filterSpirin gainF d k (pIdx.map (fun j => rel.getD j 0))).2),
      List.getElem?_eq_getElem hi']
    simp
  · refine map_getD_sorted hp hfs ?_
    intro i hi
    have h := hfb i hi
    rwa [List.length_map] at h

theorem C8_composition_remap_witness :
    ([0, 2, 3] : List ℕ).Sorted (· < ·) ∧
    ((composePF (filterSpirin dcglzGain dcglzDiscount 2) [1, 2, 3, 4] [0, 2, 3]).1 =
      (filterSpirin dcglzGain dcglzDiscount 2
        (([0, 2, 3] : List ℕ).map (fun j => ([1, 2, 3, 4] : List ℚ).getD j 0))).1 ∧
    (∀ i, i < (composePF (filterSpirin dcglzGain dcglzDiscount 2) [1, 2, 3, 4] [0, 2, 3]).2.length →
      (composePF (filterSpirin dcglzGain dcglzDiscount 2) [1, 2, 3, 4] [0, 2, 3]).2.getD i 0 =
        ([0, 2, 3] : List ℕ).getD ((filterSpirin dcglzGain dcglzDiscount 2
          (([0, 2, 3] : List ℕ).map (fun j => ([1, 2, 3, 4] : List ℚ).getD j 0))).2.getD i 0) 0) ∧
    (composePF (filterSpirin dcglzGain dcglzDiscount 2) [1, 2, 3, 4] [0, 2, 3]).2.Sorted (· < ·)) :=
  ⟨by decide,
   C8_composition_remap dcglzGain dcglzDiscount 2 [1, 2, 3, 4] [0, 2, 3] (by decide)⟩

/-- **C4.**  Pruning then filtering is one-sidedly below the true
optimum: for each of the four pruners (Cutoff, straight TopK, optimized
TopK, EpsPruning — the latter for any score-function interface, boundary
list and parameters), composing it with the exact filter never scores
above the exact filter on the full list.  In the exact rational
arithmetic of this development the `10⁻¹²` tolerance of the spec is not
needed.  The hypotheses are nonnegative gains and a nonincreasing
nonnegative discount prefix, as for the DCG and DCGlz metrics. -/
theorem C4_pruned_never_above (gainF : ℚ → ℚ) (d : ℕ → ℚ) (k : ℕ) (rel : List ℚ)
    (hg : ∀ x ∈ rel, 0 ≤ gainF x)
    (hd0 : ∀ i, i < min k rel.length → 0 ≤ d i)
    (hdm : ∀ j, j < min k rel.length → ∀ i, i ≤ j → d j ≤ d i) :
    (∀ mn mx : ℚ,
      (composePF (filterSpirin gainF d k) rel (prunerCutoff mn mx rel)).1 ≤
        (filterSpirin gainF d k rel).1) ∧
    ((composePF (filterSpirin gainF d k) rel (prunerTopk k rel)).1 ≤
        (filterSpirin gainF d k rel).1) ∧
    ((composePF (filterSpirin gainF d k) rel (prunerTopkOpt k rel)).1 ≤
        (filterSpirin gainF d k rel).1) ∧
    (∀ (sf : ScoreFn) (bnds : List ℚ) (mn mx eps : ℚ),
      (composePF (filterSpirin gainF d k) rel (prunerEps sf bnds k mn mx eps rel)).1 ≤
        (filterSpirin gainF d k rel).1) := by
  refine ⟨?_, ?_, ?_, ?_⟩
  · intro mn mx
    obtain ⟨h1, h2⟩ := prunerCutoff_sorted_bounded mn mx rel
    exact filterSpirin_sublist_le gainF d k rel _ h1 h2 hg hd0 hdm
  · obtain ⟨h1, h2⟩ := prunerTopk_sorted_bounded k rel
    exact filterSpirin_sublist_le gainF d k rel _ h1 h2 hg hd0 hdm
  · obtain ⟨h1, h2⟩ := prunerTopkOpt_sorted_bounded k rel
    exact filterSpirin_sublist_le gainF d k rel _ h1 h2 hg hd0 hdm
  · intro sf bnds mn mx eps
    obtain ⟨h1, h2⟩ := prunerEps_sorted_bounded sf bnds k mn mx eps rel
    exact filterSpirin_sublist_le gainF d k rel _ h1 h2 hg hd0 hdm

theorem C4_pruned_never_above_witness :
    ((∀ x ∈ ([1, 3, 2] : List ℚ), 0 ≤ dcglzGain x) ∧
     (∀ i, i < min 2 ([1, 3, 2] : List ℚ).length → 0 ≤ dcglzDiscount i) ∧
     (∀ j, j < min 2 ([1, 3, 2] : List ℚ).length → ∀ i, i ≤ j →
        dcglzDiscount j ≤ dcglzDiscount i)) ∧
    ((∀ mn mx : ℚ,
      (composePF (filterSpirin dcglzGain dcglzDiscount 2) [1, 3, 2]
        (prunerCutoff mn mx [1, 3, 2])).1 ≤
        (filterSpirin dcglzGain dcglzDiscount 2 [1, 3, 2]).1) ∧
    ((composePF (filterSpirin dcglzGain dcglzDiscount 2) [1, 3, 2]
        (prunerTopk 2 [1, 3, 2])).1 ≤
        (filterSpirin dcglzGain dcglzDiscount 2 [1, 3, 2]).1) ∧
    ((composePF (filterSpirin dcglzGain dcglzDiscount 2) [1, 3, 2]
        (prunerTopkOpt 2 [1, 3, 2])).1 ≤
        (filterSpirin dcglzGain dcglzDiscount 2 [1, 3, 2]).1) ∧
    (∀ (sf : ScoreFn) (bnds : List ℚ) (mn mx eps : ℚ),
      (composePF (filterSpirin dcglzGain dcglzDiscount 2) [1, 3, 2]
        (prunerEps sf bnds 2 mn mx eps [1, 3, 2])).1 ≤
        (filterSpirin dcglzGain dcglzDiscount 2 [1, 3, 2]).1)) :=
  ⟨⟨by decide, by decide, by decide⟩,
   C4_pruned_never_above dcglzGain dcglzDiscount 2 [1, 3, 2]
     (by decide) (by decide) (by decide)⟩

/-- **C3.**  For every relevance list and every `k ≥ 1` (the assessment
driver requires `k > 0`), running the exact filter on the sub-list kept
by either top-k pruner yields at least half of the exact filter's score
on the full list, for every metric with nonnegative monotone gains and
nonnegative nonincreasing discounts (DCG and DCGlz are of this shape).
The arithmetic is exact, so the statement holds without the `10⁻¹²`
tolerance the spec grants. -/
theorem C3_topk_half_optimal (gainF : ℚ → ℚ) (d : ℕ → ℚ) (k : ℕ) (rel : List ℚ)
    (hk : 1 ≤ k)
    (hg : ∀ x ∈ rel, 0 ≤ gainF x)
    (hgm : ∀ x y : ℚ, x ≤ y → gainF x ≤ gainF y)
    (hd0 : ∀ i, i < min k rel.length → 0 ≤ d i)
    (hdm : ∀ j, j < min k rel.length → ∀ i, i ≤ j → d j ≤ d i) :
    (filterSpirin gainF d k rel).1 ≤
      2 * (composePF (filterSpirin gainF d k) rel (prunerTopk k rel)).1 ∧
    (filterSpirin gainF d k rel).1 ≤
      2 * (composePF (filterSpirin gainF d k) rel (prunerTopkOpt k rel)).1 := by
  constructor
  · obtain ⟨l1, s1, b1, t1⟩ := prunerTopk_full_spec k rel hk
    exact topk_half_opt gainF d k rel (prunerTopk k rel) hk s1 b1 l1 t1 hg hgm hd0 hdm
  · obtain ⟨l2, s2, b2, t2⟩ := prunerTopkOpt_full_spec k rel hk
    exact topk_half_opt gainF d k rel (prunerTopkOpt k rel) hk s2 b2 l2 t2 hg hgm hd0 hdm

theorem C3_topk_half_optimal_witness :
    (1 ≤ 2 ∧ (∀ x ∈ ([(1 : ℚ), 3, 2] : List ℚ), 0 ≤ dcglzGain x) ∧
     (∀ x y : ℚ, x ≤ y → dcglzGain x ≤ dcglzGain y) ∧
     (∀ i, i < min 2 ([(1 : ℚ), 3, 2] : List ℚ).length → 0 ≤ dcglzDiscount i) ∧
     (∀ j, j < min 2 ([(1 : ℚ), 3, 2] : List ℚ).length → ∀ i, i ≤ j →
        dcglzDiscount j ≤ dcglzDiscount i)) ∧
    ((filterSpirin dcglzGain dcglzDiscount 2 [1, 3, 2]).1 ≤
      2 * (composePF (filterSpirin dcglzGain dcglzDiscount 2) [1, 3, 2]
        (prunerTopk 2 [1, 3, 2])).1 ∧
     (filterSpirin dcglzGain dcglzDiscount 2 [1, 3, 2]).1 ≤
      2 * (composePF (filterSpirin dcglzGain dcglzDiscount 2) [1, 3, 2]
        (prunerTopkOpt 2 [1, 3, 2])).1) :=
  ⟨⟨by decide, by decide, fun x y h => h, by decide, by decide⟩,
   C3_topk_half_optimal dcglzGain dcglzDiscount 2 [1, 3, 2] (by decide) (by decide)
     (fun x y h => h) (by decide) (by decide)⟩

/-- **C7.**  For every relevance list and every `k ≥ 1` (the assessment
driver requires `k > 0`), the straightforward top-k pruner and the
optimized positional top-k pruner each return `min k n` strictly
increasing indices, the multiset of relevances selected by each variant
is a top-k multiset of the list (the `k` largest relevances), and the two
selected-relevance multisets are equal, even though the index sets may
differ on ties. -/
theorem C7_topk_variants_agree (k : ℕ) (rel : List ℚ) (hk : 1 ≤ k) :
    (prunerTopk k rel).length = min k rel.length ∧
    (prunerTopkOpt k rel).length = min k rel.length ∧
    (prunerTopk k rel).Sorted (· < ·) ∧
    (prunerTopkOpt k rel).Sorted (· < ·) ∧
    IsTopKM k ↑rel ↑((prunerTopk k rel).map (fun j => rel.getD j 0)) ∧
    IsTopKM k ↑rel ↑((prunerTopkOpt k rel).map (fun j => rel.getD j 0)) ∧
    (↑((prunerTopk k rel).map (fun j => rel.getD j 0)) : Multiset ℚ) =
      ↑((prunerTopkOpt k rel).map (fun j => rel.getD j 0)) := by
  by_cases hn : rel.length ≤ k
  · have e1 : prunerTopk k rel = List.range rel.length := by
      show (if rel.length ≤ k then List.range rel.length else _) = _
      rw [if_pos hn]
    have e2 : prunerTopkOpt k rel = List.range rel.length := by
      show (if rel.length ≤ k then List.range rel.length else _) = _
      rw [if_pos hn]
    have hmap : (List.range rel.length).map (fun j => rel.getD j 0) = rel :=
      map_getD_range rel
    have htop : IsTopKM k ↑rel ↑rel := by
      refine ⟨le_rfl, ?_, ?_⟩
      · show rel.length = min k rel.length
        omega
      · intro x hx y hy
        rw [tsub_self] at hy
        exact absurd hy (Multiset.not_mem_zero y)
    rw [e1, e2, hmap]
    refine ⟨?_, ?_, List.pairwise_lt_range _, List.pairwise_lt_range _, htop, htop, rfl⟩
    · rw [List.length_range]
      omega
    · rw [List.length_range]
      omega
  · push_neg at hn
    have h1 := prunerTopk_topkm k rel hk hn
    have hl1 := prunerTopk_len k rel hk hn
    obtain ⟨h2, hl2⟩ := prunerTopkOpt_topkm k rel hk hn
    exact ⟨by omega, by omega, (prunerTopk_sorted_bounded k rel).1,
      (prunerTopkOpt_sorted_bounded k rel).1, h1, h2, IsTopKM_unique k ↑rel _ _ h1 h2⟩

theorem C7_topk_variants_agree_witness :
    1 ≤ 2 ∧
    ((prunerTopk 2 [(1 : ℚ), 3, 2, 3]).length = min 2 ([(1 : ℚ), 3, 2, 3]).length ∧
    (prunerTopkOpt 2 [(1 : ℚ), 3, 2, 3]).length = min 2 ([(1 : ℚ), 3, 2, 3]).length ∧
    (prunerTopk 2 [(1 : ℚ), 3, 2, 3]).Sorted (· < ·) ∧
    (prunerTopkOpt 2 [(1 : ℚ), 3, 2, 3]).Sorted (· < ·) ∧
    IsTopKM 2 ↑([(1 : ℚ), 3, 2, 3])
      ↑((prunerTopk 2 [(1 : ℚ), 3, 2, 3]).map
        (fun j => ([(1 : ℚ), 3, 2, 3]).getD j 0)) ∧
    IsTopKM 2 ↑([(1 : ℚ), 3, 2, 3])
      ↑((prunerTopkOpt 2 [(1 : ℚ), 3, 2, 3]).map
        (fun j => ([(1 : ℚ), 3, 2, 3]).getD j 0)) ∧
    (↑((prunerTopk 2 [(1 : ℚ), 3, 2, 3]).map
        (fun j => ([(1 : ℚ), 3, 2, 3]).getD j 0)) : Multiset ℚ) =
      ↑((prunerTopkOpt 2 [(1 : ℚ), 3, 2, 3]).map
        (fun j => ([(1 : ℚ), 3, 2, 3]).getD j 0))) :=
  ⟨by decide, C7_topk_variants_agree 2 [1, 3, 2, 3] (by decide)⟩

/-- **C2.**  The `(1-ε)` guarantee of the epsilon pruner FAILS on the
code as written: with the DCGlz metric, `rel = [1, 1]`, `k = 2` and
`ε = 1/2`, the computed
`min_gain = max(gain(min), ε·gain(max)·d(1)/((1-ε)·Σ_{i=2}^{2} d(i)))·(1-10⁻¹⁶)
 = 2·(1-10⁻¹⁶)` exceeds the maximal gain `1`, so the first scan keeps
nothing, the pruner returns the empty list (for every interval-boundary
vector), and the composed score `0` falls strictly below
`(1-ε)·OPT - 10⁻¹² = 3/4 - 10⁻¹²`. -/
theorem C2_eps_guarantee_fails :
    ∀ bnds : List ℚ,
      (composePF (filterSpirin dcglzGain dcglzDiscount 2) [1, 1]
        (prunerEps dcglzMetric bnds 2 1 1 (1 / 2) [1, 1])).1 <
      (1 - 1 / 2) * (filterSpirin dcglzGain dcglzDiscount 2 [1, 1]).1 - 1 / 10 ^ 12 := by
  intro bnds
  have hthr : epsThr dcglzMetric 2 1 1 (1 / 2) = 2 * (1 - 1 / 10 ^ 16) := by
    have hd1 : dcglzMetric.disc 1 = 1 := by
      show (1 : ℚ) / ((1 : ℕ) : ℚ) = 1
      norm_num
    have hds : dcglzMetric.discSum 2 2 = 1 / 2 := by
      show dcglzMetricSum 2 2 = 1 / 2
      unfold dcglzMetricSum
      rw [show (2 + 1 - 2 : ℕ) = 1 from rfl, show List.range' 2 1 = [2] from rfl]
      simp
    have hg1 : dcglzMetric.gainF 1 = 1 := rfl
    have hmg : max (dcglzMetric.gainF 1)
        ((1 / 2 : ℚ) * dcglzMetric.gainF 1 * dcglzMetric.disc 1 /
          ((1 - 1 / 2) * dcglzMetric.discSum 2 2)) * (1 - 1 / 10 ^ 16) =
        2 * (1 - 1 / 10 ^ 16) := by
      rw [hg1, hd1, hds,
        show ((1 : ℚ) / 2 * 1 * 1 / ((1 - 1 / 2) * (1 / 2))) = 2 by norm_num,
        max_eq_right (by norm_num : (1 : ℚ) ≤ 2)]
    unfold epsThr
    rw [hmg]
    have hstep : epsThreshAux dcglzMetric (2 * (1 - 1 / 10 ^ 16)) 16
        (dcglzMetric.gainInv (2 * (1 - 1 / 10 ^ 16))) =
        if dcglzMetric.gainF (dcglzMetric.gainInv (2 * (1 - 1 / 10 ^ 16))) >
            2 * (1 - 1 / 10 ^ 16) then
          epsThreshAux dcglzMetric (2 * (1 - 1 / 10 ^ 16)) 15
            (dcglzMetric.gainInv (2 * (1 - 1 / 10 ^ 16) - (1 / 10) ^ 16))
        else dcglzMetric.gainInv (2 * (1 - 1 / 10 ^ 16)) := rfl
    have hcond : ¬ (dcglzMetric.gainF (dcglzMetric.gainInv (2 * (1 - 1 / 10 ^ 16))) >
        2 * (1 - 1 / 10 ^ 16)) := lt_irrefl _
    rw [hstep, if_neg hcond]
    rfl
  have hno1 : ¬ ((2 * (1 - 1 / 10 ^ 16) : ℚ) ≤ ([1, 1] : List ℚ).getD 1 0) := by
    rw [show ([1, 1] : List ℚ).getD 1 0 = 1 from rfl]
    norm_num
  have hno0 : ¬ ((2 * (1 - 1 / 10 ^ 16) : ℚ) ≤ ([1, 1] : List ℚ).getD 0 0) := by
    rw [show ([1, 1] : List ℚ).getD 0 0 = 1 from rfl]
    norm_num
  have hs1 : epsPhase1 [1, 1] (2 * (1 - 1 / 10 ^ 16) : ℚ) 2 2 [] [] =
      epsPhase1 [1, 1] (2 * (1 - 1 / 10 ^ 16) : ℚ) 2 1 [] [] := by
    show (if (2 * (1 - 1 / 10 ^ 16) : ℚ) ≤ ([1, 1] : List ℚ).getD 1 0 then
        (if (([] : List ℚ) ++ [([1, 1] : List ℚ).getD 1 0]).length = 2 then
          (([] : List ℕ) ++ [1], ([] : List ℚ) ++ [([1, 1] : List ℚ).getD 1 0], 1)
         else epsPhase1 [1, 1] (2 * (1 - 1 / 10 ^ 16) : ℚ) 2 1
           (([] : List ℕ) ++ [1]) (([] : List ℚ) ++ [([1, 1] : List ℚ).getD 1 0]))
      else epsPhase1 [1, 1] (2 * (1 - 1 / 10 ^ 16) : ℚ) 2 1 [] []) =
      epsPhase1 [1, 1] (2 * (1 - 1 / 10 ^ 16) : ℚ) 2 1 [] []
    exact if_neg hno1
  have hs2 : epsPhase1 [1, 1] (2 * (1 - 1 / 10 ^ 16) : ℚ) 2 1 [] [] =
      epsPhase1 [1, 1] (2 * (1 - 1 / 10 ^ 16) : ℚ) 2 0 [] [] := by
    show (if (2 * (1 - 1 / 10 ^ 16) : ℚ) ≤ ([1, 1] : List ℚ).getD 0 0 then
        (if (([] : List ℚ) ++ [([1, 1] : List ℚ).getD 0 0]).length = 2 then
          (([] : List ℕ) ++ [0], ([] : List ℚ) ++ [([1, 1] : List ℚ).getD 0 0], 0)
         else epsPhase1 [1, 1] (2 * (1 - 1 / 10 ^ 16) : ℚ) 2 0
           (([] : List ℕ) ++ [0]) (([] : List ℚ) ++ [([1, 1] : List ℚ).getD 0 0]))
      else epsPhase1 [1, 1] (2 * (1 - 1 / 10 ^ 16) : ℚ) 2 0 [] []) =
      epsPhase1 [1, 1] (2 * (1 - 1 / 10 ^ 16) : ℚ) 2 0 [] []
    exact if_neg hno0
  have hempty : prunerEps dcglzMetric bnds 2 1 1 (1 / 2) [1, 1] = [] := by
    apply prunerEps_empty_of_phase1
    rw [hthr]
    show epsPhase1 [1, 1] (2 * (1 - 1 / 10 ^ 16) : ℚ) 2 2 [] [] = ([], [], 0)
    rw [hs1, hs2]
    rfl
  have hLHS : (composePF (filterSpirin dcglzGain dcglzDiscount 2) [1, 1]
      (prunerEps dcglzMetric bnds 2 1 1 (1 / 2) [1, 1])).1 = 0 := by
    show (filterSpirin dcglzGain dcglzDiscount 2
      ((prunerEps dcglzMetric bnds 2 1 1 (1 / 2) [1, 1]).map
        (fun j => ([1, 1] : List ℚ).getD j 0))).1 = 0
    rw [hempty]
    rfl
  obtain ⟨-, -, -, -, hopt⟩ := filterSpirin_correct dcglzGain dcglzDiscount 2 [1, 1]
    (by simp) (by omega) (by decide) (by decide) (by decide)
  have hT := hopt [0, 1] (by decide) (by decide) (by decide)
  have hsol : solScore (fun i => dcglzGain (([1, 1] : List ℚ).getD i 0)) dcglzDiscount [0, 1]
      = 3 / 2 := by
    show (1 : ℚ) * dcglzDiscount 0 + ((1 : ℚ) * dcglzDiscount 1 + 0) = 3 / 2
    rw [dcglzDiscount_eq, dcglzDiscount_eq]
    norm_num
  rw [hsol] at hT
  rw [hLHS]
  have h12 : (1 : ℚ) / 10 ^ 12 < 1 / 4 := by norm_num
  linarith

end FAF
